import Mathlib

/-!
Verification development for the Tethys natural-language-to-SQL pipeline.

The Python sources validate generator-produced SQL with a pipeline built on
sqlparse.format with keyword_case upper and strip_comments, followed by
regular-expression checks and a walk over the top-level tokens of
sqlparse.parse.  This file embeds that pipeline shallowly:

* the sqlparse lexer is modelled by an explicit fuel-based lexer over
  characters with tokens for whitespace runs, word runs, single-quoted
  strings, double-quoted identifiers, line comments, block comments and
  single punctuation characters;
* comment stripping follows the neighbor-sensitive rule of the
  StripCommentsFilter (a comment between two non-whitespace tokens, not
  adjacent to parentheses, is replaced by its trailing newline run or a
  single space; otherwise it is removed);
* keyword uppercasing maps every word token recognized as a keyword to its
  uppercase form;
* regular-expression searches with word boundaries and IGNORECASE are
  modelled positionally over lowered characters;
* the top-level token walk of sqlparse.parse used by the table check of
  main_app is modelled by a grouping pass that forms parenthesis groups,
  identifier chains with aliases and comma lists, and WHERE groups, which
  are the tokens whose ttype is None in sqlparse.

All definitions are executable, so concrete statements evaluate by decide.
-/

namespace Tethys

/-- Decidable equality for Except, so validator outcomes evaluate by
decide. -/
instance {ε α : Type} [DecidableEq ε] [DecidableEq α] :
    DecidableEq (Except ε α) := fun x y =>
  match x, y with
  | .ok a, .ok b =>
    if h : a = b then .isTrue (by rw [h]) else .isFalse (by simp [h])
  | .error a, .error b =>
    if h : a = b then .isTrue (by rw [h]) else .isFalse (by simp [h])
  | .ok _, .error _ => .isFalse (by simp)
  | .error _, .ok _ => .isFalse (by simp)

/-- Word characters in the sense of the regular-expression class used by
the validators: ASCII letters, digits and underscore. -/
def isWordChar (c : Char) : Bool := c.isAlphanum || c == '_'

/-- Whitespace characters recognized by the lexer and by trimming. -/
def isWsChar (c : Char) : Bool := c == ' ' || c == '\t' || c == '\n' || c == '\r'

/-- Python str.strip: drop whitespace from both ends. -/
def trimChars (cs : List Char) : List Char :=
  ((cs.dropWhile isWsChar).reverse.dropWhile isWsChar).reverse

/-- Python str.lower on a character list. -/
def lowerL (cs : List Char) : List Char := cs.map Char.toLower

/-- Python str.upper on a character list. -/
def upperL (cs : List Char) : List Char := cs.map Char.toUpper

/-- SQL keywords recognized by the normalizer; keyword_case upper maps
word tokens in this set (case-insensitively) to uppercase. -/
def KEYWORDS : List String :=
  ["SELECT", "FROM", "WHERE", "AND", "OR", "NOT", "BETWEEN", "LIMIT",
   "JOIN", "ON", "AS", "WITH", "ORDER", "BY", "GROUP", "HAVING", "UNION",
   "EXCEPT", "INTERSECT", "RETURNING", "INTO", "DESC", "ASC", "INSERT",
   "UPDATE", "DELETE", "DROP", "ALTER", "CREATE", "TRUNCATE", "GRANT",
   "REVOKE", "TABLE", "IN", "IS", "NULL", "LIKE", "DISTINCT", "ALL",
   "SET", "VALUES", "CASE", "WHEN", "THEN", "ELSE", "END", "INNER",
   "LEFT", "RIGHT", "OUTER", "FULL", "CROSS"]

/-- A word token is a keyword when its uppercase form is in KEYWORDS. -/
def isKeyword (w : List Char) : Bool := KEYWORDS.contains (String.mk (upperL w))

/-- Token kinds produced by the lexer. -/
inductive TokKind
  | ws | word | strq | dquo | lineC | blockC | punct
deriving DecidableEq, Repr

/-- A lexer token: a kind together with the exact source characters. -/
structure Tok where
  kind : TokKind
  text : List Char
deriving DecidableEq, Repr

/-- Consume a line comment body up to and including the first newline. -/
def takeLine : List Char → List Char × List Char
  | [] => ([], [])
  | c :: cs =>
    if c == '\n' then ([c], cs)
    else
      let p := takeLine cs
      (c :: p.1, p.2)

/-- Consume a block comment body up to and including the closing star
slash. -/
def takeBlockEnd : List Char → List Char × List Char
  | [] => ([], [])
  | '*' :: '/' :: cs => (['*', '/'], cs)
  | c :: cs =>
    let p := takeBlockEnd cs
    (c :: p.1, p.2)

/-- Consume a quoted body (after the opening quote) up to and including
the closing quote, honoring doubled quotes and backslash-escaped quotes,
as the sqlparse string regular expressions do. -/
def takeQuotedEnd (q : Char) : List Char → List Char × List Char
  | [] => ([], [])
  | [c] => ([c], [])
  | c :: c2 :: cs =>
    if c == '\\' && c2 == q then
      let p := takeQuotedEnd q cs
      (c :: c2 :: p.1, p.2)
    else if c == q && c2 == q then
      let p := takeQuotedEnd q cs
      (c :: c2 :: p.1, p.2)
    else if c == q then ([c], c2 :: cs)
    else
      let p := takeQuotedEnd q (c2 :: cs)
      (c :: p.1, p.2)

/-- The fuel-based lexer.  Each step consumes at least one character, so
fuel equal to the length of the input suffices. -/
def lexGo : Nat → List Char → List Tok
  | 0, _ => []
  | _, [] => []
  | fuel + 1, c :: cs =>
    if isWsChar c then
      ⟨.ws, c :: cs.takeWhile isWsChar⟩ :: lexGo fuel (cs.dropWhile isWsChar)
    else if isWordChar c then
      ⟨.word, c :: cs.takeWhile isWordChar⟩ :: lexGo fuel (cs.dropWhile isWordChar)
    else if c == '\'' then
      let p := takeQuotedEnd '\'' cs
      ⟨.strq, c :: p.1⟩ :: lexGo fuel p.2
    else if c == '"' then
      let p := takeQuotedEnd '"' cs
      ⟨.dquo, c :: p.1⟩ :: lexGo fuel p.2
    else
      match c, cs with
      | '-', '-' :: cs2 =>
        let p := takeLine cs2
        ⟨.lineC, '-' :: '-' :: p.1⟩ :: lexGo fuel p.2
      | '/', '*' :: cs2 =>
        let p := takeBlockEnd cs2
        ⟨.blockC, '/' :: '*' :: p.1⟩ :: lexGo fuel p.2
      | _, _ => ⟨.punct, [c]⟩ :: lexGo fuel cs

/-- Lex a character list. -/
def lexChars (cs : List Char) : List Tok := lexGo cs.length cs

/-- Concatenate the texts of a token list back into characters. -/
def render (ts : List Tok) : List Char := (ts.map Tok.text).flatten

/-- The keyword_case upper filter on one token. -/
def upKw (t : Tok) : Tok :=
  match t.kind with
  | .word => if isKeyword t.text then ⟨.word, upperL t.text⟩ else t
  | _ => t

/-- Whether a token is a comment. -/
def isCommentTok (t : Tok) : Bool := t.kind == .lineC || t.kind == .blockC

/-- Whether a token is whitespace. -/
def isWsTok (t : Tok) : Bool := t.kind == .ws

/-- Whether a token is an opening parenthesis. -/
def isOpenParen (t : Tok) : Bool := t.kind == .punct && t.text == ['(']

/-- Whether a token is a closing parenthesis. -/
def isCloseParen (t : Tok) : Bool := t.kind == .punct && t.text == [')']

/-- The whitespace token that replaces a comment: its trailing newline run
when the comment ends in newlines followed only by spaces, otherwise a
single space. -/
def commentRepl (t : Tok) : Tok :=
  let base := (t.text.reverse.dropWhile (fun c => c == ' ')).takeWhile
    (fun c => c == '\n' || c == '\r')
  if base.isEmpty then ⟨.ws, [' ']⟩ else ⟨.ws, base.reverse⟩

/-- The StripCommentsFilter: a comment with non-whitespace neighbors on
both sides, not preceded by an opening parenthesis and not followed by a
closing parenthesis, is replaced by whitespace; any other comment is
removed.  The first argument is the previous surviving token. -/
def stripGo : Option Tok → List Tok → List Tok
  | _, [] => []
  | prev, t :: rest =>
    if isCommentTok t then
      match prev, rest with
      | some p, n :: _ =>
        if !isWsTok p && !isWsTok n && !isOpenParen p && !isCloseParen n then
          let r := commentRepl t
          r :: stripGo (some r) rest
        else stripGo prev rest
      | _, _ => stripGo prev rest
    else t :: stripGo (some t) rest

/-- The token-level part of sqlparse.format with keyword_case upper and
strip_comments. -/
def fmtToks (ts : List Tok) : List Tok := stripGo none (ts.map upKw)

/-- sqlparse.format(sql, keyword_case=upper, strip_comments=True).strip()
on characters. -/
def sqlFormatChars (cs : List Char) : List Char :=
  trimChars (render (fmtToks (lexChars cs)))

/-- The normalization step shared by all three validators. -/
def sqlFormat (s : String) : String := String.mk (sqlFormatChars s.data)

/-- Case-folding prefix test: the pattern is given pre-lowered and is
compared against the lowered subject. -/
def lowersTo : List Char → List Char → Bool
  | [], _ => true
  | _ :: _, [] => false
  | p :: ps, c :: cs => (c.toLower == p) && lowersTo ps cs

/-- Word-character test on an optional character; absent characters count
as non-word, as at the ends of a regular-expression subject. -/
def optWord : Option Char → Bool
  | none => false
  | some c => isWordChar c

/-- Does the word-boundary-delimited pattern match at the head of cs,
given the character just before cs?  This is the regular expression
backslash-b pat backslash-b with IGNORECASE. -/
def wbAt (pl : List Char) (prev : Option Char) (cs : List Char) : Bool :=
  lowersTo pl cs &&
  (optWord prev != isWordChar (pl.headD ' ')) &&
  (isWordChar (pl.getLastD ' ') != optWord ((cs.drop pl.length).head?))

/-- Search for a word-boundary-delimited pattern anywhere in the subject. -/
def wbSearchGo (pl : List Char) : Option Char → List Char → Bool
  | _, [] => false
  | prev, c :: cs => wbAt pl prev (c :: cs) || wbSearchGo pl (some c) cs

/-- re.search of backslash-b f backslash-b with IGNORECASE. -/
def reSearchWB (f : String) (cs : List Char) : Bool :=
  wbSearchGo (lowerL f.data) none cs

/-- re.search of caret, whitespace star, kw, backslash-b with IGNORECASE:
after optional leading whitespace the subject starts with kw as a whole
word. -/
def startsKw (kw : String) (cs : List Char) : Bool :=
  let rest := cs.dropWhile isWsChar
  lowersTo (lowerL kw.data) rest && !optWord ((rest.drop kw.data.length).head?)

/-- Exact prefix test on character lists. -/
def startsWithL : List Char → List Char → Bool
  | [], _ => true
  | _ :: _, [] => false
  | p :: ps, c :: cs => (c == p) && startsWithL ps cs

/-- Exact substring test on character lists (Python in). -/
def containsSub : List Char → List Char → Bool
  | pat, [] => pat.isEmpty
  | pat, c :: cs => startsWithL pat (c :: cs) || containsSub pat cs

/-- The uppercase substring test deciding limit presence:
Python LIMIT in parsed.upper(). -/
def containsLimitUpper (cs : List Char) : Bool :=
  containsSub "LIMIT".data (upperL cs)

/-- Python str.split with a nonempty separator, fuel-based. -/
def splitGo (sep : List Char) : Nat → List Char → List Char → List (List Char)
  | 0, acc, rest => [acc.reverse ++ rest]
  | _ + 1, acc, [] => [acc.reverse]
  | fuel + 1, acc, c :: cs =>
    if startsWithL sep (c :: cs) then
      acc.reverse :: splitGo sep fuel [] ((c :: cs).drop sep.length)
    else splitGo sep fuel (c :: acc) cs

/-- Python str.split for nonempty separators. -/
def pySplit (sep cs : List Char) : List (List Char) :=
  splitGo sep (cs.length + 1) [] cs

/-- Python newline join. -/
def joinNL : List (List Char) → List Char
  | [] => []
  | [l] => l
  | l :: ls => l ++ '\n' :: joinNL ls

/-- Keep lines until the first whose stripped form starts with an opening
square bracket, which marks generator commentary. -/
def dropExpl : List (List Char) → List (List Char)
  | [] => []
  | l :: ls =>
    if startsWithL ['['] (trimChars l) then []
    else l :: dropExpl ls

end Tethys

namespace Tethys.StreamlitApp

open Tethys

/-- The candidate-statement extraction of streamlit_app.generate_sql
(lines 74 to 97): strip; when a sql-tagged fence occurs, keep the segment
after it; when a plain fence occurs, keep the segment before it; drop
lines from the first bracket-opened line on; truncate at the first
semicolon keeping it. -/
def extractChars (cs0 : List Char) : List Char :=
  let s1 := trimChars cs0
  let s2 :=
    if containsSub "```sql".data s1 then trimChars ((pySplit "```sql".data s1).getD 1 [])
    else s1
  let s3 :=
    if containsSub "```".data s2 then trimChars ((pySplit "```".data s2).headD [])
    else s2
  let s4 := trimChars (joinNL (dropExpl (pySplit ['\n'] s3)))
  if containsSub [';'] s4 then ((pySplit [';'] s4).headD []) ++ [';'] else s4

/-- String wrapper for the streamlit_app extraction. -/
def extract_sql (raw : String) : String := String.mk (extractChars raw.data)

end Tethys.StreamlitApp

namespace Tethys.RagEngine

open Tethys

/-- The candidate-statement extraction of RAG_Engine.generate_sql
(lines 108 to 116): strip; fence handling as in streamlit_app but with no
bracket-line pass; truncate at the first semicolon, stripping the kept
part and re-appending the semicolon. -/
def extractChars (cs0 : List Char) : List Char :=
  let s1 := trimChars cs0
  let s2 :=
    if containsSub "```sql".data s1 then trimChars ((pySplit "```sql".data s1).getD 1 [])
    else s1
  let s3 :=
    if containsSub "```".data s2 then trimChars ((pySplit "```".data s2).headD [])
    else s2
  if containsSub [';'] s3 then trimChars ((pySplit [';'] s3).headD []) ++ [';'] else s3

/-- String wrapper for the rag_engine extraction. -/
def extract_sql (raw : String) : String := String.mk (extractChars raw.data)

/-- The forbidden keyword list of RAG_Engine._sanitize_sql and of
streamlit_app.sanitize_sql. -/
def forbidden : List String :=
  ["INSERT", "UPDATE", "DELETE", "DROP", "ALTER", "CREATE", "TRUNCATE",
   "GRANT", "REVOKE"]

/-- RAG_Engine._sanitize_sql (rag_engine.py lines 120 to 129): normalize,
reject on any forbidden keyword as a whole word, reject unless the text
starts with SELECT, and return the normalized text unchanged. -/
def sanitize_sql (sql : String) : Except String String :=
  match forbidden.find? (fun f => reSearchWB f (sqlFormatChars sql.data)) with
  | some f => .error ("Forbidden SQL keyword found: " ++ f)
  | none =>
    if !startsKw "SELECT" (sqlFormatChars sql.data) then
      .error "Only SELECT queries are allowed."
    else .ok (String.mk (sqlFormatChars sql.data))

/-- RAG_Engine.execute_sql (rag_engine.py lines 131 to 142): sanitize and
run; every exception, including a validation rejection, is caught and
surfaced as None.  The database is an explicit capability. -/
def execute_sql (db : String → Except String (List (List String)))
    (sql : String) : Option (List (List String)) :=
  match sanitize_sql sql with
  | .error _ => none
  | .ok safe =>
    match db safe with
    | .error _ => none
    | .ok df => some df

/-- The literal segments of SUMMARY_PROMPT_TEMPLATE around the two format
placeholders. -/
def summaryPromptPre : String :=
  "\n[INST] You are a data science assistant. Based on the user\x27s original query and the data returned, provide a concise, one-sentence summary of the findings.\n\nOriginal User Query: \""

def summaryPromptMid : String :=
  "\"\n\nData Returned (first 5 rows):\n"

def summaryPromptPost : String :=
  "\n\nInstructions:\n- Summarize the key information from the data in a single, easy-to-understand sentence.\n- Do not describe the columns. Describe the data\x27s meaning.\n- Example: \"The data shows 5 deep-sea temperature measurements in the South Atlantic, with temperatures around 2.5°C at pressures over 5000 dbar.\"\n[/INST]\n"

/-- A textual rendering of the first five rows of a result set, standing
for DataFrame.head().to_string(). -/
def renderHead (df : List (List String)) : String :=
  String.intercalate "\n" ((df.take 5).map (String.intercalate " "))

/-- SUMMARY_PROMPT_TEMPLATE.format with the user query and data head. -/
def summaryPrompt (query : String) (df : List (List String)) : String :=
  summaryPromptPre ++ query ++ summaryPromptMid ++ renderHead df ++ summaryPromptPost

/-- RAG_Engine.summarize_results (rag_engine.py lines 144 to 155): an
empty result set returns the fixed literal without invoking the
completion capability; otherwise a single completion call is made over
the summary prompt and its trimmed response is returned. -/
def summarize_results (llm : String → String) (query : String)
    (df : List (List String)) : String :=
  if df.isEmpty then "The query returned no results."
  else (String.mk (trimChars (llm (summaryPrompt query df)).data))

end Tethys.RagEngine

namespace Tethys.StreamlitApp

open Tethys

/-- streamlit_app.sanitize_sql (lines 99 to 109): normalize, reject on
forbidden keywords, reject unless the text starts with SELECT or WITH,
and append a limit clause when the uppercase substring test fails to see
one. -/
def sanitize_sql (sql : String) : Except String String :=
  match RagEngine.forbidden.find? (fun f => reSearchWB f (sqlFormatChars sql.data)) with
  | some f => .error ("Forbidden SQL keyword found: " ++ f)
  | none =>
    if !(startsKw "SELECT" (sqlFormatChars sql.data)
          || startsKw "WITH" (sqlFormatChars sql.data)) then
      .error "Only SELECT or WITH queries are allowed."
    else if !containsLimitUpper (sqlFormatChars sql.data) then
      .ok (String.mk (sqlFormatChars sql.data ++ " LIMIT 1000".data))
    else .ok (String.mk (sqlFormatChars sql.data))

end Tethys.StreamlitApp

namespace Tethys

/-- Top-level grouped tokens as seen by the table check of main_app:
kw is a keyword token, grp a grouped token whose ttype is None in
sqlparse (identifier, identifier list, parenthesis, WHERE clause, quoted
identifier), num a numeric literal, lit another literal such as a string
or a comment, wsG whitespace and pn other punctuation. -/
inductive GTok
  | kw (v : List Char)
  | grp (v : List Char)
  | num (v : List Char)
  | lit (v : List Char)
  | wsG
  | pn (c : Char)
deriving DecidableEq, Repr

/-- The statement splitter of sqlparse.parse: keep tokens of the first
statement, which ends just after the first semicolon outside
parentheses. -/
def firstStmtGo : Int → List Tok → List Tok
  | _, [] => []
  | depth, t :: rest =>
    if t.kind == .punct && t.text == [';'] then
      if depth ≤ 0 then [t]
      else t :: firstStmtGo depth rest
    else
      let d2 : Int :=
        if isOpenParen t then depth + 1
        else if isCloseParen t then depth - 1
        else depth
      t :: firstStmtGo d2 rest

/-- Consume a balanced parenthesis group; called just after an opening
parenthesis with depth one.  An unbalanced group runs to the end of the
input, as in sqlparse. -/
def takeParen : Nat → Int → List Char → List Tok → List Char × List Tok
  | 0, _, acc, rest => (acc, rest)
  | _ + 1, _, acc, [] => (acc, [])
  | fuel + 1, depth, acc, t :: rest =>
    if isOpenParen t then takeParen fuel (depth + 1) (acc ++ t.text) rest
    else if isCloseParen t then
      if depth ≤ 1 then (acc ++ t.text, rest)
      else takeParen fuel (depth - 1) (acc ++ t.text) rest
    else takeParen fuel depth (acc ++ t.text) rest

/-- Consume a dotted name chain: repeated dot-then-word continuations of
an identifier. -/
def dotChain : Nat → List Char → List Tok → List Char × List Tok
  | 0, acc, rest => (acc, rest)
  | fuel + 1, acc, ⟨.punct, ['.']⟩ :: ⟨.word, w⟩ :: rest =>
    dotChain fuel (acc ++ '.' :: w) rest
  | _ + 1, acc, rest => (acc, rest)

/-- Consume an alias after an identifier chain: either whitespace and a
non-keyword word, or whitespace, AS, whitespace and a non-keyword word,
mirroring how sqlparse absorbs aliases into Identifier groups. -/
def aliasStep (acc : List Char) (toks : List Tok) : List Char × List Tok :=
  match toks with
  | ⟨.ws, s⟩ :: ⟨.word, w⟩ :: rest =>
    if isKeyword w then
      if upperL w == "AS".data then
        match rest with
        | ⟨.ws, s2⟩ :: ⟨.word, w2⟩ :: rest2 =>
          if !isKeyword w2 && !(w2.all Char.isDigit) then
            (acc ++ s ++ w ++ s2 ++ w2, rest2)
          else (acc, toks)
        | _ => (acc, toks)
      else (acc, toks)
    else if w.all Char.isDigit then (acc, toks)
    else (acc ++ s ++ w, rest)
  | _ => (acc, toks)

/-- Look for a comma continuation of an identifier list: optional
whitespace, a comma, optional whitespace and a further identifier word or
quoted identifier.  Returns the consumed connective characters, the next
identifier text and the remaining tokens. -/
def commaIdent (toks : List Tok) : Option (List Char × List Char × List Tok) :=
  let s1 :=
    match toks with
    | ⟨.ws, s⟩ :: r => (s, r)
    | r => ([], r)
  match s1.2 with
  | ⟨.punct, [',']⟩ :: t2 =>
    let s2 :=
      match t2 with
      | ⟨.ws, s⟩ :: r => (s, r)
      | r => ([], r)
    match s2.2 with
    | ⟨.word, w⟩ :: t4 =>
      if !isKeyword w && !(w.all Char.isDigit) then
        some (s1.1 ++ ',' :: s2.1, w, t4)
      else none
    | ⟨.dquo, w⟩ :: t4 => some (s1.1 ++ ',' :: s2.1, w, t4)
    | _ => none
  | _ => none

/-- Extend an identifier group across comma continuations, applying the
dot-chain and alias rules to each list element. -/
def identExt : Nat → List Char → List Tok → List Char × List Tok
  | 0, acc, rest => (acc, rest)
  | fuel + 1, acc, toks =>
    match commaIdent toks with
    | some (mid, w, rest1) =>
      let p1 := dotChain fuel (acc ++ mid ++ w) rest1
      let p2 := aliasStep p1.1 p1.2
      identExt fuel p2.1 p2.2
    | none => (acc, toks)

/-- Build a full identifier group from an initial word. -/
def identGroup (fuel : Nat) (w : List Char) (rest : List Tok) :
    List Char × List Tok :=
  let p1 := dotChain fuel w rest
  let p2 := aliasStep p1.1 p1.2
  identExt fuel p2.1 p2.2

/-- Keywords ending a WHERE group in sqlparse. -/
def whereStops : List String :=
  ["ORDER", "GROUP", "LIMIT", "UNION", "HAVING", "EXCEPT", "INTERSECT",
   "RETURNING", "INTO"]

/-- Consume a WHERE group: everything up to a closing keyword or a
semicolon. -/
def whereGo : Nat → List Char → List Tok → List Char × List Tok
  | 0, acc, rest => (acc, rest)
  | _ + 1, acc, [] => (acc, [])
  | fuel + 1, acc, t :: rest =>
    match t with
    | ⟨.word, w⟩ =>
      if whereStops.contains (String.mk (upperL w)) then (acc, ⟨.word, w⟩ :: rest)
      else whereGo fuel (acc ++ w) rest
    | ⟨.punct, [';']⟩ => (acc, ⟨.punct, [';']⟩ :: rest)
    | _ => whereGo fuel (acc ++ t.text) rest

/-- The top-level grouping pass over the tokens of one statement,
approximating the top-level token list of sqlparse.parse. -/
def groupGo : Nat → List Tok → List GTok
  | 0, _ => []
  | _, [] => []
  | fuel + 1, t :: rest =>
    match t with
    | ⟨.ws, _⟩ => .wsG :: groupGo fuel rest
    | ⟨.strq, v⟩ => .lit v :: groupGo fuel rest
    | ⟨.dquo, v⟩ => .grp v :: groupGo fuel rest
    | ⟨.lineC, v⟩ => .lit v :: groupGo fuel rest
    | ⟨.blockC, v⟩ => .lit v :: groupGo fuel rest
    | ⟨.word, w⟩ =>
      if w.all Char.isDigit then .num w :: groupGo fuel rest
      else if isKeyword w then
        if upperL w == "WHERE".data then
          let p := whereGo fuel w rest
          .grp p.1 :: groupGo fuel p.2
        else .kw w :: groupGo fuel rest
      else
        let p := identGroup fuel w rest
        .grp p.1 :: groupGo fuel p.2
    | ⟨.punct, v⟩ =>
      if v == ['('] then
        let p := takeParen fuel 1 v rest
        .grp p.1 :: groupGo fuel p.2
      else .pn (v.headD ' ') :: groupGo fuel rest

/-- Group a token list with sufficient fuel. -/
def groupToks (ts : List Tok) : List GTok := groupGo ts.length ts

/-- The fixed table allow-list. -/
def ALLOWED_TABLES : List String := ["profiles"]

/-- The table-check walk of main_app.sanitize_sql: after each FROM
keyword, the next token whose ttype is None must name an allow-listed
table; the walk returns the first offending value. -/
def fromCheck : List GTok → Bool → Option (List Char)
  | [], _ => none
  | g :: rest, flag =>
    match g with
    | .kw v =>
      if upperL v == "FROM".data then fromCheck rest true
      else fromCheck rest flag
    | .grp v =>
      if flag then
        if ALLOWED_TABLES.contains (String.mk (lowerL v)) then fromCheck rest false
        else some v
      else fromCheck rest flag
    | _ => fromCheck rest flag

/-- All values checked by the table-check walk: the first ttype-None
group after each FROM keyword. -/
def fromTables : List GTok → Bool → List (List Char)
  | [], _ => []
  | g :: rest, flag =>
    match g with
    | .kw v =>
      if upperL v == "FROM".data then fromTables rest true
      else fromTables rest flag
    | .grp v => if flag then v :: fromTables rest false else fromTables rest flag
    | _ => fromTables rest flag

/-- The grouped top-level tokens of the first statement of a normalized
text, as walked by the table check. -/
def mainGroups (parsed : List Char) : List GTok :=
  groupToks (firstStmtGo 0 (lexChars parsed))

end Tethys

namespace Tethys.MainApp

open Tethys

/-- The forbidden token list of main_app.sanitize_sql, which also scans
for a word-bounded semicolon. -/
def forbidden : List String :=
  ["INSERT", "UPDATE", "DELETE", "DROP", "ALTER", "CREATE", "TRUNCATE",
   "GRANT", "REVOKE", ";"]

/-- main_app.sanitize_sql (lines 69 to 87): normalize, reject on any
forbidden token as a word-bounded match, reject unless the text starts
with SELECT, reject any non-allow-listed table named directly after a
FROM keyword in the first statement, and append a limit clause when the
uppercase substring test fails to see one. -/
def sanitize_sql (sql : String) : Except String String :=
  match forbidden.find? (fun f => reSearchWB f (sqlFormatChars sql.data)) with
  | some f => .error ("Forbidden SQL keyword found: " ++ f)
  | none =>
    if !startsKw "SELECT" (sqlFormatChars sql.data) then
      .error "Only SELECT queries are allowed."
    else
      match fromCheck (mainGroups (sqlFormatChars sql.data)) false with
      | some v => .error ("Table \x27" ++ String.mk v ++ "\x27 is not allowed.")
      | none =>
        if !containsLimitUpper (sqlFormatChars sql.data) then
          .ok (String.mk (sqlFormatChars sql.data ++ " LIMIT 1000".data))
        else .ok (String.mk (sqlFormatChars sql.data))

/-- main_app.run_sql_fetch (lines 92 to 98): sanitize, then execute; a
validation rejection propagates to the caller uncaught.  The database is
an explicit capability. -/
def run_sql_fetch (db : String → Except String (List (List String)))
    (sql : String) : Except String (List (List String)) := do
  let safe ← sanitize_sql sql
  db safe

end Tethys.MainApp

namespace Tethys

/-! ### Definitions supporting the verification -/

/-- One step of the lexer: the first token and the remaining characters. -/
def lexTok : List Char → Option (Tok × List Char)
  | [] => none
  | c :: cs =>
    if isWsChar c then
      some (⟨.ws, c :: cs.takeWhile isWsChar⟩, cs.dropWhile isWsChar)
    else if isWordChar c then
      some (⟨.word, c :: cs.takeWhile isWordChar⟩, cs.dropWhile isWordChar)
    else if c == '\'' then
      let p := takeQuotedEnd '\'' cs
      some (⟨.strq, c :: p.1⟩, p.2)
    else if c == '"' then
      let p := takeQuotedEnd '"' cs
      some (⟨.dquo, c :: p.1⟩, p.2)
    else
      match c, cs with
      | '-', '-' :: cs2 =>
        let p := takeLine cs2
        some (⟨.lineC, '-' :: '-' :: p.1⟩, p.2)
      | '/', '*' :: cs2 =>
        let p := takeBlockEnd cs2
        some (⟨.blockC, '/' :: '*' :: p.1⟩, p.2)
      | _, _ => some (⟨.punct, [c]⟩, cs)

/-- No token of the list is a comment. -/
def NoCom (ts : List Tok) : Prop := ∀ t ∈ ts, isCommentTok t = false

/-- Every token of the list is fixed by the keyword-case filter. -/
def UpOK (ts : List Tok) : Prop := ∀ t ∈ ts, upKw t = t

/-- The token list of a text is fixed by the format filters: no comments
remain and keywords are already uppercase. -/
def FixedStr (cs : List Char) : Prop := fmtToks (lexChars cs) = lexChars cs

/-- First character of the rendering of a token list. -/
def headC (ts : List Tok) : Option Char := (render ts).head?

/-- The per-kind conditions under which a token re-lexes to itself in
front of any continuation whose first character is oh.  Closedness of
quoted and comment tokens is stated operationally: the consumer splits
the body off any continuation. -/
def tokOK (t : Tok) (oh : Option Char) : Prop :=
  match t.kind with
  | .ws => t.text ≠ [] ∧ (∀ c ∈ t.text, isWsChar c = true) ∧
      (∀ c, oh = some c → isWsChar c = false)
  | .word => t.text ≠ [] ∧ (∀ c ∈ t.text, isWordChar c = true) ∧
      (∀ c, oh = some c → isWordChar c = false)
  | .strq => ∃ body, t.text = '\'' :: body ∧
      (((∀ v : List Char, v.head? ≠ some '\'' →
            takeQuotedEnd '\'' (body ++ v) = (body, v)) ∧ oh ≠ some '\'') ∨
        (takeQuotedEnd '\'' body = (body, []) ∧ oh = none))
  | .dquo => ∃ body, t.text = '"' :: body ∧
      (((∀ v : List Char, v.head? ≠ some '"' →
            takeQuotedEnd '"' (body ++ v) = (body, v)) ∧ oh ≠ some '"') ∨
        (takeQuotedEnd '"' body = (body, []) ∧ oh = none))
  | .lineC => ∃ body, t.text = '-' :: '-' :: body
  | .blockC => ∃ body, t.text = '/' :: '*' :: body
  | .punct => ∃ c, t.text = [c] ∧ isWsChar c = false ∧ isWordChar c = false ∧
      c ≠ '\'' ∧ c ≠ '"' ∧
      (c = '-' → oh ≠ some '-') ∧ (c = '/' → oh ≠ some '*')

/-- A token peels off the front of any continuation whose first character
is oh. -/
def Peels (t : Tok) (oh : Option Char) : Prop :=
  ∀ v : List Char, v.head? = oh → lexTok (t.text ++ v) = some (t, v)

/-- Pairwise linking of a token list: each token satisfies its conditions
against the first character of the rest. -/
def Linked : List Tok → Prop
  | [] => True
  | t :: ts => tokOK t (headC ts) ∧ Linked ts

/-- The characters appended by the limit-injection step. -/
def limChars : List Char := " LIMIT 1000".data

/-- Whether the statement splitter cuts inside this token list. -/
def hasCut : Int → List Tok → Bool
  | _, [] => false
  | depth, t :: rest =>
    if t.kind == .punct && t.text == [';'] then
      if depth ≤ 0 then true
      else hasCut depth rest
    else
      hasCut
        (if isOpenParen t then depth + 1
          else if isCloseParen t then depth - 1 else depth) rest

/-- The parenthesis depth after a token list. -/
def stmtDepth : Int → List Tok → Int
  | depth, [] => depth
  | depth, t :: rest =>
    stmtDepth
      (if isOpenParen t then depth + 1
        else if isCloseParen t then depth - 1 else depth) rest

/-- The flag state of the table-check walk after a group list. -/
def flagAfter : List GTok → Bool → Bool
  | [], flag => flag
  | g :: rest, flag =>
    match g with
    | .kw v => if upperL v == "FROM".data then flagAfter rest true
        else flagAfter rest flag
    | .grp _ => if flag then flagAfter rest false else flagAfter rest flag
    | _ => flagAfter rest flag

/-- Whether a grouped token has ttype None, making it subject to the
table check. -/
def isGrpG : GTok → Bool
  | .grp _ => true
  | _ => false

/-- Relatedness of grouped tokens for the table-check walk: grouped
values may differ as long as their allow-list membership agrees, literal
values may differ freely, and everything else must be equal. -/
inductive GEq : GTok → GTok → Prop
  | kw (v : List Char) : GEq (.kw v) (.kw v)
  | num (v : List Char) : GEq (.num v) (.num v)
  | wsG : GEq .wsG .wsG
  | pn (c : Char) : GEq (.pn c) (.pn c)
  | lit (v v2 : List Char) : GEq (.lit v) (.lit v2)
  | grp (v v2 : List Char)
      (h : ALLOWED_TABLES.contains (String.mk (lowerL v))
        = ALLOWED_TABLES.contains (String.mk (lowerL v2))) :
      GEq (.grp v) (.grp v2)

/-- The per-kind conditions of strip-phase wellformedness: like tokOK,
but whitespace tokens carry no successor condition, word tokens are also
fixed by the keyword-case filter, and comment tokens carry only their
shape. -/
def stokOK (t : Tok) (oh : Option Char) : Prop :=
  match t.kind with
  | .ws => t.text ≠ [] ∧ (∀ c ∈ t.text, isWsChar c = true)
  | .word => t.text ≠ [] ∧ (∀ c ∈ t.text, isWordChar c = true) ∧ upKw t = t ∧
      (∀ c, oh = some c → isWordChar c = false)
  | .strq => ∃ body, t.text = '\'' :: body ∧
      (((∀ v : List Char, v.head? ≠ some '\'' →
            takeQuotedEnd '\'' (body ++ v) = (body, v)) ∧ oh ≠ some '\'') ∨
        (takeQuotedEnd '\'' body = (body, []) ∧ oh = none))
  | .dquo => ∃ body, t.text = '"' :: body ∧
      (((∀ v : List Char, v.head? ≠ some '"' →
            takeQuotedEnd '"' (body ++ v) = (body, v)) ∧ oh ≠ some '"') ∨
        (takeQuotedEnd '"' body = (body, []) ∧ oh = none))
  | .lineC => ∃ body, t.text = '-' :: '-' :: body
  | .blockC => ∃ body, t.text = '/' :: '*' :: body
  | .punct => ∃ c, t.text = [c] ∧ isWsChar c = false ∧ isWordChar c = false ∧
      c ≠ '\'' ∧ c ≠ '"' ∧
      (c = '-' → oh ≠ some '-') ∧ (c = '/' → oh ≠ some '*')

/-- Pairwise strip-phase wellformedness of a token list. -/
def SLinked : List Tok → Prop
  | [] => True
  | t :: ts => stokOK t (headC ts) ∧ SLinked ts

/-- Wellformedness of a formatted token list: pairwise conditions and no
comments remaining. -/
def Good (ts : List Tok) : Prop := SLinked ts ∧ NoCom ts

/-- Removal of trailing whitespace only; trimChars is this after removing
leading whitespace. -/
def trimTrail (cs : List Char) : List Char := (cs.reverse.dropWhile isWsChar).reverse

/-- The tokens of the appended limit clause. -/
def limToks : List Tok :=
  [⟨.ws, [' ']⟩, ⟨.word, "LIMIT".data⟩, ⟨.ws, [' ']⟩, ⟨.word, "1000".data⟩]

/-! ### Helper lemmas -/

theorem fromCheck_none_tables (gs : List GTok) :
    ∀ flag, fromCheck gs flag = none →
      ∀ v ∈ fromTables gs flag, ALLOWED_TABLES.contains (String.mk (lowerL v)) = true := by
  induction gs with
  | nil => intro flag _ v hv; simp [fromTables] at hv
  | cons g rest ih =>
    intro flag hchk v hv
    cases g with
    | kw w =>
      rcases Bool.eq_false_or_eq_true (upperL w == "FROM".data) with hfr | hfr <;>
        · simp only [fromCheck, fromTables, hfr] at hchk hv
          simp only [Bool.false_eq_true, if_false, if_true] at hchk hv
          exact ih _ hchk v hv
    | grp w =>
      cases flag with
      | false =>
        simp only [fromCheck, fromTables, Bool.false_eq_true, if_false] at hchk hv
        exact ih _ hchk v hv
      | true =>
        by_cases hall : ALLOWED_TABLES.contains (String.mk (lowerL w)) = true
        · simp only [fromCheck, fromTables, hall, if_true] at hchk hv
          rcases List.mem_cons.mp hv with hv | hv
          · subst hv; exact hall
          · exact ih _ hchk v hv
        · exfalso
          simp only [fromCheck, if_true, if_neg hall] at hchk
          exact Option.some_ne_none _ hchk
    | num w => exact ih _ hchk v hv
    | lit w => exact ih _ hchk v hv
    | wsG => exact ih _ hchk v hv
    | pn c => exact ih _ hchk v hv

theorem containsSub_append_right (pat a b : List Char)
    (h : containsSub pat b = true) : containsSub pat (a ++ b) = true := by
  induction a with
  | nil => simpa using h
  | cons c cs ih =>
    simp only [List.cons_append, containsSub, Bool.or_eq_true]
    exact Or.inr ih

/-- What acceptance by main_app.sanitize_sql implies: no forbidden match,
a SELECT entry point, a passing table walk, and the output determined by
the limit substring test. -/
theorem mainSanitizeOkElim {sql out : String}
    (h : MainApp.sanitize_sql sql = .ok out) :
    List.find? (fun f => reSearchWB f (sqlFormatChars sql.data)) MainApp.forbidden = none ∧
    startsKw "SELECT" (sqlFormatChars sql.data) = true ∧
    fromCheck (mainGroups (sqlFormatChars sql.data)) false = none ∧
    ((containsLimitUpper (sqlFormatChars sql.data) = false ∧
        out = String.mk (sqlFormatChars sql.data ++ " LIMIT 1000".data)) ∨
      (containsLimitUpper (sqlFormatChars sql.data) = true ∧
        out = String.mk (sqlFormatChars sql.data))) := by
  simp only [MainApp.sanitize_sql] at h
  cases hfind : List.find? (fun f => reSearchWB f (sqlFormatChars sql.data)) MainApp.forbidden with
  | some f => rw [hfind] at h; simp at h
  | none =>
    rw [hfind] at h
    cases hsel : startsKw "SELECT" (sqlFormatChars sql.data) with
    | false => rw [hsel] at h; simp at h
    | true =>
      rw [hsel] at h
      simp only [Bool.not_true, Bool.false_eq_true, if_false] at h
      cases hchk : fromCheck (mainGroups (sqlFormatChars sql.data)) false with
      | some v => rw [hchk] at h; simp at h
      | none =>
        rw [hchk] at h
        cases hlim : containsLimitUpper (sqlFormatChars sql.data) with
        | false =>
          rw [hlim] at h
          simp only [Bool.not_false, if_true, Except.ok.injEq] at h
          exact ⟨rfl, rfl, rfl, Or.inl ⟨rfl, h.symm⟩⟩
        | true =>
          rw [hlim] at h
          simp only [Bool.not_true, Bool.false_eq_true, if_false, Except.ok.injEq] at h
          exact ⟨rfl, rfl, rfl, Or.inr ⟨rfl, h.symm⟩⟩

/-- What acceptance by RAG_Engine._sanitize_sql implies. -/
theorem ragSanitizeOkElim {sql out : String}
    (h : RagEngine.sanitize_sql sql = .ok out) :
    List.find? (fun f => reSearchWB f (sqlFormatChars sql.data)) RagEngine.forbidden = none ∧
    startsKw "SELECT" (sqlFormatChars sql.data) = true ∧
    out = String.mk (sqlFormatChars sql.data) := by
  simp only [RagEngine.sanitize_sql] at h
  cases hfind : List.find? (fun f => reSearchWB f (sqlFormatChars sql.data)) RagEngine.forbidden with
  | some f => rw [hfind] at h; simp at h
  | none =>
    rw [hfind] at h
    cases hsel : startsKw "SELECT" (sqlFormatChars sql.data) with
    | false => rw [hsel] at h; simp at h
    | true =>
      rw [hsel] at h
      simp only [Bool.not_true, Bool.false_eq_true, if_false, Except.ok.injEq] at h
      exact ⟨rfl, rfl, h.symm⟩

/-- What acceptance by streamlit_app.sanitize_sql implies. -/
theorem streamlitSanitizeOkElim {sql out : String}
    (h : StreamlitApp.sanitize_sql sql = .ok out) :
    List.find? (fun f => reSearchWB f (sqlFormatChars sql.data)) RagEngine.forbidden = none ∧
    (startsKw "SELECT" (sqlFormatChars sql.data)
      || startsKw "WITH" (sqlFormatChars sql.data)) = true ∧
    ((containsLimitUpper (sqlFormatChars sql.data) = false ∧
        out = String.mk (sqlFormatChars sql.data ++ " LIMIT 1000".data)) ∨
      (containsLimitUpper (sqlFormatChars sql.data) = true ∧
        out = String.mk (sqlFormatChars sql.data))) := by
  simp only [StreamlitApp.sanitize_sql] at h
  cases hfind : List.find? (fun f => reSearchWB f (sqlFormatChars sql.data)) RagEngine.forbidden with
  | some f => rw [hfind] at h; simp at h
  | none =>
    rw [hfind] at h
    cases hsel : (startsKw "SELECT" (sqlFormatChars sql.data)
        || startsKw "WITH" (sqlFormatChars sql.data)) with
    | false => rw [hsel] at h; simp at h
    | true =>
      rw [hsel] at h
      simp only [Bool.not_true, Bool.false_eq_true, if_false] at h
      cases hlim : containsLimitUpper (sqlFormatChars sql.data) with
      | false =>
        rw [hlim] at h
        simp only [Bool.not_false, if_true, Except.ok.injEq] at h
        exact ⟨rfl, rfl, Or.inl ⟨rfl, h.symm⟩⟩
      | true =>
        rw [hlim] at h
        simp only [Bool.not_true, Bool.false_eq_true, if_false, Except.ok.injEq] at h
        exact ⟨rfl, rfl, Or.inr ⟨rfl, h.symm⟩⟩

end Tethys

namespace Tethys

/-! ### Claim theorems -/

/-- C1 counterexample: a statement joining the non-allow-listed table
users is accepted by main_app.sanitize_sql, because only the group right
after FROM is checked and JOIN clauses are not, refuting the claim that
every table referenced in FROM and JOIN clauses must be allow-listed. -/
theorem c1_counterexample :
    MainApp.sanitize_sql
        "SELECT * FROM profiles JOIN users ON users.platform_number = profiles.platform_number"
      = .ok "SELECT * FROM profiles JOIN users ON users.platform_number = profiles.platform_number LIMIT 1000"
    ∧ ALLOWED_TABLES.contains "users" = false := by decide

/-- C1 amended: the scenario SELECT star FROM users semicolon is rejected
naming users, and for every accepted statement every table named directly
after a FROM keyword of the first statement is in the allow-list; tables
referenced through JOIN are not checked. -/
theorem c1_from_tables_allowlisted :
    MainApp.sanitize_sql "SELECT * FROM users;" = .error "Table \x27users\x27 is not allowed." ∧
    ∀ sql out : String, MainApp.sanitize_sql sql = .ok out →
      ∀ v ∈ fromTables (mainGroups (sqlFormatChars sql.data)) false,
        ALLOWED_TABLES.contains (String.mk (lowerL v)) = true := by
  refine ⟨by decide, ?_⟩
  intro sql out h v hv
  exact fromCheck_none_tables _ _ (mainSanitizeOkElim h).2.2.1 v hv

/-- C1 witness: the amended theorem applied to a concrete accepted
statement. -/
theorem c1_witness :
    MainApp.sanitize_sql "SELECT latitude FROM profiles"
      = .ok "SELECT latitude FROM profiles LIMIT 1000" ∧
    ∀ v ∈ fromTables (mainGroups (sqlFormatChars ("SELECT latitude FROM profiles" : String).data)) false,
      ALLOWED_TABLES.contains (String.mk (lowerL v)) = true :=
  ⟨by decide, c1_from_tables_allowlisted.2 "SELECT latitude FROM profiles"
     "SELECT latitude FROM profiles LIMIT 1000" (by decide)⟩

/-- C2 counterexample: DROP occurs as a whole token inside a comment of
the candidate, yet the validator accepts the statement because comments
are stripped before the forbidden scan, refuting the claim that keywords
inside comments are rejected. -/
theorem c2_counterexample :
    reSearchWB "DROP" ("SELECT * FROM profiles -- DROP" : String).data = true ∧
    RagEngine.sanitize_sql "SELECT * FROM profiles -- DROP" = .ok "SELECT * FROM profiles" := by
  decide

/-- C2 amended: whenever a forbidden keyword survives normalization as a
whole token, in any letter case, validation rejects with an error naming
a matching forbidden keyword; keywords occurring only inside comments are
removed by normalization and do not trigger rejection. -/
theorem c2_forbidden_outside_comments :
    ∀ sql : String,
      (∃ f ∈ RagEngine.forbidden, reSearchWB f (sqlFormatChars sql.data) = true) →
      ∃ f, f ∈ RagEngine.forbidden ∧ reSearchWB f (sqlFormatChars sql.data) = true ∧
        RagEngine.sanitize_sql sql = .error ("Forbidden SQL keyword found: " ++ f) := by
  intro sql h
  cases hfind : List.find? (fun f => reSearchWB f (sqlFormatChars sql.data)) RagEngine.forbidden with
  | none =>
    exfalso
    obtain ⟨f, hmem, hmatch⟩ := h
    have hnone := List.find?_eq_none.mp hfind f hmem
    simp [hmatch] at hnone
  | some f =>
    refine ⟨f, List.mem_of_find?_eq_some hfind, by simpa using List.find?_some hfind, ?_⟩
    simp only [RagEngine.sanitize_sql, hfind]

/-- C2 witness: a lowercase forbidden keyword outside comments is
rejected with the uppercased keyword named. -/
theorem c2_witness :
    (∃ f ∈ RagEngine.forbidden,
        reSearchWB f (sqlFormatChars ("drop table profiles" : String).data) = true) ∧
    (∃ f, f ∈ RagEngine.forbidden ∧
        reSearchWB f (sqlFormatChars ("drop table profiles" : String).data) = true ∧
        RagEngine.sanitize_sql "drop table profiles"
          = .error ("Forbidden SQL keyword found: " ++ f)) :=
  ⟨⟨"DROP", by decide, by decide⟩,
   c2_forbidden_outside_comments "drop table profiles" ⟨"DROP", by decide, by decide⟩⟩

/-- C3 counterexample: the scenario candidate validates with the limit
clause appended after the trailing semicolon, not before it as the claim
states. -/
theorem c3_counterexample :
    MainApp.sanitize_sql
        "SELECT pressure, temperature FROM profiles WHERE latitude BETWEEN -40 AND -10;"
      = .ok "SELECT pressure, temperature FROM profiles WHERE latitude BETWEEN -40 AND -10; LIMIT 1000" ∧
    ("SELECT pressure, temperature FROM profiles WHERE latitude BETWEEN -40 AND -10; LIMIT 1000" : String)
      ≠ "SELECT pressure, temperature FROM profiles WHERE latitude BETWEEN -40 AND -10 LIMIT 1000;" := by
  decide

/-- C3 amended: every accepted candidate whose normalized text lacks the
LIMIT substring is returned with the text LIMIT 1000 appended after the
whole normalized text, including after a trailing semicolon, and the
output then contains the limit text. -/
theorem c3_limit_appended :
    ∀ sql out : String, MainApp.sanitize_sql sql = .ok out →
      containsLimitUpper (sqlFormatChars sql.data) = false →
      out = String.mk (sqlFormatChars sql.data ++ " LIMIT 1000".data) ∧
      containsLimitUpper out.data = true := by
  intro sql out h hlim
  rcases (mainSanitizeOkElim h).2.2.2 with ⟨_, hout⟩ | ⟨hl, _⟩
  · subst hout
    refine ⟨rfl, ?_⟩
    show containsLimitUpper (sqlFormatChars sql.data ++ " LIMIT 1000".data) = true
    unfold containsLimitUpper upperL
    rw [List.map_append]
    exact containsSub_append_right _ _ _ (by decide)
  · rw [hl] at hlim; cases hlim

/-- C3 witness: the amended theorem applied to the scenario candidate. -/
theorem c3_witness :
    MainApp.sanitize_sql
        "SELECT pressure, temperature FROM profiles WHERE latitude BETWEEN -40 AND -10;"
      = .ok "SELECT pressure, temperature FROM profiles WHERE latitude BETWEEN -40 AND -10; LIMIT 1000" ∧
    (("SELECT pressure, temperature FROM profiles WHERE latitude BETWEEN -40 AND -10; LIMIT 1000" : String)
        = String.mk (sqlFormatChars
            ("SELECT pressure, temperature FROM profiles WHERE latitude BETWEEN -40 AND -10;" : String).data
          ++ " LIMIT 1000".data) ∧
      containsLimitUpper
        ("SELECT pressure, temperature FROM profiles WHERE latitude BETWEEN -40 AND -10; LIMIT 1000" : String).data
        = true) :=
  ⟨by decide,
   c3_limit_appended
     "SELECT pressure, temperature FROM profiles WHERE latitude BETWEEN -40 AND -10;"
     "SELECT pressure, temperature FROM profiles WHERE latitude BETWEEN -40 AND -10; LIMIT 1000"
     (by decide) (by decide)⟩

/-- C4 counterexample: two SELECT statements joined by a separator
followed by a space pass both main_app and rag_engine validation, because
the semicolon pattern only matches a separator flanked by word characters
on both sides and rag_engine has no separator check at all. -/
theorem c4_counterexample :
    MainApp.sanitize_sql "SELECT latitude FROM profiles; SELECT longitude FROM profiles"
      = .ok "SELECT latitude FROM profiles; SELECT longitude FROM profiles LIMIT 1000" ∧
    RagEngine.sanitize_sql "SELECT latitude FROM profiles; SELECT longitude FROM profiles"
      = .ok "SELECT latitude FROM profiles; SELECT longitude FROM profiles" := by decide

/-- C4 amended: main_app rejects a statement whenever its normalized text
contains a separator directly flanked by word characters on both sides;
separators followed by whitespace or at the end of input are not
rejected, and the rag_engine and streamlit validators have no separator
check. -/
theorem c4_separator_flanked :
    ∀ sql : String, reSearchWB ";" (sqlFormatChars sql.data) = true →
      ∃ f, f ∈ MainApp.forbidden ∧
        MainApp.sanitize_sql sql = .error ("Forbidden SQL keyword found: " ++ f) := by
  intro sql h
  cases hfind : List.find? (fun f => reSearchWB f (sqlFormatChars sql.data)) MainApp.forbidden with
  | none =>
    exfalso
    have hnone := List.find?_eq_none.mp hfind ";" (by decide)
    simp [h] at hnone
  | some f =>
    exact ⟨f, List.mem_of_find?_eq_some hfind, by simp only [MainApp.sanitize_sql, hfind]⟩

/-- C4 witness: a word-flanked separator is rejected. -/
theorem c4_witness :
    reSearchWB ";"
      (sqlFormatChars ("SELECT latitude FROM profiles;SELECT longitude FROM profiles" : String).data)
      = true ∧
    ∃ f, f ∈ MainApp.forbidden ∧
      MainApp.sanitize_sql "SELECT latitude FROM profiles;SELECT longitude FROM profiles"
        = .error ("Forbidden SQL keyword found: " ++ f) :=
  ⟨by decide,
   c4_separator_flanked "SELECT latitude FROM profiles;SELECT longitude FROM profiles" (by decide)⟩

/-- C5 counterexample: a candidate whose first token is WITH is rejected
by the rag_engine and main_app validators, refuting the claim that the
validator accepts WITH at the entry-point check. -/
theorem c5_counterexample :
    RagEngine.sanitize_sql "WITH t AS (SELECT latitude FROM profiles) SELECT latitude FROM t"
      = .error "Only SELECT queries are allowed." ∧
    MainApp.sanitize_sql "WITH t AS (SELECT latitude FROM profiles) SELECT latitude FROM t"
      = .error "Only SELECT queries are allowed." := by decide

/-- C5 amended: every accepted statement starts with SELECT or WITH under
the streamlit validator, and with SELECT alone under the rag_engine and
main_app validators, which reject WITH candidates. -/
theorem c5_entry_point :
    (∀ sql out : String, StreamlitApp.sanitize_sql sql = .ok out →
        (startsKw "SELECT" (sqlFormatChars sql.data)
          || startsKw "WITH" (sqlFormatChars sql.data)) = true) ∧
    (∀ sql out : String, RagEngine.sanitize_sql sql = .ok out →
        startsKw "SELECT" (sqlFormatChars sql.data) = true) ∧
    (∀ sql out : String, MainApp.sanitize_sql sql = .ok out →
        startsKw "SELECT" (sqlFormatChars sql.data) = true) :=
  ⟨fun _ _ h => (streamlitSanitizeOkElim h).2.1,
   fun _ _ h => (ragSanitizeOkElim h).2.1,
   fun _ _ h => (mainSanitizeOkElim h).2.1⟩

/-- C5 witness: streamlit accepts a WITH candidate and rag_engine accepts
a SELECT candidate, instantiating the amended theorem. -/
theorem c5_witness :
    StreamlitApp.sanitize_sql "WITH t AS (SELECT latitude FROM profiles) SELECT latitude FROM t"
      = .ok "WITH t AS (SELECT latitude FROM profiles) SELECT latitude FROM t LIMIT 1000" ∧
    (startsKw "SELECT"
        (sqlFormatChars ("WITH t AS (SELECT latitude FROM profiles) SELECT latitude FROM t" : String).data)
      || startsKw "WITH"
        (sqlFormatChars ("WITH t AS (SELECT latitude FROM profiles) SELECT latitude FROM t" : String).data))
      = true ∧
    RagEngine.sanitize_sql "SELECT latitude FROM profiles" = .ok "SELECT latitude FROM profiles" ∧
    startsKw "SELECT" (sqlFormatChars ("SELECT latitude FROM profiles" : String).data) = true :=
  ⟨by decide,
   c5_entry_point.1 "WITH t AS (SELECT latitude FROM profiles) SELECT latitude FROM t"
     "WITH t AS (SELECT latitude FROM profiles) SELECT latitude FROM t LIMIT 1000" (by decide),
   by decide,
   c5_entry_point.2.1 "SELECT latitude FROM profiles" "SELECT latitude FROM profiles" (by decide)⟩

/-- C6 counterexample: a rejected candidate makes rag_engine execute_sql
return None to its caller even though the database capability would have
returned rows, refuting the claim that no failure results in a silent
None in place of an error. -/
theorem c6_counterexample :
    RagEngine.execute_sql (fun _ => Except.ok [["row"]]) "DROP TABLE profiles" = none := by
  decide

/-- C6 amended: when validation rejects, rag_engine execute_sql catches
the rejection and returns None without invoking the database for any
database capability, while main_app run_sql_fetch surfaces the rejection
verbatim to its caller. -/
theorem c6_error_paths :
    (∀ (db : String → Except String (List (List String))) (sql e : String),
        RagEngine.sanitize_sql sql = .error e → RagEngine.execute_sql db sql = none) ∧
    (∀ (db : String → Except String (List (List String))) (sql e : String),
        MainApp.sanitize_sql sql = .error e → MainApp.run_sql_fetch db sql = .error e) := by
  constructor
  · intro db sql e h
    simp only [RagEngine.execute_sql, h]
  · intro db sql e h
    simp only [MainApp.run_sql_fetch, h]
    rfl

/-- C6 witness: both error paths at a concrete rejected candidate and a
concrete database capability. -/
theorem c6_witness :
    RagEngine.execute_sql (fun _ => Except.ok []) "DROP TABLE profiles" = none ∧
    MainApp.run_sql_fetch (fun _ => Except.ok []) "DROP TABLE profiles"
      = .error "Forbidden SQL keyword found: DROP" :=
  ⟨c6_error_paths.1 (fun _ => Except.ok []) "DROP TABLE profiles"
      "Forbidden SQL keyword found: DROP" (by decide),
   c6_error_paths.2 (fun _ => Except.ok []) "DROP TABLE profiles"
      "Forbidden SQL keyword found: DROP" (by decide)⟩

/-- C7 counterexample: on a fenced block without a language tag both
extractors keep the text before the first fence, here empty, rather than
the text strictly between the fences, refuting the claimed extraction
algorithm. -/
theorem c7_counterexample :
    StreamlitApp.extract_sql "```\nSELECT 1;\n```" = "" ∧
    RagEngine.extract_sql "```\nSELECT 1;\n```" = "" ∧
    ("" : String) ≠ "SELECT 1;" := by decide

/-- C7 amended: with a sql-tagged fence the text after the tag up to the
next fence is taken and the scenario extracts exactly SELECT 1 with its
terminator; with an untagged fence the text before the first fence is
kept and the block content is discarded. -/
theorem c7_extraction_scenario :
    StreamlitApp.extract_sql "```sql\nSELECT 1;\n```\n[This query returns the number one.]"
      = "SELECT 1;" ∧
    RagEngine.extract_sql "```sql\nSELECT 1;\n```\n[This query returns the number one.]"
      = "SELECT 1;" ∧
    StreamlitApp.extract_sql "SELECT 2;\n```\nSELECT 1;\n```" = "SELECT 2;" := by decide

/-- C8: for every completion capability and every question, an empty
result set yields exactly the fixed literal, and the result does not
depend on the completion capability, which is therefore not invoked. -/
theorem c8_empty_result_summary :
    ∀ (llm llm2 : String → String) (query : String),
      RagEngine.summarize_results llm query [] = "The query returned no results." ∧
      RagEngine.summarize_results llm query [] = RagEngine.summarize_results llm2 query [] :=
  fun _ _ _ => ⟨rfl, rfl⟩

/-- C10: both the main_app and streamlit validators decide limit presence
by the uppercase substring test on the normalized text: accepted
statements containing the substring are returned unchanged and accepted
statements lacking it get the limit text appended after the whole text. -/
theorem c10_limit_substring_test :
    (∀ sql out : String, MainApp.sanitize_sql sql = .ok out →
        (containsLimitUpper (sqlFormatChars sql.data) = true →
          out = String.mk (sqlFormatChars sql.data)) ∧
        (containsLimitUpper (sqlFormatChars sql.data) = false →
          out = String.mk (sqlFormatChars sql.data ++ " LIMIT 1000".data))) ∧
    (∀ sql out : String, StreamlitApp.sanitize_sql sql = .ok out →
        (containsLimitUpper (sqlFormatChars sql.data) = true →
          out = String.mk (sqlFormatChars sql.data)) ∧
        (containsLimitUpper (sqlFormatChars sql.data) = false →
          out = String.mk (sqlFormatChars sql.data ++ " LIMIT 1000".data))) := by
  constructor
  · intro sql out h
    rcases (mainSanitizeOkElim h).2.2.2 with ⟨hl, ho⟩ | ⟨hl, ho⟩
    · exact ⟨fun h2 => absurd (hl.symm.trans h2) (by decide), fun _ => ho⟩
    · exact ⟨fun _ => ho, fun h2 => absurd (hl.symm.trans h2) (by decide)⟩
  · intro sql out h
    rcases (streamlitSanitizeOkElim h).2.2 with ⟨hl, ho⟩ | ⟨hl, ho⟩
    · exact ⟨fun h2 => absurd (hl.symm.trans h2) (by decide), fun _ => ho⟩
    · exact ⟨fun _ => ho, fun h2 => absurd (hl.symm.trans h2) (by decide)⟩

/-- C10 witness: a statement carrying limit only inside a string literal
is accepted and returned without an appended cap. -/
theorem c10_witness :
    MainApp.sanitize_sql "SELECT temp_qc FROM profiles WHERE temp_qc = \x27limit\x27"
      = .ok "SELECT temp_qc FROM profiles WHERE temp_qc = \x27limit\x27" ∧
    ((containsLimitUpper
        (sqlFormatChars ("SELECT temp_qc FROM profiles WHERE temp_qc = \x27limit\x27" : String).data)
        = true →
      ("SELECT temp_qc FROM profiles WHERE temp_qc = \x27limit\x27" : String)
        = String.mk (sqlFormatChars
            ("SELECT temp_qc FROM profiles WHERE temp_qc = \x27limit\x27" : String).data)) ∧
     (containsLimitUpper
        (sqlFormatChars ("SELECT temp_qc FROM profiles WHERE temp_qc = \x27limit\x27" : String).data)
        = false →
      ("SELECT temp_qc FROM profiles WHERE temp_qc = \x27limit\x27" : String)
        = String.mk (sqlFormatChars
            ("SELECT temp_qc FROM profiles WHERE temp_qc = \x27limit\x27" : String).data
          ++ " LIMIT 1000".data))) :=
  ⟨by decide,
   c10_limit_substring_test.1 "SELECT temp_qc FROM profiles WHERE temp_qc = \x27limit\x27"
     "SELECT temp_qc FROM profiles WHERE temp_qc = \x27limit\x27" (by decide)⟩

end Tethys

namespace Tethys

theorem takeLine_split : ∀ cs : List Char, (takeLine cs).1 ++ (takeLine cs).2 = cs := by
  intro cs
  induction cs with
  | nil => rfl
  | cons c cs ih =>
    simp only [takeLine]
    split
    · rfl
    · simpa using ih

theorem takeBlockEnd_split : ∀ cs : List Char, (takeBlockEnd cs).1 ++ (takeBlockEnd cs).2 = cs := by
  intro cs
  induction cs using takeBlockEnd.induct with
  | case1 => rfl
  | case2 => rfl
  | case3 c cs h ih => simpa [takeBlockEnd] using ih

theorem takeQuotedEnd_split (q : Char) :
    ∀ cs : List Char, (takeQuotedEnd q cs).1 ++ (takeQuotedEnd q cs).2 = cs := by
  intro cs
  induction cs using takeQuotedEnd.induct q with
  | case1 => rfl
  | case2 c => rfl
  | case3 c c2 cs h ih => simp only [takeQuotedEnd, h, if_pos]; simpa using ih
  | case4 c c2 cs h1 h2 ih => simp only [takeQuotedEnd, h1, h2]; simp; simpa using ih
  | case5 c c2 cs h1 h2 h3 =>
    have hc2 : ¬ (c2 = q) := by
      intro h
      apply h2
      simp [h, (by simpa using h3 : c = q)]
    simp [takeQuotedEnd, h1, h2, h3, hc2]
  | case6 c c2 cs h1 h2 h3 ih => simp only [takeQuotedEnd, h1, h2, h3]; simp; simpa using ih

theorem lexTok_split {cs : List Char} {t : Tok} {u : List Char}
    (h : lexTok cs = some (t, u)) : t.text ++ u = cs ∧ t.text ≠ [] := by
  cases cs with
  | nil => simp [lexTok] at h
  | cons c cs =>
    simp only [lexTok] at h
    split at h
    · rcases Option.some.inj h with h2
      cases h2
      constructor
      · simp [List.takeWhile_append_dropWhile]
      · simp
    · split at h
      · rcases Option.some.inj h with h2
        cases h2
        constructor
        · simp [List.takeWhile_append_dropWhile]
        · simp
      · split at h
        · rcases Option.some.inj h with h2
          cases h2
          constructor
          · simpa using congrArg (fun x => c :: x) (takeQuotedEnd_split '\'' cs)
          · simp
        · split at h
          · rcases Option.some.inj h with h2
            cases h2
            constructor
            · simpa using congrArg (fun x => c :: x) (takeQuotedEnd_split '"' cs)
            · simp
          · split at h
            · rcases Option.some.inj h with h2
              cases h2
              refine ⟨?_, by simp⟩
              simpa using takeLine_split _
            · rcases Option.some.inj h with h2
              cases h2
              refine ⟨?_, by simp⟩
              simpa using takeBlockEnd_split _
            · rcases Option.some.inj h with h2
              cases h2
              exact ⟨rfl, by simp⟩

theorem lexGo_succ (fuel : Nat) (cs : List Char) :
    lexGo (fuel + 1) cs =
      (match lexTok cs with
        | none => []
        | some (t, u) => t :: lexGo fuel u) := by
  cases cs with
  | nil => rfl
  | cons c cs =>
    simp only [lexGo, lexTok]
    by_cases h1 : isWsChar c
    · simp [h1]
    · by_cases h2 : isWordChar c
      · simp [h1, h2]
      · by_cases h3 : c == '\''
        · simp [h1, h2, h3]
        · by_cases h4 : c == '"'
          · simp [h1, h2, h3, h4]
          · simp only [h1, h2, h3, h4, Bool.false_eq_true, if_false]
            split <;> rfl

theorem lexTok_ne_none (c : Char) (cs : List Char) : lexTok (c :: cs) ≠ none := by
  simp only [lexTok]
  split
  · simp
  · split
    · simp
    · split
      · simp
      · split
        · simp
        · split <;> simp

theorem lexGo_eq : ∀ (n fuel : Nat) (cs : List Char), cs.length ≤ n → cs.length ≤ fuel →
    lexGo fuel cs = lexChars cs := by
  intro n
  induction n using Nat.strong_induction_on with
  | _ n ih =>
    intro fuel cs hn hf
    cases cs with
    | nil =>
      cases fuel <;> simp [lexGo, lexChars]
    | cons c cs =>
      obtain ⟨f, rfl⟩ : ∃ f, fuel = f + 1 := ⟨fuel - 1, by simp at hf; omega⟩
      simp only [lexChars, List.length_cons]
      rw [lexGo_succ, lexGo_succ]
      cases htok : lexTok (c :: cs) with
      | none => exact absurd htok (lexTok_ne_none c cs)
      | some p =>
        obtain ⟨t, u⟩ := p
        obtain ⟨hsplit, hne⟩ := lexTok_split htok
        have hu : u.length ≤ cs.length := by
          have hl := congrArg List.length hsplit
          simp only [List.length_append, List.length_cons] at hl
          have : t.text.length ≥ 1 := by
            cases ht : t.text with
            | nil => exact absurd ht hne
            | cons a b => simp
          omega
        have hlt : cs.length < n := by simp at hn; omega
        have h1 : lexGo f u = lexChars u := by
          apply ih cs.length hlt f u hu
          exact le_trans hu (by simp at hf; omega)
        have h2 : lexGo cs.length u = lexChars u := ih cs.length hlt cs.length u hu hu
        simp [h1, h2]

theorem lexChars_cons {cs : List Char} {t : Tok} {u : List Char}
    (h : lexTok cs = some (t, u)) : lexChars cs = t :: lexChars u := by
  obtain ⟨hsplit, hne⟩ := lexTok_split h
  cases cs with
  | nil => exact absurd h.symm (by simp [lexTok])
  | cons c cs2 =>
    have hu : u.length ≤ cs2.length := by
      have hl := congrArg List.length hsplit
      simp only [List.length_append, List.length_cons] at hl
      have : t.text.length ≥ 1 := by
        cases ht : t.text with
        | nil => exact absurd ht hne
        | cons a b => simp
      omega
    show lexGo (c :: cs2).length (c :: cs2) = _
    rw [show (c :: cs2).length = cs2.length + 1 from rfl, lexGo_succ, h]
    simp only []
    congr 1
    exact lexGo_eq cs2.length cs2.length u hu hu

theorem render_cons (t : Tok) (ts : List Tok) :
    render (t :: ts) = t.text ++ render ts := by simp [render]

theorem render_append (a b : List Tok) :
    render (a ++ b) = render a ++ render b := by simp [render]

theorem render_lexChars : ∀ (n : Nat) (cs : List Char), cs.length ≤ n →
    render (lexChars cs) = cs := by
  intro n
  induction n using Nat.strong_induction_on with
  | _ n ih =>
    intro cs hn
    cases htok : lexTok cs with
    | none =>
      cases cs with
      | nil => simp [lexChars, lexGo, render]
      | cons c cs2 => exact absurd htok (lexTok_ne_none c cs2)
    | some p =>
      obtain ⟨t, u⟩ := p
      obtain ⟨hsplit, hne⟩ := lexTok_split htok
      rw [lexChars_cons htok, render_cons]
      have hu : u.length < cs.length := by
        have hl := congrArg List.length hsplit
        simp only [List.length_append] at hl
        have : t.text.length ≥ 1 := by
          cases ht : t.text with
          | nil => exact absurd ht hne
          | cons a b => simp
        omega
      rw [ih u.length (by omega) u le_rfl]
      exact hsplit

theorem render_lex (cs : List Char) : render (lexChars cs) = cs :=
  render_lexChars cs.length cs le_rfl

end Tethys

namespace Tethys

theorem wsChar_not_word {c : Char} (h : isWsChar c = true) : isWordChar c = false := by
  simp only [isWsChar, Bool.or_eq_true, beq_iff_eq] at h
  rcases h with ((h | h) | h) | h <;> subst h <;> decide

theorem wordChar_not_ws {c : Char} (h : isWordChar c = true) : isWsChar c = false := by
  by_contra hc
  have h2 : isWsChar c = true := by
    cases hw : isWsChar c
    · exact absurd hw hc
    · rfl
  rw [wsChar_not_word h2] at h
  cases h

theorem takeWhile_append_all {p : Char → Bool} {a b : List Char}
    (ha : ∀ c ∈ a, p c = true) (hb : ∀ c, b.head? = some c → p c = false) :
    (a ++ b).takeWhile p = a ∧ (a ++ b).dropWhile p = b := by
  induction a with
  | nil =>
    cases b with
    | nil => simp
    | cons c bs =>
      have hc := hb c rfl
      simp [List.takeWhile_cons, List.dropWhile_cons, hc]
  | cons x xs ih =>
    have hx := ha x (by simp)
    have ihh := ih (fun c hc => ha c (by simp [hc]))
    simp [List.takeWhile_cons, List.dropWhile_cons, hx, ihh.1, ihh.2]

theorem head_dropWhile_false {p : Char → Bool} : ∀ (l : List Char) (c : Char),
    (l.dropWhile p).head? = some c → p c = false := by
  intro l
  induction l with
  | nil => intro c h; simp at h
  | cons x xs ih =>
    intro c h
    by_cases hx : p x = true
    · rw [List.dropWhile_cons, if_pos hx] at h
      exact ih c h
    · rw [List.dropWhile_cons, if_neg hx] at h
      simp only [List.head?_cons, Option.some.injEq] at h
      subst h
      simpa using hx

theorem mem_takeWhile_true {p : Char → Bool} : ∀ (l : List Char) (c : Char),
    c ∈ l.takeWhile p → p c = true := by
  intro l
  induction l with
  | nil => intro c h; simp at h
  | cons x xs ih =>
    intro c h
    by_cases hx : p x = true
    · rw [List.takeWhile_cons, if_pos hx] at h
      rcases List.mem_cons.mp h with h | h
      · subst h; exact hx
      · exact ih c h
    · rw [List.takeWhile_cons, if_neg hx] at h
      simp at h

theorem tqe_fst_ne_nil (q : Char) : ∀ (cs : List Char), cs ≠ [] →
    (takeQuotedEnd q cs).1 ≠ [] := by
  intro cs
  induction cs using takeQuotedEnd.induct q with
  | case1 => intro h; exact absurd rfl h
  | case2 c => intro _; simp [takeQuotedEnd]
  | case3 c c2 cs h ih => intro _; simp [takeQuotedEnd, h]
  | case4 c c2 cs h1 h2 ih => intro _; simp [takeQuotedEnd, h1, h2]
  | case5 c c2 cs h1 h2 h3 =>
    intro _
    have hc2 : ¬ (c2 = q) := by
      intro hh
      apply h2
      simp [hh, (by simpa using h3 : c = q)]
    simp [takeQuotedEnd, h1, h2, h3, hc2]
  | case6 c c2 cs h1 h2 h3 ih => intro _; simp [takeQuotedEnd, h1, h2, h3]

theorem tqe_closed_run (q : Char) (hq : q ≠ '\\') : ∀ (cs tk u : List Char),
    takeQuotedEnd q cs = (tk, u) → u ≠ [] →
    (∀ v : List Char, v.head? ≠ some q → takeQuotedEnd q (tk ++ v) = (tk, v)) ∧
      u.head? ≠ some q := by
  intro cs
  induction cs using takeQuotedEnd.induct q with
  | case1 =>
    intro tk u h hu
    simp only [takeQuotedEnd] at h
    cases h
    exact absurd rfl hu
  | case2 c =>
    intro tk u h hu
    simp only [takeQuotedEnd] at h
    cases h
    exact absurd rfl hu
  | case3 c c2 cs h3 ih =>
    intro tk u h hu
    simp only [takeQuotedEnd, h3, if_pos] at h
    cases h
    obtain ⟨F, hne⟩ := ih _ _ rfl hu
    refine ⟨?_, hne⟩
    intro v hv
    have hlist : (c :: c2 :: (takeQuotedEnd q cs).1) ++ v
        = c :: c2 :: ((takeQuotedEnd q cs).1 ++ v) := by simp
    rw [hlist]
    simp only [takeQuotedEnd, h3, if_pos]
    rw [F v hv]
  | case4 c c2 cs h1 h2 ih =>
    intro tk u h hu
    simp only [takeQuotedEnd, h1, h2, Bool.false_eq_true, if_false, if_pos] at h
    cases h
    obtain ⟨F, hne⟩ := ih _ _ rfl hu
    refine ⟨?_, hne⟩
    intro v hv
    have hlist : (c :: c2 :: (takeQuotedEnd q cs).1) ++ v
        = c :: c2 :: ((takeQuotedEnd q cs).1 ++ v) := by simp
    rw [hlist]
    simp only [takeQuotedEnd, h1, h2, Bool.false_eq_true, if_false, if_pos]
    rw [F v hv]
  | case5 c c2 cs h1 h2 h3 =>
    intro tk u h hu
    have hc2 : ¬ (c2 = q) := by
      intro hh
      apply h2
      simp [hh, (by simpa using h3 : c = q)]
    have hc2f : (c2 == q) = false := by simpa using hc2
    simp only [takeQuotedEnd, h3, hc2f, Bool.true_and, Bool.and_false,
      Bool.false_eq_true, if_false, if_pos] at h
    cases h
    constructor
    · intro v hv
      cases v with
      | nil =>
        have hc : c = q := by simpa using h3
        subst hc
        simp [takeQuotedEnd]
      | cons d v2 =>
        have hdf : (d == q) = false := by
          have : ¬ (d = q) := fun hh => hv (by simp [hh])
          simpa using this
        have hlist : ([c] : List Char) ++ (d :: v2) = c :: d :: v2 := by simp
        rw [hlist]
        simp only [takeQuotedEnd, h3, hdf, Bool.true_and, Bool.and_false,
          Bool.false_eq_true, if_false, if_pos]
    · simpa using hc2
  | case6 c c2 cs h1 h2 h3 ih =>
    intro tk u h hu
    have h1f : (c == '\\' && c2 == q) = false := by simpa using h1
    have h3f : (c == q) = false := by simpa using h3
    simp only [takeQuotedEnd, h1f, h3f, Bool.false_and, Bool.false_eq_true, if_false] at h
    cases h
    obtain ⟨F, hne⟩ := ih _ _ rfl hu
    have hsplit := takeQuotedEnd_split q (c2 :: cs)
    have hfst : (takeQuotedEnd q (c2 :: cs)).1 ≠ [] := tqe_fst_ne_nil q _ (by simp)
    obtain ⟨e, tk2, he⟩ : ∃ e tk2, (takeQuotedEnd q (c2 :: cs)).1 = e :: tk2 := by
      cases hx : (takeQuotedEnd q (c2 :: cs)).1 with
      | nil => exact absurd hx hfst
      | cons e tk2 => exact ⟨e, tk2, rfl⟩
    have hec2 : e = c2 := by
      rw [he] at hsplit
      simpa using congrArg List.head? hsplit
    refine ⟨?_, hne⟩
    intro v hv
    have hF := F v hv
    rw [he, hec2] at hF
    simp only [List.cons_append] at hF
    have hlist : (c :: (takeQuotedEnd q (c2 :: cs)).1) ++ v
        = c :: (c2 :: (tk2 ++ v)) := by
      rw [he, hec2]
      simp
    rw [hlist]
    simp only [takeQuotedEnd, h1f, h3f, Bool.false_and, Bool.false_eq_true, if_false]
    rw [hF]
    simp [he, hec2]

end Tethys

namespace Tethys

theorem tqe_all (q : Char) : ∀ (v : List Char),
    (∀ c ∈ v, ¬ (c = q) ∧ ¬ (c = '\\')) → takeQuotedEnd q v = (v, []) := by
  intro v
  induction v using takeQuotedEnd.induct q with
  | case1 => intro _; rfl
  | case2 c => intro _; rfl
  | case3 c c2 cs h ih =>
    intro hv
    exfalso
    have hc := hv c (by simp)
    have : c = '\\' := by
      rcases Bool.and_eq_true .. |>.mp h with ⟨h1, _⟩
      simpa using h1
    exact hc.2 this
  | case4 c c2 cs h1 h2 ih =>
    intro hv
    exfalso
    have hc := hv c (by simp)
    have : c = q := by
      rcases Bool.and_eq_true .. |>.mp h2 with ⟨ha, _⟩
      simpa using ha
    exact hc.1 this
  | case5 c c2 cs h1 h2 h3 =>
    intro hv
    exfalso
    exact (hv c (by simp)).1 (by simpa using h3)
  | case6 c c2 cs h1 h2 h3 ih =>
    intro hv
    have h1f : (c == '\\' && c2 == q) = false := by simpa using h1
    have h2f : (c == q && c2 == q) = false := by simpa using h2
    have h3f : (c == q) = false := by simpa using h3
    simp only [takeQuotedEnd, h1f, h2f, h3f, Bool.false_eq_true, if_false]
    rw [ih (fun c hc => hv c (by simp [hc]))]
    simp

theorem tqe_unterm_append (q : Char) : ∀ (body : List Char),
    takeQuotedEnd q body = (body, []) →
    ∀ v : List Char, (∀ c ∈ v, ¬ (c = q) ∧ ¬ (c = '\\')) →
      takeQuotedEnd q (body ++ v) = (body, v) ∨
        takeQuotedEnd q (body ++ v) = (body ++ v, []) := by
  intro body
  induction body using takeQuotedEnd.induct q with
  | case1 =>
    intro _ v hv
    right
    simpa using tqe_all q v hv
  | case2 c =>
    intro _ v hv
    by_cases hc : c = q
    · subst hc
      cases v with
      | nil => left; simp [takeQuotedEnd]
      | cons d v2 =>
        left
        have hdf : (d == c) = false := by simpa using (hv d (by simp)).1
        simp only [List.singleton_append, takeQuotedEnd, hdf, Bool.and_false,
          Bool.false_eq_true, if_false, beq_self_eq_true, Bool.true_and, if_pos]
    · cases v with
      | nil => left; simp [takeQuotedEnd]
      | cons d v2 =>
        right
        have hdf : (d == q) = false := by simpa using (hv d (by simp)).1
        have hcf : (c == q) = false := by simpa using hc
        simp only [List.singleton_append, takeQuotedEnd, hdf, hcf, Bool.and_false,
          Bool.false_and, Bool.false_eq_true, if_false]
        rw [tqe_all q (d :: v2) hv]
  | case3 c c2 cs h ih =>
    intro hrun v hv
    simp only [takeQuotedEnd, h, if_pos] at hrun
    have hfst : (takeQuotedEnd q cs).1 = cs := by
      have := congrArg Prod.fst hrun
      simpa using this
    have hsnd : (takeQuotedEnd q cs).2 = [] := by
      have := congrArg Prod.snd hrun
      simpa using this
    have hrun2 : takeQuotedEnd q cs = (cs, []) := by
      rw [Prod.ext_iff]
      exact ⟨hfst, hsnd⟩
    rcases ih hrun2 v hv with hcase | hcase
    · left
      have hlist : (c :: c2 :: cs) ++ v = c :: c2 :: (cs ++ v) := by simp
      rw [hlist]
      simp only [takeQuotedEnd, h, if_pos, hcase]
    · right
      have hlist : (c :: c2 :: cs) ++ v = c :: c2 :: (cs ++ v) := by simp
      rw [hlist]
      simp only [takeQuotedEnd, h, if_pos, hcase]
  | case4 c c2 cs h1 h2 ih =>
    intro hrun v hv
    have h1f : (c == '\\' && c2 == q) = false := by simpa using h1
    simp only [takeQuotedEnd, h1f, h2, Bool.false_eq_true, if_false, if_pos] at hrun
    have hfst : (takeQuotedEnd q cs).1 = cs := by
      have := congrArg Prod.fst hrun
      simpa using this
    have hsnd : (takeQuotedEnd q cs).2 = [] := by
      have := congrArg Prod.snd hrun
      simpa using this
    have hrun2 : takeQuotedEnd q cs = (cs, []) := by
      rw [Prod.ext_iff]
      exact ⟨hfst, hsnd⟩
    rcases ih hrun2 v hv with hcase | hcase
    · left
      have hlist : (c :: c2 :: cs) ++ v = c :: c2 :: (cs ++ v) := by simp
      rw [hlist]
      simp only [takeQuotedEnd, h1f, h2, Bool.false_eq_true, if_false, if_pos, hcase]
    · right
      have hlist : (c :: c2 :: cs) ++ v = c :: c2 :: (cs ++ v) := by simp
      rw [hlist]
      simp only [takeQuotedEnd, h1f, h2, Bool.false_eq_true, if_false, if_pos, hcase]
  | case5 c c2 cs h1 h2 h3 =>
    intro hrun v hv
    exfalso
    have hc2 : ¬ (c2 = q) := by
      intro hh
      apply h2
      simp [hh, (by simpa using h3 : c = q)]
    have hc2f : (c2 == q) = false := by simpa using hc2
    simp only [takeQuotedEnd, h3, hc2f, Bool.true_and, Bool.and_false,
      Bool.false_eq_true, if_false, if_pos] at hrun
    have := congrArg Prod.snd hrun
    simp at this
  | case6 c c2 cs h1 h2 h3 ih =>
    intro hrun v hv
    have h1f : (c == '\\' && c2 == q) = false := by simpa using h1
    have h3f : (c == q) = false := by simpa using h3
    simp only [takeQuotedEnd, h1f, h3f, Bool.false_and, Bool.false_eq_true, if_false] at hrun
    have hfst : (takeQuotedEnd q (c2 :: cs)).1 = c2 :: cs := by
      have := congrArg Prod.fst hrun
      simpa using this
    have hsnd : (takeQuotedEnd q (c2 :: cs)).2 = [] := by
      have := congrArg Prod.snd hrun
      simpa using this
    have hrun2 : takeQuotedEnd q (c2 :: cs) = (c2 :: cs, []) := by
      rw [Prod.ext_iff]
      exact ⟨hfst, hsnd⟩
    rcases ih hrun2 v hv with hcase | hcase
    · left
      have hlist : (c :: c2 :: cs) ++ v = c :: ((c2 :: cs) ++ v) := by simp
      rw [hlist]
      have hlist2 : (c2 :: cs) ++ v = c2 :: (cs ++ v) := by simp
      rw [hlist2] at hcase ⊢
      simp only [takeQuotedEnd, h1f, h3f, Bool.false_and, Bool.false_eq_true, if_false, hcase]
    · right
      have hlist : (c :: c2 :: cs) ++ v = c :: ((c2 :: cs) ++ v) := by simp
      rw [hlist]
      have hlist2 : (c2 :: cs) ++ v = c2 :: (cs ++ v) := by simp
      rw [hlist2] at hcase ⊢
      simp only [takeQuotedEnd, h1f, h3f, Bool.false_and, Bool.false_eq_true, if_false, hcase]

end Tethys

namespace Tethys

theorem tokOK_peels {t : Tok} {oh : Option Char}
    (hk : t.kind ≠ .lineC) (hk2 : t.kind ≠ .blockC)
    (h : tokOK t oh) : Peels t oh := by
  intro v hv
  obtain ⟨k, text⟩ := t
  cases k with
  | lineC => exact absurd rfl hk
  | blockC => exact absurd rfl hk2
  | ws =>
    obtain ⟨hne, hall, hoh⟩ := h
    cases htext : text with
    | nil => exact absurd htext hne
    | cons c rest =>
      subst htext
      have hc : isWsChar c = true := hall c (by simp)
      have hta := takeWhile_append_all (p := isWsChar) (a := rest) (b := v)
        (fun d hd => hall d (by simp [hd]))
        (fun d hd => hoh d (by rw [← hv]; exact hd))
      show lexTok (c :: (rest ++ v)) = _
      simp only [lexTok, hc, if_pos, hta.1, hta.2]
  | word =>
    obtain ⟨hne, hall, hoh⟩ := h
    cases htext : text with
    | nil => exact absurd htext hne
    | cons c rest =>
      subst htext
      have hc : isWordChar c = true := hall c (by simp)
      have hcw : isWsChar c = false := wordChar_not_ws hc
      have hta := takeWhile_append_all (p := isWordChar) (a := rest) (b := v)
        (fun d hd => hall d (by simp [hd]))
        (fun d hd => hoh d (by rw [← hv]; exact hd))
      show lexTok (c :: (rest ++ v)) = _
      simp only [lexTok, hc, hcw, Bool.false_eq_true, if_false, if_pos, hta.1, hta.2]
  | strq =>
    obtain ⟨body, htext, hcl⟩ := h
    subst htext
    have w1 : isWsChar '\'' = false := by decide
    have w2 : isWordChar '\'' = false := by decide
    show lexTok ('\'' :: (body ++ v)) = _
    simp only [lexTok, w1, w2, Bool.false_eq_true, if_false, beq_self_eq_true, if_pos]
    rcases hcl with ⟨F, hqno⟩ | ⟨hun, hnone⟩
    · rw [F v (by rw [hv]; exact hqno)]
    · have hvnil : v = [] := by
        cases v with
        | nil => rfl
        | cons d v2 => rw [hnone] at hv; simp at hv
      subst hvnil
      simp only [List.append_nil, hun]
  | dquo =>
    obtain ⟨body, htext, hcl⟩ := h
    subst htext
    have w1 : isWsChar '"' = false := by decide
    have w2 : isWordChar '"' = false := by decide
    have w3 : ('"' == '\'') = false := by decide
    show lexTok ('"' :: (body ++ v)) = _
    simp only [lexTok, w1, w2, w3, Bool.false_eq_true, if_false, beq_self_eq_true, if_pos]
    rcases hcl with ⟨F, hqno⟩ | ⟨hun, hnone⟩
    · rw [F v (by rw [hv]; exact hqno)]
    · have hvnil : v = [] := by
        cases v with
        | nil => rfl
        | cons d v2 => rw [hnone] at hv; simp at hv
      subst hvnil
      simp only [List.append_nil, hun]
  | punct =>
    obtain ⟨c, htext, hws, hwd, hq1, hq2, hd1, hd2⟩ := h
    subst htext
    have hq1f : (c == '\'') = false := by simpa using hq1
    have hq2f : (c == '"') = false := by simpa using hq2
    show lexTok (c :: v) = _
    simp only [lexTok, hws, hwd, hq1f, hq2f, Bool.false_eq_true, if_false]
    split
    · exfalso
      exact hd1 rfl hv.symm
    · exfalso
      exact hd2 rfl hv.symm
    · rfl

theorem lexTok_tokOK : ∀ {cs : List Char} {t : Tok} {u : List Char},
    lexTok cs = some (t, u) → tokOK t u.head? := by
  intro cs t u h
  cases cs with
  | nil => simp [lexTok] at h
  | cons c cs =>
    simp only [lexTok] at h
    split at h
    · next hwsc =>
      cases h
      refine ⟨by simp, ?_, ?_⟩
      · intro d hd
        rcases List.mem_cons.mp hd with hd | hd
        · subst hd; exact hwsc
        · exact mem_takeWhile_true _ _ hd
      · intro d hd
        exact head_dropWhile_false _ _ hd
    · split at h
      · next hwdc =>
        cases h
        refine ⟨by simp, ?_, ?_⟩
        · intro d hd
          rcases List.mem_cons.mp hd with hd | hd
          · subst hd; exact hwdc
          · exact mem_takeWhile_true _ _ hd
        · intro d hd
          exact head_dropWhile_false _ _ hd
      · split at h
        · next hqc =>
          cases h
          have hc : c = '\'' := by simpa using hqc
          subst hc
          refine ⟨(takeQuotedEnd '\'' cs).1, rfl, ?_⟩
          by_cases hu : (takeQuotedEnd '\'' cs).2 = []
          · right
            have hsp := takeQuotedEnd_split '\'' cs
            rw [hu, List.append_nil] at hsp
            constructor
            · rw [hsp, Prod.ext_iff]
              exact ⟨hsp, hu⟩
            · simp [hu]
          · left
            obtain ⟨F, hne⟩ := tqe_closed_run '\'' (by decide) cs _ _ rfl hu
            exact ⟨F, hne⟩
        · split at h
          · next hqc =>
            cases h
            have hc : c = '"' := by simpa using hqc
            subst hc
            refine ⟨(takeQuotedEnd '"' cs).1, rfl, ?_⟩
            by_cases hu : (takeQuotedEnd '"' cs).2 = []
            · right
              have hsp := takeQuotedEnd_split '"' cs
              rw [hu, List.append_nil] at hsp
              constructor
              · rw [hsp, Prod.ext_iff]
                exact ⟨hsp, hu⟩
              · simp [hu]
            · left
              obtain ⟨F, hne⟩ := tqe_closed_run '"' (by decide) cs _ _ rfl hu
              exact ⟨F, hne⟩
          · split at h
            · cases h
              exact ⟨(takeLine _).1, rfl⟩
            · cases h
              exact ⟨(takeBlockEnd _).1, rfl⟩
            · next hpat1 hpat2 =>
              rename_i hnws hnwd hnq hnd c0 cs0
              cases h
              refine ⟨c, rfl, by simpa using hnws, by simpa using hnwd,
                by simpa using hnq, by simpa using hnd, ?_, ?_⟩
              · intro hc hoh
                subst hc
                cases hcs : u with
                | nil => rw [hcs] at hoh; simp at hoh
                | cons d cs2 =>
                  rw [hcs] at hoh
                  simp only [List.head?_cons, Option.some.injEq] at hoh
                  subst hoh
                  exact hpat1 cs2 rfl hcs
              · intro hc hoh
                subst hc
                cases hcs : u with
                | nil => rw [hcs] at hoh; simp at hoh
                | cons d cs2 =>
                  rw [hcs] at hoh
                  simp only [List.head?_cons, Option.some.injEq] at hoh
                  subst hoh
                  exact hpat2 cs2 rfl hcs

theorem linked_lexChars : ∀ (n : Nat) (cs : List Char), cs.length ≤ n →
    Linked (lexChars cs) := by
  intro n
  induction n using Nat.strong_induction_on with
  | _ n ih =>
    intro cs hn
    cases htok : lexTok cs with
    | none =>
      cases cs with
      | nil => simp [lexChars, lexGo, Linked]
      | cons c cs2 => exact absurd htok (lexTok_ne_none c cs2)
    | some p =>
      obtain ⟨t, u⟩ := p
      obtain ⟨hsplit, hne⟩ := lexTok_split htok
      have hu : u.length < cs.length := by
        have hl := congrArg List.length hsplit
        simp only [List.length_append] at hl
        have : t.text.length ≥ 1 := by
          cases ht : t.text with
          | nil => exact absurd ht hne
          | cons a b => simp
        omega
      rw [lexChars_cons htok]
      refine ⟨?_, ih u.length (by omega) u le_rfl⟩
      have hhead : headC (lexChars u) = u.head? := by
        simp only [headC, render_lex]
      rw [hhead]
      exact lexTok_tokOK htok

end Tethys
namespace Tethys

theorem char_toNat_ofNat (n : Nat) (h : n.isValidChar) : (Char.ofNat n).toNat = n := by
  unfold Char.ofNat Char.toNat
  rw [dif_pos h]
  unfold Char.ofNatAux
  simp [UInt32.toNat, BitVec.toNat_ofNatLt]

theorem char_low_up (c : Char) : Char.toLower (Char.toUpper c) = Char.toLower c := by
  show (let n := (Char.toUpper c).toNat;
    if n ≥ 65 ∧ n ≤ 90 then Char.ofNat (n + 32) else Char.toUpper c) = _
  show _ = (let n := c.toNat; if n ≥ 65 ∧ n ≤ 90 then Char.ofNat (n + 32) else c)
  simp only []
  by_cases hup : c.toNat ≥ 97 ∧ c.toNat ≤ 122
  · have hT : Char.toUpper c = Char.ofNat (c.toNat - 32) := by
      show (let n := c.toNat; if n ≥ 97 ∧ n ≤ 122 then Char.ofNat (n - 32) else c) = _
      simp only [if_pos hup]
    have hv : (c.toNat - 32).isValidChar := by
      left; omega
    have hN : (Char.toUpper c).toNat = c.toNat - 32 := by
      rw [hT, char_toNat_ofNat _ hv]
    rw [hN]
    have h1 : c.toNat - 32 ≥ 65 ∧ c.toNat - 32 ≤ 90 := by omega
    rw [if_pos h1]
    have h2 : ¬ (c.toNat ≥ 65 ∧ c.toNat ≤ 90) := by omega
    rw [if_neg h2]
    have h3 : c.toNat - 32 + 32 = c.toNat := by omega
    rw [h3, Char.ofNat_toNat]
  · have hT : Char.toUpper c = c := by
      show (let n := c.toNat; if n ≥ 97 ∧ n ≤ 122 then Char.ofNat (n - 32) else c) = _
      simp only [if_neg hup]
    rw [hT]

theorem lowerL_upperL (w : List Char) : lowerL (upperL w) = lowerL w := by
  simp only [lowerL, upperL, List.map_map]
  exact List.map_congr_left (fun c _ => char_low_up c)

theorem keywords_upper : ∀ k ∈ KEYWORDS, upperL k.data = k.data ∧ isKeyword k.data = true := by
  decide

theorem keywords_wordchars :
    ∀ k ∈ KEYWORDS, k.data ≠ [] ∧ ∀ c ∈ k.data, isWordChar c = true := by
  decide

theorem isKeyword_mem {w : List Char} (h : isKeyword w = true) :
    String.mk (upperL w) ∈ KEYWORDS := by
  simpa [isKeyword, List.contains_iff_exists_mem_beq, beq_iff_eq] using h

theorem upKw_word_eq (text : List Char) :
    upKw ⟨.word, text⟩ =
      if isKeyword text then ⟨.word, upperL text⟩ else ⟨.word, text⟩ := rfl

theorem upKw_of_not_word {t : Tok} (h : t.kind ≠ .word) : upKw t = t := by
  obtain ⟨k, text⟩ := t
  cases k <;> first | rfl | exact absurd rfl h

theorem upKw_upKw (t : Tok) : upKw (upKw t) = upKw t := by
  obtain ⟨k, text⟩ := t
  by_cases hw : k = TokKind.word
  · subst hw
    by_cases hk : isKeyword text = true
    · have hmem := isKeyword_mem hk
      have hup := (keywords_upper _ hmem).1
      have hkw := (keywords_upper _ hmem).2
      have hdata : (String.mk (upperL text)).data = upperL text := rfl
      rw [hdata] at hup hkw
      rw [upKw_word_eq, if_pos hk, upKw_word_eq, hkw, if_pos rfl, hup]
    · have hkf : isKeyword text = false := by
        cases h2 : isKeyword text
        · rfl
        · exact absurd h2 hk
      rw [upKw_word_eq, hkf]
      simp only [Bool.false_eq_true, if_false]
      rw [upKw_word_eq, hkf]
      simp only [Bool.false_eq_true, if_false]
  · have he : upKw ⟨k, text⟩ = ⟨k, text⟩ := upKw_of_not_word (t := ⟨k, text⟩) hw
    simp only [he]

theorem noCom_cons {t : Tok} {ts : List Tok} :
    NoCom (t :: ts) ↔ isCommentTok t = false ∧ NoCom ts := by
  constructor
  · intro h
    exact ⟨h t (by simp), fun x hx => h x (by simp [hx])⟩
  · intro h x hx
    rcases List.mem_cons.mp hx with hx | hx
    · rw [hx]; exact h.1
    · exact h.2 x hx

theorem upOK_cons {t : Tok} {ts : List Tok} :
    UpOK (t :: ts) ↔ upKw t = t ∧ UpOK ts := by
  constructor
  · intro h
    exact ⟨h t (by simp), fun x hx => h x (by simp [hx])⟩
  · intro h x hx
    rcases List.mem_cons.mp hx with hx | hx
    · rw [hx]; exact h.1
    · exact h.2 x hx

theorem commentRepl_ws (t : Tok) : (commentRepl t).kind = .ws ∧
    (commentRepl t).text ≠ [] ∧ ∀ c ∈ (commentRepl t).text, isWsChar c = true := by
  unfold commentRepl
  by_cases hb : ((t.text.reverse.dropWhile (fun c => c == ' ')).takeWhile
      (fun c => c == '\n' || c == '\r')).isEmpty = true
  · rw [if_pos hb]
    refine ⟨rfl, by simp, ?_⟩
    intro c hc
    simp only [List.mem_singleton] at hc
    rw [hc]; rfl
  · rw [if_neg hb]
    refine ⟨rfl, ?_, ?_⟩
    · intro hn
      simp only at hn
      rw [List.isEmpty_iff] at hb
      rw [← List.reverse_reverse ((t.text.reverse.dropWhile _).takeWhile _), hn] at hb
      exact hb rfl
    · intro c hc
      simp only [List.mem_reverse] at hc
      have hm := mem_takeWhile_true _ _ hc
      rcases Bool.or_eq_true .. |>.mp hm with h | h
      · rw [show c = '\n' by simpa using h]; rfl
      · rw [show c = '\r' by simpa using h]; rfl

theorem upKw_of_ws {t : Tok} (h : t.kind = .ws) : upKw t = t := by
  apply upKw_of_not_word
  rw [h]
  intro hh
  cases hh

theorem upKw_commentRepl (t : Tok) : upKw (commentRepl t) = commentRepl t :=
  upKw_of_ws (commentRepl_ws t).1

theorem commentRepl_not_comment (t : Tok) : isCommentTok (commentRepl t) = false := by
  have hk := (commentRepl_ws t).1
  unfold isCommentTok
  rw [hk]
  rfl

theorem stripGo_nil (prev : Option Tok) : stripGo prev [] = [] := rfl

theorem stripGo_cons_none (t : Tok) (rest : List Tok) :
    stripGo none (t :: rest) =
      if isCommentTok t then stripGo none rest else t :: stripGo (some t) rest := rfl

theorem stripGo_cons_some_nil (t p : Tok) :
    stripGo (some p) [t] = if isCommentTok t then [] else [t] := rfl

theorem stripGo_cons_some_cons (t p n : Tok) (rest2 : List Tok) :
    stripGo (some p) (t :: n :: rest2) =
      if isCommentTok t then
        (if !isWsTok p && !isWsTok n && !isOpenParen p && !isCloseParen n then
          commentRepl t :: stripGo (some (commentRepl t)) (n :: rest2)
        else stripGo (some p) (n :: rest2))
      else t :: stripGo (some t) (n :: rest2) := rfl

theorem stripGo_cons_noncom {t : Tok} (h : isCommentTok t = false)
    (prev : Option Tok) (rest : List Tok) :
    stripGo prev (t :: rest) = t :: stripGo (some t) rest := by
  rcases prev with _ | p
  · rw [stripGo_cons_none, h]
    simp only [Bool.false_eq_true, if_false]
  · rcases rest with _ | ⟨n, rest2⟩
    · rw [stripGo_cons_some_nil, h]
      simp only [Bool.false_eq_true, if_false]
      rfl
    · rw [stripGo_cons_some_cons, h]
      simp only [Bool.false_eq_true, if_false]

theorem stripGo_cons_com_none {t : Tok} (h : isCommentTok t = true) (rest : List Tok) :
    stripGo none (t :: rest) = stripGo none rest := by
  rw [stripGo_cons_none, h]
  simp only [if_true]

theorem stripGo_cons_com_last {t : Tok} (h : isCommentTok t = true) (p : Tok) :
    stripGo (some p) [t] = [] := by
  rw [stripGo_cons_some_nil, h]
  simp only [if_true]

theorem stripGo_cons_com_repl {t p n : Tok} {rest2 : List Tok}
    (hc : isCommentTok t = true)
    (hcond : (!isWsTok p && !isWsTok n && !isOpenParen p && !isCloseParen n) = true) :
    stripGo (some p) (t :: n :: rest2) =
      commentRepl t :: stripGo (some (commentRepl t)) (n :: rest2) := by
  rw [stripGo_cons_some_cons, hc]
  simp only [if_true]
  rw [if_pos hcond]

theorem stripGo_cons_com_rem {t p n : Tok} {rest2 : List Tok}
    (hc : isCommentTok t = true)
    (hcond : (!isWsTok p && !isWsTok n && !isOpenParen p && !isCloseParen n) = false) :
    stripGo (some p) (t :: n :: rest2) = stripGo (some p) (n :: rest2) := by
  rw [stripGo_cons_some_cons, hc]
  simp only [if_true]
  rw [if_neg (by rw [hcond]; intro hh; cases hh)]

theorem strip_nocom : ∀ (ts : List Tok) (prev : Option Tok), NoCom (stripGo prev ts) := by
  intro ts
  induction ts with
  | nil => intro prev x hx; simp [stripGo] at hx
  | cons t rest ih =>
    intro prev
    cases hc : isCommentTok t with
    | false =>
      rw [stripGo_cons_noncom hc, noCom_cons]
      exact ⟨hc, ih (some t)⟩
    | true =>
      rcases prev with _ | p
      · rw [stripGo_cons_com_none hc]; exact ih none
      · rcases rest with _ | ⟨n, rest2⟩
        · rw [stripGo_cons_com_last hc]; intro x hx; simp at hx
        · cases hcond : (!isWsTok p && !isWsTok n && !isOpenParen p && !isCloseParen n) with
          | true =>
            rw [stripGo_cons_com_repl hc hcond, noCom_cons]
            exact ⟨commentRepl_not_comment t, ih (some (commentRepl t))⟩
          | false =>
            rw [stripGo_cons_com_rem hc hcond]
            exact ih (some p)

theorem strip_id : ∀ (ts : List Tok) (prev : Option Tok), NoCom ts → stripGo prev ts = ts := by
  intro ts
  induction ts with
  | nil => intro prev _; rfl
  | cons t rest ih =>
    intro prev h
    rw [noCom_cons] at h
    rw [stripGo_cons_noncom h.1, ih (some t) h.2]

theorem map_upKw_id {ts : List Tok} (h : UpOK ts) : ts.map upKw = ts := by
  induction ts with
  | nil => rfl
  | cons t rest ih =>
    rw [upOK_cons] at h
    simp only [List.map_cons, h.1, ih h.2]

theorem fmt_fixed {ts : List Tok} (h1 : NoCom ts) (h2 : UpOK ts) : fmtToks ts = ts := by
  unfold fmtToks
  rw [map_upKw_id h2, strip_id ts none h1]

theorem strip_upok : ∀ (ts : List Tok) (prev : Option Tok),
    UpOK ts → UpOK (stripGo prev ts) := by
  intro ts
  induction ts with
  | nil => intro prev _ x hx; simp [stripGo] at hx
  | cons t rest ih =>
    intro prev h
    rw [upOK_cons] at h
    cases hc : isCommentTok t with
    | false =>
      rw [stripGo_cons_noncom hc, upOK_cons]
      exact ⟨h.1, ih (some t) h.2⟩
    | true =>
      rcases prev with _ | p
      · rw [stripGo_cons_com_none hc]; exact ih none h.2
      · rcases rest with _ | ⟨n, rest2⟩
        · rw [stripGo_cons_com_last hc]; intro x hx; simp at hx
        · cases hcond : (!isWsTok p && !isWsTok n && !isOpenParen p && !isCloseParen n) with
          | true =>
            rw [stripGo_cons_com_repl hc hcond, upOK_cons]
            exact ⟨upKw_commentRepl t, ih (some (commentRepl t)) h.2⟩
          | false =>
            rw [stripGo_cons_com_rem hc hcond]
            exact ih (some p) h.2

theorem upok_map_upKw (ts : List Tok) : UpOK (ts.map upKw) := by
  intro x hx
  rcases List.mem_map.mp hx with ⟨t, _, rfl⟩
  exact upKw_upKw t

theorem fmt_upok (ts : List Tok) : UpOK (fmtToks ts) :=
  strip_upok (ts.map upKw) none (upok_map_upKw ts)

theorem fmt_nocom (ts : List Tok) : NoCom (fmtToks ts) :=
  strip_nocom (ts.map upKw) none

end Tethys
namespace Tethys

theorem wordChar_ne {c : Char} (h : isWordChar c = true) {d : Char}
    (hd : isWordChar d = false) : c ≠ d := by
  intro he
  rw [he, hd] at h
  cases h

theorem tokOK_text_ne {t : Tok} {oh : Option Char} (h : tokOK t oh) : t.text ≠ [] := by
  obtain ⟨k, text⟩ := t
  cases k
  · exact h.1
  · exact h.1
  · obtain ⟨body, hb, _⟩ := h
    rw [hb]; simp
  · obtain ⟨body, hb, _⟩ := h
    rw [hb]; simp
  · obtain ⟨body, hb⟩ := h
    rw [hb]; simp
  · obtain ⟨body, hb⟩ := h
    rw [hb]; simp
  · obtain ⟨c, hb, _⟩ := h
    rw [hb]; simp

theorem stokOK_text_ne {t : Tok} {oh : Option Char} (h : stokOK t oh) : t.text ≠ [] := by
  obtain ⟨k, text⟩ := t
  cases k
  · exact h.1
  · exact h.1
  · obtain ⟨body, hb, _⟩ := h
    rw [hb]; simp
  · obtain ⟨body, hb, _⟩ := h
    rw [hb]; simp
  · obtain ⟨body, hb⟩ := h
    rw [hb]; simp
  · obtain ⟨body, hb⟩ := h
    rw [hb]; simp
  · obtain ⟨c, hb, _⟩ := h
    rw [hb]; simp

theorem headC_cons {t : Tok} (ts : List Tok) (h : t.text ≠ []) :
    headC (t :: ts) = t.text.head? := by
  unfold headC
  rw [render_cons]
  cases he : t.text with
  | nil => exact absurd he h
  | cons c cs => rfl

theorem linked_headC_none : ∀ {ts : List Tok}, Linked ts → headC ts = none → ts = [] := by
  intro ts h hh
  cases ts with
  | nil => rfl
  | cons t rest =>
    rw [headC_cons rest (tokOK_text_ne h.1)] at hh
    rcases he : t.text with _ | ⟨c, cs⟩
    · exact absurd he (tokOK_text_ne h.1)
    · rw [he] at hh
      cases hh

theorem slinked_headC_none : ∀ {ts : List Tok}, SLinked ts → headC ts = none → ts = [] := by
  intro ts h hh
  cases ts with
  | nil => rfl
  | cons t rest =>
    rw [headC_cons rest (stokOK_text_ne h.1)] at hh
    rcases he : t.text with _ | ⟨c, cs⟩
    · exact absurd he (stokOK_text_ne h.1)
    · rw [he] at hh
      cases hh

theorem isKeyword_upper_head {w : List Char} (h : isKeyword w = true) :
    ∃ c cs, upperL w = c :: cs ∧ isWordChar c = true := by
  have hmem := isKeyword_mem h
  have h2 := keywords_wordchars _ hmem
  have hd : (String.mk (upperL w)).data = upperL w := rfl
  rw [hd] at h2
  rcases hne : upperL w with _ | ⟨c, cs⟩
  · exact absurd hne h2.1
  · exact ⟨c, cs, rfl, h2.2 c (by rw [hne]; simp)⟩

theorem isKeyword_upper_wordchars {w : List Char} (h : isKeyword w = true) :
    ∀ c ∈ upperL w, isWordChar c = true := by
  have hmem := isKeyword_mem h
  have h2 := keywords_wordchars _ hmem
  have hd : (String.mk (upperL w)).data = upperL w := rfl
  rw [hd] at h2
  exact h2.2

theorem upKw_keyword {text : List Char} (h : isKeyword text = true) :
    upKw ⟨.word, text⟩ = ⟨.word, upperL text⟩ := by
  rw [upKw_word_eq, if_pos h]

theorem upKw_nonkeyword {text : List Char} (h : isKeyword text = false) :
    upKw ⟨.word, text⟩ = ⟨.word, text⟩ := by
  rw [upKw_word_eq, h]
  simp only [Bool.false_eq_true, if_false]

theorem headC_map_upKw {ts : List Tok} (h : Linked ts) :
    headC (ts.map upKw) = headC ts ∨
      (∃ c c2, headC (ts.map upKw) = some c ∧ isWordChar c = true ∧
        headC ts = some c2 ∧ isWordChar c2 = true) := by
  cases ts with
  | nil => left; rfl
  | cons t rest =>
    have hne := tokOK_text_ne h.1
    obtain ⟨k, text⟩ := t
    by_cases hw : k = TokKind.word
    · subst hw
      cases hk : isKeyword text with
      | false =>
        left
        rw [List.map_cons, upKw_nonkeyword hk, headC_cons _ hne, headC_cons _ hne]
      | true =>
        right
        obtain ⟨hne2, hall, _⟩ := h.1
        obtain ⟨c, cs, hup, hcw⟩ := isKeyword_upper_head hk
        obtain ⟨c2, cs2, he⟩ := List.exists_cons_of_ne_nil hne
        refine ⟨c, c2, ?_, hcw, ?_, hall c2 (by rw [he]; simp)⟩
        · rw [List.map_cons, upKw_keyword hk,
            headC_cons _ (t := ⟨.word, upperL text⟩) ?hne3]
          · show (upperL text).head? = some c
            rw [hup]; rfl
          · show upperL text ≠ []
            rw [hup]; simp
        · rw [headC_cons _ hne]
          show text.head? = some c2
          rw [show text = c2 :: cs2 from he]
          rfl
    · left
      have he : upKw ⟨k, text⟩ = ⟨k, text⟩ := upKw_of_not_word (t := ⟨k, text⟩) hw
      rw [List.map_cons, he, headC_cons _ hne, headC_cons _ hne]

theorem slinked_map_upKw : ∀ {ts : List Tok}, Linked ts → SLinked (ts.map upKw) := by
  intro ts
  induction ts with
  | nil => intro _; trivial
  | cons t rest ih =>
    intro h
    rw [List.map_cons]
    refine ⟨?_, ih h.2⟩
    have hdi := headC_map_upKw h.2
    obtain ⟨k, text⟩ := t
    cases k with
    | ws =>
      have he : upKw ⟨TokKind.ws, text⟩ = ⟨TokKind.ws, text⟩ :=
        upKw_of_not_word (t := ⟨TokKind.ws, text⟩) (by intro hh; cases hh)
      rw [he]
      obtain ⟨hne, hall, _⟩ := h.1
      exact ⟨hne, hall⟩
    | word =>
      obtain ⟨hne, hall, hoh⟩ := h.1
      have hohn : ∀ c, headC (rest.map upKw) = some c → isWordChar c = false := by
        intro c hc
        rcases hdi with hdi | ⟨c1, c2, hd1, hd2, hd3, hd4⟩
        · exact hoh c (by rw [← hdi]; exact hc)
        · rw [hc] at hd1
          cases hd1
          exact absurd (hoh c2 hd3) (by rw [hd4]; intro hh; cases hh)
      cases hk : isKeyword text with
      | false =>
        rw [upKw_nonkeyword hk]
        exact ⟨hne, hall, by rw [upKw_nonkeyword hk], hohn⟩
      | true =>
        rw [upKw_keyword hk]
        refine ⟨?_, ?_, ?_, hohn⟩
        · show upperL text ≠ []
          obtain ⟨c, cs, hup, _⟩ := isKeyword_upper_head hk
          rw [hup]; simp
        · exact isKeyword_upper_wordchars hk
        · rw [← upKw_keyword hk]
          exact upKw_upKw _
    | strq =>
      have he : upKw ⟨TokKind.strq, text⟩ = ⟨TokKind.strq, text⟩ :=
        upKw_of_not_word (t := ⟨TokKind.strq, text⟩) (by intro hh; cases hh)
      rw [he]
      obtain ⟨body, hb, hcl⟩ := h.1
      refine ⟨body, hb, ?_⟩
      rcases hcl with ⟨hcl, hq⟩ | ⟨hun, hn⟩
      · left
        refine ⟨hcl, ?_⟩
        rcases hdi with hdi | ⟨c1, c2, hd1, hd2, hd3, hd4⟩
        · rw [hdi]; exact hq
        · rw [hd1]
          intro hh
          cases hh
          rw [show isWordChar '\'' = false by decide] at hd2
          cases hd2
      · right
        refine ⟨hun, ?_⟩
        have := linked_headC_none h.2 hn
        rw [this]
        rfl
    | dquo =>
      have he : upKw ⟨TokKind.dquo, text⟩ = ⟨TokKind.dquo, text⟩ :=
        upKw_of_not_word (t := ⟨TokKind.dquo, text⟩) (by intro hh; cases hh)
      rw [he]
      obtain ⟨body, hb, hcl⟩ := h.1
      refine ⟨body, hb, ?_⟩
      rcases hcl with ⟨hcl, hq⟩ | ⟨hun, hn⟩
      · left
        refine ⟨hcl, ?_⟩
        rcases hdi with hdi | ⟨c1, c2, hd1, hd2, hd3, hd4⟩
        · rw [hdi]; exact hq
        · rw [hd1]
          intro hh
          cases hh
          rw [show isWordChar '"' = false by decide] at hd2
          cases hd2
      · right
        refine ⟨hun, ?_⟩
        have := linked_headC_none h.2 hn
        rw [this]
        rfl
    | lineC =>
      have he : upKw ⟨TokKind.lineC, text⟩ = ⟨TokKind.lineC, text⟩ :=
        upKw_of_not_word (t := ⟨TokKind.lineC, text⟩) (by intro hh; cases hh)
      rw [he]
      exact h.1
    | blockC =>
      have he : upKw ⟨TokKind.blockC, text⟩ = ⟨TokKind.blockC, text⟩ :=
        upKw_of_not_word (t := ⟨TokKind.blockC, text⟩) (by intro hh; cases hh)
      rw [he]
      exact h.1
    | punct =>
      have he : upKw ⟨TokKind.punct, text⟩ = ⟨TokKind.punct, text⟩ :=
        upKw_of_not_word (t := ⟨TokKind.punct, text⟩) (by intro hh; cases hh)
      rw [he]
      obtain ⟨c, hc, hws, hwd, hq1, hq2, hm, hs⟩ := h.1
      refine ⟨c, hc, hws, hwd, hq1, hq2, ?_, ?_⟩
      · intro hcm
        rcases hdi with hdi | ⟨c1, c2, hd1, hd2, hd3, hd4⟩
        · rw [hdi]; exact hm hcm
        · rw [hd1]
          intro hh
          cases hh
          rw [show isWordChar '-' = false by decide] at hd2
          cases hd2
      · intro hcs
        rcases hdi with hdi | ⟨c1, c2, hd1, hd2, hd3, hd4⟩
        · rw [hdi]; exact hs hcs
        · rw [hd1]
          intro hh
          cases hh
          rw [show isWordChar '*' = false by decide] at hd2
          cases hd2

end Tethys
namespace Tethys

theorem isCloseParen_eq {t : Tok} (h : isCloseParen t = true) :
    t.kind = .punct ∧ t.text = [')'] := by
  unfold isCloseParen at h
  rcases Bool.and_eq_true .. |>.mp h with ⟨h1, h2⟩
  exact ⟨by simpa using h1, by simpa using h2⟩

theorem isWsTok_eq {t : Tok} (h : isWsTok t = true) : t.kind = .ws := by
  unfold isWsTok at h
  simpa using h

theorem stokOK_ws_head {t : Tok} {oh : Option Char} (hk : t.kind = .ws)
    (h : stokOK t oh) : ∃ c, t.text.head? = some c ∧ isWsChar c = true := by
  obtain ⟨k, text⟩ := t
  simp only at hk
  subst hk
  obtain ⟨hne, hall⟩ := h
  obtain ⟨c, cs, he⟩ := List.exists_cons_of_ne_nil hne
  refine ⟨c, ?_, hall c (by rw [he]; simp)⟩
  show text.head? = some c
  rw [show text = c :: cs from he]
  rfl

theorem strip_headC : ∀ (ts : List Tok) (p : Tok),
    SLinked ts → isWsTok p = false → isOpenParen p = false →
    headC (stripGo (some p) ts) = none ∨
    (∃ c, headC (stripGo (some p) ts) = some c ∧ isWsChar c = true) ∨
    headC (stripGo (some p) ts) = some ')' ∨
    (∃ t2 ts2, ts = t2 :: ts2 ∧ isCommentTok t2 = false ∧
      headC (stripGo (some p) ts) = headC ts) := by
  intro ts
  induction ts with
  | nil => intro p _ _ _; left; rfl
  | cons t rest ih =>
    intro p h hpw hpo
    cases hc : isCommentTok t with
    | false =>
      right; right; right
      refine ⟨t, rest, rfl, hc, ?_⟩
      rw [stripGo_cons_noncom hc]
      have hne := stokOK_text_ne h.1
      rw [headC_cons _ hne, headC_cons _ hne]
    | true =>
      rcases rest with _ | ⟨n, rest2⟩
      · left
        rw [stripGo_cons_com_last hc]
        rfl
      · cases hcond : (!isWsTok p && !isWsTok n && !isOpenParen p && !isCloseParen n) with
        | true =>
          right; left
          rw [stripGo_cons_com_repl hc hcond]
          have hr := commentRepl_ws t
          obtain ⟨c, cs, he⟩ := List.exists_cons_of_ne_nil hr.2.1
          refine ⟨c, ?_, hr.2.2 c (by rw [he]; simp)⟩
          rw [headC_cons _ hr.2.1, he]
          rfl
        | false =>
          rw [stripGo_cons_com_rem hc hcond]
          have hnn : isWsTok n = true ∨ isCloseParen n = true := by
            rw [hpw, hpo] at hcond
            rcases hw : isWsTok n with _ | _
            · rcases hcp : isCloseParen n with _ | _
              · rw [hw, hcp] at hcond
                simp at hcond
              · right; rfl
            · left; rfl
          rcases ih p h.2 hpw hpo with h1 | h2 | h3 | ⟨t2, ts2, he, hnc, hh⟩
          · left; exact h1
          · right; left; exact h2
          · right; right; left; exact h3
          · rcases hnn with hnn | hnn
            · right; left
              have hkw : n.kind = .ws := isWsTok_eq hnn
              obtain ⟨c, hch, hcw⟩ := stokOK_ws_head hkw h.2.1
              refine ⟨c, ?_, hcw⟩
              rw [hh, headC_cons _ (stokOK_text_ne h.2.1), hch]
            · right; right; left
              obtain ⟨hk2, ht2⟩ := isCloseParen_eq hnn
              rw [hh, headC_cons _ (stokOK_text_ne h.2.1), ht2]
              rfl

theorem strip_slinked : ∀ (ts : List Tok) (prev : Option Tok),
    SLinked ts → SLinked (stripGo prev ts) := by
  intro ts
  induction ts with
  | nil => intro prev _; trivial
  | cons t rest ih =>
    intro prev h
    cases hc : isCommentTok t with
    | true =>
      rcases prev with _ | p
      · rw [stripGo_cons_com_none hc]
        exact ih none h.2
      · rcases rest with _ | ⟨n, rest2⟩
        · rw [stripGo_cons_com_last hc]
          trivial
        · cases hcond : (!isWsTok p && !isWsTok n && !isOpenParen p && !isCloseParen n) with
          | true =>
            rw [stripGo_cons_com_repl hc hcond]
            refine ⟨?_, ih (some (commentRepl t)) h.2⟩
            have hr := commentRepl_ws t
            rcases hrt : commentRepl t with ⟨kk, ttext⟩
            rw [hrt] at hr
            simp only at hr
            obtain ⟨hkr, hne, hall⟩ := hr
            subst hkr
            exact ⟨hne, hall⟩
          | false =>
            rw [stripGo_cons_com_rem hc hcond]
            exact ih (some p) h.2
    | false =>
      rw [stripGo_cons_noncom hc]
      refine ⟨?_, ih (some t) h.2⟩
      have horig := h.1
      obtain ⟨k, text⟩ := t
      cases k with
      | ws => exact ⟨horig.1, horig.2⟩
      | lineC => simp [isCommentTok] at hc
      | blockC => simp [isCommentTok] at hc
      | word =>
        obtain ⟨hne, hall, hfix, hoh⟩ := horig
        refine ⟨hne, hall, hfix, ?_⟩
        intro c hch
        have hHF := strip_headC rest ⟨.word, text⟩ h.2 (by rfl) (by rfl)
        rcases hHF with h1 | ⟨c2, h2, hw2⟩ | h3 | ⟨t2, ts2, he2, hnc2, hh2⟩
        · rw [h1] at hch; cases hch
        · rw [h2] at hch
          cases hch
          exact wsChar_not_word hw2
        · rw [h3] at hch
          cases hch
          decide
        · rw [hh2] at hch
          exact hoh c hch
      | strq =>
        obtain ⟨body, hb, hcl⟩ := horig
        refine ⟨body, hb, ?_⟩
        rcases hcl with ⟨hcl, hq⟩ | ⟨hun, hn⟩
        · left
          refine ⟨hcl, ?_⟩
          have hHF := strip_headC rest ⟨.strq, text⟩ h.2 (by rfl) (by rfl)
          rcases hHF with h1 | ⟨c2, h2, hw2⟩ | h3 | ⟨t2, ts2, he2, hnc2, hh2⟩
          · rw [h1]; intro hh; cases hh
          · rw [h2]
            intro hh
            cases hh
            rw [show isWsChar '\'' = false by decide] at hw2
            cases hw2
          · rw [h3]
            intro hh
            cases hh
          · rw [hh2]
            exact hq
        · right
          refine ⟨hun, ?_⟩
          rw [slinked_headC_none h.2 hn]
          rfl
      | dquo =>
        obtain ⟨body, hb, hcl⟩ := horig
        refine ⟨body, hb, ?_⟩
        rcases hcl with ⟨hcl, hq⟩ | ⟨hun, hn⟩
        · left
          refine ⟨hcl, ?_⟩
          have hHF := strip_headC rest ⟨.dquo, text⟩ h.2 (by rfl) (by rfl)
          rcases hHF with h1 | ⟨c2, h2, hw2⟩ | h3 | ⟨t2, ts2, he2, hnc2, hh2⟩
          · rw [h1]; intro hh; cases hh
          · rw [h2]
            intro hh
            cases hh
            rw [show isWsChar '"' = false by decide] at hw2
            cases hw2
          · rw [h3]
            intro hh
            cases hh
          · rw [hh2]
            exact hq
        · right
          refine ⟨hun, ?_⟩
          rw [slinked_headC_none h.2 hn]
          rfl
      | punct =>
        obtain ⟨c, hct, hws, hwd, hq1, hq2, hm, hs⟩ := horig
        refine ⟨c, hct, hws, hwd, hq1, hq2, ?_, ?_⟩
        · intro hcm
          subst hcm
          have hop : isOpenParen ⟨TokKind.punct, text⟩ = false := by
            unfold isOpenParen
            rw [show text = ['-'] from hct]
            decide
          have hHF := strip_headC rest ⟨.punct, text⟩ h.2 (by rfl) hop
          rcases hHF with h1 | ⟨c2, h2, hw2⟩ | h3 | ⟨t2, ts2, he2, hnc2, hh2⟩
          · rw [h1]; intro hh; cases hh
          · rw [h2]
            intro hh
            cases hh
            rw [show isWsChar '-' = false by decide] at hw2
            cases hw2
          · rw [h3]
            intro hh
            cases hh
          · rw [hh2]
            exact hm rfl
        · intro hcs
          subst hcs
          have hop : isOpenParen ⟨TokKind.punct, text⟩ = false := by
            unfold isOpenParen
            rw [show text = ['/'] from hct]
            decide
          have hHF := strip_headC rest ⟨.punct, text⟩ h.2 (by rfl) hop
          rcases hHF with h1 | ⟨c2, h2, hw2⟩ | h3 | ⟨t2, ts2, he2, hnc2, hh2⟩
          · rw [h1]; intro hh; cases hh
          · rw [h2]
            intro hh
            cases hh
            rw [show isWsChar '*' = false by decide] at hw2
            cases hw2
          · rw [h3]
            intro hh
            cases hh
          · rw [hh2]
            exact hs rfl

theorem lexChars_linked (cs : List Char) : Linked (lexChars cs) :=
  linked_lexChars cs.length cs le_rfl

theorem fmt_good (cs : List Char) : Good (fmtToks (lexChars cs)) :=
  ⟨strip_slinked _ none (slinked_map_upKw (lexChars_linked cs)), fmt_nocom _⟩

end Tethys
namespace Tethys

theorem takeWhile_append_allp {p : Char → Bool} : ∀ (a b : List Char),
    (∀ c ∈ a, p c = true) → (a ++ b).takeWhile p = a ++ b.takeWhile p := by
  intro a b
  induction a with
  | nil => intro _; rfl
  | cons c cs ih =>
    intro h
    rw [List.cons_append, List.takeWhile_cons, if_pos (h c (by simp)), ih (fun d hd => h d (by simp [hd])), List.cons_append]

theorem dropWhile_append_allp {p : Char → Bool} : ∀ (a b : List Char),
    (∀ c ∈ a, p c = true) → (a ++ b).dropWhile p = b.dropWhile p := by
  intro a b
  induction a with
  | nil => intro _; rfl
  | cons c cs ih =>
    intro h
    rw [List.cons_append, List.dropWhile_cons, if_pos (h c (by simp)), ih (fun d hd => h d (by simp [hd]))]

theorem good_tail {t : Tok} {ts : List Tok} (h : Good (t :: ts)) : Good ts :=
  ⟨h.1.2, (noCom_cons.mp h.2).2⟩

theorem not_comment_kinds {t : Tok} (h : isCommentTok t = false) :
    t.kind ≠ .lineC ∧ t.kind ≠ .blockC := by
  unfold isCommentTok at h
  constructor <;> intro hh <;> rw [hh] at h <;> simp at h

theorem stokOK_tokOK {t : Tok} {oh : Option Char} (h : stokOK t oh)
    (hk : t.kind ≠ .ws) : tokOK t oh := by
  obtain ⟨k, text⟩ := t
  cases k with
  | ws => exact absurd rfl hk
  | word => exact ⟨h.1, h.2.1, h.2.2.2⟩
  | strq => exact h
  | dquo => exact h
  | lineC => exact h
  | blockC => exact h
  | punct => exact h

theorem good_head_nonws {t : Tok} {ts : List Tok} (h : Good (t :: ts))
    (hw : isWsTok t = false) :
    ∃ c cs, t.text = c :: cs ∧ isWsChar c = false := by
  have hS := h.1.1
  have hc := (noCom_cons.mp h.2).1
  obtain ⟨k, text⟩ := t
  cases k with
  | ws => simp [isWsTok] at hw
  | lineC => simp [isCommentTok] at hc
  | blockC => simp [isCommentTok] at hc
  | word =>
    obtain ⟨hne, hall, _⟩ := hS
    obtain ⟨c, cs, he⟩ := List.exists_cons_of_ne_nil hne
    exact ⟨c, cs, he, wordChar_not_ws (hall c (by rw [show text = c :: cs from he]; simp))⟩
  | strq =>
    obtain ⟨body, hb, _⟩ := hS
    exact ⟨'\'', body, hb, by decide⟩
  | dquo =>
    obtain ⟨body, hb, _⟩ := hS
    exact ⟨'"', body, hb, by decide⟩
  | punct =>
    obtain ⟨c, hct, hws, _⟩ := hS
    exact ⟨c, [], hct, hws⟩

theorem good_dropWs : ∀ {ts : List Tok}, Good ts → Good (ts.dropWhile isWsTok) := by
  intro ts
  induction ts with
  | nil => intro h; exact h
  | cons t ts2 ih =>
    intro h
    rw [List.dropWhile_cons]
    by_cases hw : isWsTok t = true
    · rw [if_pos hw]
      exact ih (good_tail h)
    · rw [if_neg hw]
      exact h

theorem render_dropWs : ∀ {ts : List Tok}, Good ts →
    (render ts).dropWhile isWsChar = render (ts.dropWhile isWsTok) := by
  intro ts
  induction ts with
  | nil => intro _; rfl
  | cons t ts2 ih =>
    intro h
    rw [render_cons, List.dropWhile_cons]
    by_cases hw : isWsTok t = true
    · have hkw := isWsTok_eq hw
      have hS := h.1.1
      have hall : ∀ c ∈ t.text, isWsChar c = true := by
        obtain ⟨k, text⟩ := t
        simp only at hkw
        subst hkw
        exact hS.2
      rw [if_pos hw, dropWhile_append_allp _ _ hall]
      exact ih (good_tail h)
    · have hwf : isWsTok t = false := by
        cases hb : isWsTok t
        · rfl
        · exact absurd hb hw
      rw [if_neg hw]
      obtain ⟨c, cs, he, hcw⟩ := good_head_nonws h hwf
      rw [he, List.cons_append, List.dropWhile_cons, if_neg (by rw [hcw]; intro hh; cases hh),
        ← List.cons_append, ← he, ← render_cons]

theorem render_dropWs_len (ts : List Tok) :
    (render (ts.dropWhile isWsTok)).length ≤ (render ts).length := by
  conv_rhs => rw [← List.takeWhile_append_dropWhile (p := isWsTok) (l := ts)]
  rw [render_append]
  simp

theorem good_relex : ∀ (n : Nat) (ts : List Tok), (render ts).length ≤ n → Good ts →
    NoCom (lexChars (render ts)) ∧ UpOK (lexChars (render ts)) := by
  intro n
  induction n using Nat.strong_induction_on with
  | _ n ih =>
    intro ts hn h
    cases ts with
    | nil =>
      constructor <;> intro x hx <;> simp [render, lexChars, lexGo] at hx
    | cons t ts2 =>
      have hS := h.1
      have hcm := (noCom_cons.mp h.2).1
      have hne := stokOK_text_ne hS.1
      cases hw : isWsTok t with
      | true =>
        have hkw := isWsTok_eq hw
        have hall : ∀ c ∈ t.text, isWsChar c = true := by
          obtain ⟨k, text⟩ := t
          simp only at hkw
          subst hkw
          exact hS.1.2
        obtain ⟨c, cs, he⟩ := List.exists_cons_of_ne_nil hne
        have hcws : isWsChar c = true := hall c (by rw [he]; simp)
        have hcsws : ∀ d ∈ cs, isWsChar d = true := by
          intro d hd
          exact hall d (by rw [he]; simp [hd])
        have hlex : lexTok (render (t :: ts2)) =
            some (⟨.ws, c :: (cs ++ render ts2).takeWhile isWsChar⟩,
              (cs ++ render ts2).dropWhile isWsChar) := by
          rw [render_cons, he, List.cons_append]
          show lexTok (c :: (cs ++ render ts2)) = _
          simp only [lexTok, hcws, if_pos]
        have hrem : (cs ++ render ts2).dropWhile isWsChar =
            render (ts2.dropWhile isWsTok) := by
          rw [dropWhile_append_allp _ _ hcsws, render_dropWs (good_tail h)]
        rw [lexChars_cons hlex]
        have hlen : (render (ts2.dropWhile isWsTok)).length < n := by
          have h1 := render_dropWs_len ts2
          have h2 : (render (t :: ts2)).length = t.text.length + (render ts2).length := by
            rw [render_cons, List.length_append]
          have h3 : t.text.length ≥ 1 := by
            rw [he]; simp
          omega
        have hrest := ih _ hlen (ts2.dropWhile isWsTok) le_rfl (good_dropWs (good_tail h))
        rw [hrem]
        constructor
        · rw [noCom_cons]
          exact ⟨rfl, hrest.1⟩
        · rw [upOK_cons]
          exact ⟨rfl, hrest.2⟩
      | false =>
        have hnk := not_comment_kinds hcm
        have htok : tokOK t (headC ts2) := by
          refine stokOK_tokOK hS.1 ?_
          intro hh
          unfold isWsTok at hw
          rw [hh] at hw
          simp at hw
        have hpeel := tokOK_peels hnk.1 hnk.2 htok (render ts2) rfl
        have hlex : lexTok (render (t :: ts2)) = some (t, render ts2) := by
          rw [render_cons]
          exact hpeel
        rw [lexChars_cons hlex]
        have hlen : (render ts2).length < n := by
          have h2 : (render (t :: ts2)).length = t.text.length + (render ts2).length := by
            rw [render_cons, List.length_append]
          have h3 : t.text.length ≥ 1 := by
            obtain ⟨c, cs, he⟩ := List.exists_cons_of_ne_nil hne
            rw [he]; simp
          omega
        have hrest := ih _ hlen ts2 le_rfl (good_tail h)
        have hfix : upKw t = t := by
          obtain ⟨k, text⟩ := t
          cases k with
          | word => exact hS.1.2.2.1
          | ws => simp [isWsTok] at hw
          | strq => rfl
          | dquo => rfl
          | lineC => rfl
          | blockC => rfl
          | punct => rfl
        constructor
        · rw [noCom_cons]
          exact ⟨hcm, hrest.1⟩
        · rw [upOK_cons]
          exact ⟨hfix, hrest.2⟩

end Tethys
namespace Tethys

theorem dropWhile_none {p : Char → Bool} : ∀ (l : List Char),
    (∀ x ∈ l, p x = false) → l.dropWhile p = l := by
  intro l h
  cases l with
  | nil => rfl
  | cons c cs =>
    rw [List.dropWhile_cons, if_neg (by rw [h c (by simp)]; intro hh; cases hh)]

theorem dropWhile_idem {p : Char → Bool} (l : List Char) :
    (l.dropWhile p).dropWhile p = l.dropWhile p := by
  induction l with
  | nil => rfl
  | cons c cs ih =>
    rw [List.dropWhile_cons]
    by_cases hc : p c = true
    · rw [if_pos hc]
      exact ih
    · rw [if_neg hc, List.dropWhile_cons, if_neg hc]

theorem dropWhile_append_ne {p : Char → Bool} : ∀ (a b : List Char),
    a.dropWhile p ≠ [] → (a ++ b).dropWhile p = a.dropWhile p ++ b := by
  intro a b
  induction a with
  | nil => intro h; exact absurd rfl h
  | cons c cs ih =>
    intro h
    rw [List.cons_append, List.dropWhile_cons]
    by_cases hc : p c = true
    · rw [List.dropWhile_cons, if_pos hc] at h
      rw [if_pos hc, List.dropWhile_cons, if_pos hc]
      exact ih h
    · rw [if_neg hc, List.dropWhile_cons, if_neg hc, List.cons_append]

theorem trimChars_eq (cs : List Char) : trimChars cs = trimTrail (cs.dropWhile isWsChar) := rfl

theorem trimTrail_decomp (A : List Char) : ∃ r, (∀ x ∈ r, isWsChar x = true) ∧
    A = trimTrail A ++ r := by
  refine ⟨(A.reverse.takeWhile isWsChar).reverse, ?_, ?_⟩
  · intro x hx
    rw [List.mem_reverse] at hx
    exact mem_takeWhile_true _ _ hx
  · unfold trimTrail
    rw [← List.reverse_append, List.takeWhile_append_dropWhile, List.reverse_reverse]

theorem trimTrail_append_ws {u : List Char} (A : List Char)
    (h : ∀ x ∈ u, isWsChar x = true) : trimTrail (A ++ u) = trimTrail A := by
  unfold trimTrail
  rw [List.reverse_append, dropWhile_append_allp _ _ (by intro c hc; rw [List.mem_reverse] at hc; exact h c hc)]

theorem trimTrail_append_keep {B : List Char} (A : List Char)
    (h : trimTrail B ≠ []) : trimTrail (A ++ B) = A ++ trimTrail B := by
  have hne : B.reverse.dropWhile isWsChar ≠ [] := by
    intro hh
    apply h
    unfold trimTrail
    rw [hh]
    rfl
  unfold trimTrail
  rw [List.reverse_append, dropWhile_append_ne _ _ hne, List.reverse_append,
    List.reverse_reverse]

theorem trimTrail_nil_allws {A : List Char} (h : ∀ x ∈ A, isWsChar x = true) :
    trimTrail A = [] := by
  unfold trimTrail
  rw [show A.reverse.dropWhile isWsChar = [] ++ [] from ?_]
  · rfl
  · rw [List.nil_append]
    have := dropWhile_append_allp (p := isWsChar) A.reverse []
      (by intro c hc; rw [List.mem_reverse] at hc; exact h c hc)
    rw [List.append_nil] at this
    rw [this]
    rfl

theorem trimTrail_all_nonws {A : List Char} (h : ∀ x ∈ A, isWsChar x = false) :
    trimTrail A = A := by
  unfold trimTrail
  rw [dropWhile_none _ (by intro c hc; rw [List.mem_reverse] at hc; exact h c hc),
    List.reverse_reverse]

theorem trimTrail_ne_nil_allws {u : List Char} (h : trimTrail u = []) :
    ∀ x ∈ u, isWsChar x = true := by
  obtain ⟨r, hr, hd⟩ := trimTrail_decomp u
  rw [h, List.nil_append] at hd
  intro x hx
  rw [hd] at hx
  exact hr x hx

theorem trimTrail_head {A : List Char} (h : trimTrail A ≠ []) :
    (trimTrail A).head? = A.head? := by
  obtain ⟨r, hr, hd⟩ := trimTrail_decomp A
  obtain ⟨c, cs, he⟩ := List.exists_cons_of_ne_nil h
  rw [he]
  conv_rhs => rw [hd, he]
  rfl

theorem trimTrail_idem (A : List Char) : trimTrail (trimTrail A) = trimTrail A := by
  unfold trimTrail
  rw [List.reverse_reverse, dropWhile_idem]

theorem ncup_tail {t : Tok} {M : List Tok} (h1 : NoCom (t :: M)) (h2 : UpOK (t :: M)) :
    NoCom M ∧ UpOK M :=
  ⟨(noCom_cons.mp h1).2, (upOK_cons.mp h2).2⟩

theorem ncup_dropWhile {X : List Char} (h1 : NoCom (lexChars X)) (h2 : UpOK (lexChars X)) :
    NoCom (lexChars (X.dropWhile isWsChar)) ∧ UpOK (lexChars (X.dropWhile isWsChar)) := by
  cases X with
  | nil => exact ⟨h1, h2⟩
  | cons c cs =>
    rw [List.dropWhile_cons]
    by_cases hc : isWsChar c = true
    · rw [if_pos hc]
      have hlex : lexTok (c :: cs) =
          some (⟨.ws, c :: cs.takeWhile isWsChar⟩, cs.dropWhile isWsChar) := by
        simp only [lexTok, hc, if_pos]
      rw [lexChars_cons hlex] at h1 h2
      exact ncup_tail h1 h2
    · rw [if_neg hc]
      exact ⟨h1, h2⟩

theorem tqe_unterm_prefix (q : Char) : ∀ (core W : List Char),
    (∀ w ∈ W, (w == q) = false) →
    takeQuotedEnd q (core ++ W) = (core ++ W, []) →
    takeQuotedEnd q core = (core, []) := by
  intro core
  induction core using takeQuotedEnd.induct q with
  | case1 => intro W _ _; rfl
  | case2 c => intro W _ _; rfl
  | case3 c c2 cs h ih =>
    intro W hW hh
    rw [List.cons_append, List.cons_append] at hh
    rw [takeQuotedEnd, if_pos h] at hh
    simp only [Prod.mk.injEq, List.cons.injEq] at hh
    obtain ⟨⟨_, _, h1⟩, h2⟩ := hh
    have := ih W hW (by rw [Prod.ext_iff]; exact ⟨h1, h2⟩)
    rw [takeQuotedEnd, if_pos h, this]
  | case4 c c2 cs h1 h2 ih =>
    intro W hW hh
    rw [List.cons_append, List.cons_append] at hh
    rw [takeQuotedEnd, if_neg h1, if_pos h2] at hh
    simp only [Prod.mk.injEq, List.cons.injEq] at hh
    obtain ⟨⟨_, _, hh1⟩, hh2⟩ := hh
    have := ih W hW (by rw [Prod.ext_iff]; exact ⟨hh1, hh2⟩)
    rw [takeQuotedEnd, if_neg h1, if_pos h2, this]
  | case5 c c2 cs h1 h2 h3 =>
    intro W hW hh
    rw [List.cons_append, List.cons_append] at hh
    rw [takeQuotedEnd, if_neg h1,
      if_neg h2, if_pos h3] at hh
    simp only [Prod.mk.injEq] at hh
    exact absurd hh.2 (by simp)
  | case6 c c2 cs h1 h2 h3 ih =>
    intro W hW hh
    rw [List.cons_append, List.cons_append] at hh
    rw [takeQuotedEnd, if_neg h1,
      if_neg h2,
      if_neg h3] at hh
    simp only [Prod.mk.injEq, List.cons.injEq] at hh
    obtain ⟨⟨_, hh1⟩, hh2⟩ := hh
    rw [← List.cons_append] at hh1
    have := ih W hW (by rw [Prod.ext_iff]; exact ⟨hh1, hh2⟩)
    rw [takeQuotedEnd, if_neg h1,
      if_neg h2,
      if_neg h3, this]

end Tethys
namespace Tethys

theorem lexChars_nil_ncup : NoCom (lexChars []) ∧ UpOK (lexChars []) := by
  constructor <;> intro x hx <;> simp [lexChars, lexGo] at hx

theorem ncup_trimTrail : ∀ (n : Nat) (X : List Char), X.length ≤ n →
    NoCom (lexChars X) → UpOK (lexChars X) →
    NoCom (lexChars (trimTrail X)) ∧ UpOK (lexChars (trimTrail X)) := by
  intro n
  induction n using Nat.strong_induction_on with
  | _ n ih =>
    intro X hn h1 h2
    cases X with
    | nil => exact ⟨h1, h2⟩
    | cons c0 cs0 =>
      cases htok : lexTok (c0 :: cs0) with
      | none => exact absurd htok (lexTok_ne_none c0 cs0)
      | some p =>
        obtain ⟨t, u⟩ := p
        obtain ⟨hsplit, hne⟩ := lexTok_split htok
        have hlk := lexChars_linked (c0 :: cs0)
        rw [lexChars_cons htok] at hlk h1 h2
        have htokOK : tokOK t u.head? := by
          have hh := hlk.1
          rwa [show headC (lexChars u) = u.head? by simp only [headC, render_lex]] at hh
        have hcm : isCommentTok t = false := (noCom_cons.mp h1).1
        have hfix : upKw t = t := (upOK_cons.mp h2).1
        have hnk := not_comment_kinds hcm
        have hularge : u.length < n := by
          have hl := congrArg List.length hsplit
          simp only [List.length_cons, List.length_append] at hl
          have h3 : t.text.length ≥ 1 := by
            obtain ⟨a, b, he⟩ := List.exists_cons_of_ne_nil hne
            rw [he]; simp
          have hn2 : cs0.length + 1 ≤ n := by simpa using hn
          omega
        by_cases hu : trimTrail u = []
        · have huws : ∀ x ∈ u, isWsChar x = true := trimTrail_ne_nil_allws hu
          rw [← hsplit, trimTrail_append_ws _ huws]
          obtain ⟨k, text⟩ := t
          show NoCom (lexChars (trimTrail text)) ∧ UpOK (lexChars (trimTrail text))
          cases k with
          | lineC => simp [isCommentTok] at hcm
          | blockC => simp [isCommentTok] at hcm
          | ws =>
            obtain ⟨hne2, hall, _⟩ := htokOK
            rw [trimTrail_nil_allws hall]
            exact lexChars_nil_ncup
          | word =>
            obtain ⟨hne2, hall, _⟩ := htokOK
            rw [trimTrail_all_nonws (fun x hx => wordChar_not_ws (hall x hx))]
            have htOK : tokOK (⟨.word, text⟩ : Tok) none :=
              ⟨hne2, hall, fun c hc => by cases hc⟩
            have hp := tokOK_peels (by intro hh; cases hh) (by intro hh; cases hh) htOK [] rfl
            rw [List.append_nil] at hp
            rw [lexChars_cons hp]
            refine ⟨?_, ?_⟩
            · rw [noCom_cons]
              exact ⟨hcm, lexChars_nil_ncup.1⟩
            · rw [upOK_cons]
              exact ⟨hfix, lexChars_nil_ncup.2⟩
          | punct =>
            obtain ⟨c, hct, hws, hwd, hq1, hq2, _, _⟩ := htokOK
            rw [show text = [c] from hct]
            rw [trimTrail_all_nonws (by intro x hx; simp at hx; rw [hx]; exact hws)]
            have htOK : tokOK (⟨.punct, [c]⟩ : Tok) none := by
              refine ⟨c, rfl, hws, hwd, hq1, hq2, ?_, ?_⟩
              · intro _ hh; cases hh
              · intro _ hh; cases hh
            have hp := tokOK_peels (by intro hh; cases hh) (by intro hh; cases hh) htOK [] rfl
            rw [List.append_nil] at hp
            rw [lexChars_cons hp]
            refine ⟨?_, ?_⟩
            · rw [noCom_cons]
              exact ⟨rfl, lexChars_nil_ncup.1⟩
            · rw [upOK_cons]
              exact ⟨rfl, lexChars_nil_ncup.2⟩
          | strq =>
            obtain ⟨body, hb, hcl⟩ := htokOK
            have hbq : takeQuotedEnd '\'' body = (body, []) := by
              rcases hcl with ⟨hclo, _⟩ | ⟨hx, _⟩
              · have hh := hclo [] (by simp)
                rwa [List.append_nil] at hh
              · exact hx
            rw [show text = '\'' :: body from hb]
            have hstep : trimTrail ('\'' :: body) = '\'' :: trimTrail body := by
              by_cases hbt : trimTrail body = []
              · rw [show ('\'' :: body) = ['\''] ++ body from rfl,
                  trimTrail_append_ws _ (trimTrail_ne_nil_allws hbt),
                  trimTrail_all_nonws (by intro x hx; simp at hx; rw [hx]; decide), hbt]
              · rw [show ('\'' :: body) = ['\''] ++ body from rfl,
                  trimTrail_append_keep _ hbt]
                rfl
            rw [hstep]
            obtain ⟨r, hr, hd⟩ := trimTrail_decomp body
            have hWq : ∀ w ∈ r, (w == '\'') = false := by
              intro w hw
              have hwss := hr w hw
              cases hbe : w == '\''
              · rfl
              · rw [show w = '\'' by simpa using hbe] at hwss
                exact absurd hwss (by decide)
            have hcore : takeQuotedEnd '\'' (trimTrail body) = (trimTrail body, []) := by
              apply tqe_unterm_prefix '\'' (trimTrail body) r hWq
              rw [← hd]
              exact hbq
            have htOK : tokOK (⟨.strq, '\'' :: trimTrail body⟩ : Tok) none :=
              ⟨trimTrail body, rfl, Or.inr ⟨hcore, rfl⟩⟩
            have hp := tokOK_peels (by intro hh; cases hh) (by intro hh; cases hh) htOK [] rfl
            rw [List.append_nil] at hp
            rw [lexChars_cons hp]
            refine ⟨?_, ?_⟩
            · rw [noCom_cons]
              exact ⟨rfl, lexChars_nil_ncup.1⟩
            · rw [upOK_cons]
              exact ⟨rfl, lexChars_nil_ncup.2⟩
          | dquo =>
            obtain ⟨body, hb, hcl⟩ := htokOK
            have hbq : takeQuotedEnd '"' body = (body, []) := by
              rcases hcl with ⟨hclo, _⟩ | ⟨hx, _⟩
              · have hh := hclo [] (by simp)
                rwa [List.append_nil] at hh
              · exact hx
            rw [show text = '"' :: body from hb]
            have hstep : trimTrail ('"' :: body) = '"' :: trimTrail body := by
              by_cases hbt : trimTrail body = []
              · rw [show ('"' :: body) = ['"'] ++ body from rfl,
                  trimTrail_append_ws _ (trimTrail_ne_nil_allws hbt),
                  trimTrail_all_nonws (by intro x hx; simp at hx; rw [hx]; decide), hbt]
              · rw [show ('"' :: body) = ['"'] ++ body from rfl,
                  trimTrail_append_keep _ hbt]
                rfl
            rw [hstep]
            obtain ⟨r, hr, hd⟩ := trimTrail_decomp body
            have hWq : ∀ w ∈ r, (w == '"') = false := by
              intro w hw
              have hwss := hr w hw
              cases hbe : w == '"'
              · rfl
              · rw [show w = '"' by simpa using hbe] at hwss
                exact absurd hwss (by decide)
            have hcore : takeQuotedEnd '"' (trimTrail body) = (trimTrail body, []) := by
              apply tqe_unterm_prefix '"' (trimTrail body) r hWq
              rw [← hd]
              exact hbq
            have htOK : tokOK (⟨.dquo, '"' :: trimTrail body⟩ : Tok) none :=
              ⟨trimTrail body, rfl, Or.inr ⟨hcore, rfl⟩⟩
            have hp := tokOK_peels (by intro hh; cases hh) (by intro hh; cases hh) htOK [] rfl
            rw [List.append_nil] at hp
            rw [lexChars_cons hp]
            refine ⟨?_, ?_⟩
            · rw [noCom_cons]
              exact ⟨rfl, lexChars_nil_ncup.1⟩
            · rw [upOK_cons]
              exact ⟨rfl, lexChars_nil_ncup.2⟩
        · rw [← hsplit, trimTrail_append_keep _ hu]
          have hpeel := tokOK_peels hnk.1 hnk.2 htokOK (trimTrail u) (trimTrail_head hu)
          rw [lexChars_cons hpeel]
          have hrec := ih u.length hularge u le_rfl (noCom_cons.mp h1).2 (upOK_cons.mp h2).2
          refine ⟨?_, ?_⟩
          · rw [noCom_cons]
            exact ⟨hcm, hrec.1⟩
          · rw [upOK_cons]
            exact ⟨hfix, hrec.2⟩

theorem ncup_trimChars {X : List Char} (h1 : NoCom (lexChars X)) (h2 : UpOK (lexChars X)) :
    NoCom (lexChars (trimChars X)) ∧ UpOK (lexChars (trimChars X)) := by
  rw [trimChars_eq]
  have hdrop := ncup_dropWhile h1 h2
  exact ncup_trimTrail (X.dropWhile isWsChar).length _ le_rfl hdrop.1 hdrop.2

theorem norm_ncup (cs : List Char) :
    NoCom (lexChars (sqlFormatChars cs)) ∧ UpOK (lexChars (sqlFormatChars cs)) := by
  have hg := fmt_good cs
  have hr := good_relex (render (fmtToks (lexChars cs))).length _ le_rfl hg
  exact ncup_trimChars hr.1 hr.2

theorem norm_fixedStr (cs : List Char) : FixedStr (sqlFormatChars cs) := by
  unfold FixedStr
  exact fmt_fixed (norm_ncup cs).1 (norm_ncup cs).2

theorem trimChars_idem (A : List Char) : trimChars (trimChars A) = trimChars A := by
  rw [trimChars_eq, trimChars_eq]
  by_cases hB : trimTrail (A.dropWhile isWsChar) = []
  · rw [hB]
    rfl
  · have hh : (trimTrail (A.dropWhile isWsChar)).head? = (A.dropWhile isWsChar).head? :=
      trimTrail_head hB
    have hself : (trimTrail (A.dropWhile isWsChar)).dropWhile isWsChar
        = trimTrail (A.dropWhile isWsChar) := by
      obtain ⟨c, cs, he⟩ := List.exists_cons_of_ne_nil hB
      rw [he]
      rw [he] at hh
      have hcf : isWsChar c = false := by
        apply head_dropWhile_false (l := A)
        exact hh.symm
      rw [List.dropWhile_cons, if_neg (by rw [hcf]; intro hx; cases hx)]
    rw [hself, trimTrail_idem]

theorem sqlFormatChars_idem (cs : List Char) :
    sqlFormatChars (sqlFormatChars cs) = sqlFormatChars cs := by
  conv_lhs => rw [sqlFormatChars]
  rw [norm_fixedStr cs, render_lex]
  conv_rhs => rw [sqlFormatChars]
  rw [show trimChars (render (fmtToks (lexChars cs)))
      = sqlFormatChars cs from rfl]
  exact trimChars_idem _

end Tethys
namespace Tethys

theorem head_append_ne {u v : List Char} (h : u ≠ []) : (u ++ v).head? = u.head? := by
  obtain ⟨c, cs, he⟩ := List.exists_cons_of_ne_nil h
  rw [he]
  rfl

theorem trimTrail_len (A : List Char) : (trimTrail A).length ≤ A.length := by
  obtain ⟨r, _, hd⟩ := trimTrail_decomp A
  conv_rhs => rw [hd]
  simp

theorem limChars_no_quote :
    ∀ c ∈ limChars, ¬ (c = '\'') ∧ ¬ (c = '\\') := by decide

theorem limChars_no_dquote :
    ∀ c ∈ limChars, ¬ (c = '"') ∧ ¬ (c = '\\') := by decide

theorem lex_append_lim : ∀ (n : Nat) (X : List Char), X.length ≤ n →
    NoCom (lexChars X) → trimTrail X = X → X ≠ [] →
    lexChars (X ++ limChars) = lexChars X ++ lexChars limChars ∨
    (∃ ts k body, (k = TokKind.strq ∨ k = TokKind.dquo) ∧
      lexChars X = ts ++ [⟨k, body⟩] ∧
      lexChars (X ++ limChars) = ts ++ [⟨k, body ++ limChars⟩]) := by
  intro n
  induction n using Nat.strong_induction_on with
  | _ n ih =>
    intro X hn h1 htr hXne
    cases X with
    | nil => exact absurd rfl hXne
    | cons c0 cs0 =>
      cases htok : lexTok (c0 :: cs0) with
      | none => exact absurd htok (lexTok_ne_none c0 cs0)
      | some p =>
        obtain ⟨t, u⟩ := p
        obtain ⟨hsplit, hne⟩ := lexTok_split htok
        have hlk := lexChars_linked (c0 :: cs0)
        rw [lexChars_cons htok] at hlk h1
        have htokOK : tokOK t u.head? := by
          have hh := hlk.1
          rwa [show headC (lexChars u) = u.head? by simp only [headC, render_lex]] at hh
        have hcm : isCommentTok t = false := (noCom_cons.mp h1).1
        have hnk := not_comment_kinds hcm
        have htlen : t.text.length ≥ 1 := by
          obtain ⟨a, b, he⟩ := List.exists_cons_of_ne_nil hne
          rw [he]; simp
        have hularge : u.length < n := by
          have hl := congrArg List.length hsplit
          simp only [List.length_cons, List.length_append] at hl
          have hn2 : cs0.length + 1 ≤ n := by simpa using hn
          omega
        by_cases hu : u = []
        · subst hu
          rw [List.append_nil] at hsplit
          have hXlex : lexChars (c0 :: cs0) = [t] := by
            rw [lexChars_cons htok]
            rfl
          obtain ⟨k, text⟩ := t
          cases k with
          | lineC => simp [isCommentTok] at hcm
          | blockC => simp [isCommentTok] at hcm
          | ws =>
            exfalso
            obtain ⟨hne2, hall, _⟩ := htokOK
            have hmt : trimTrail (c0 :: cs0) = [] := by
              rw [← hsplit]
              exact trimTrail_nil_allws hall
            rw [htr] at hmt
            cases hmt
          | word =>
            left
            obtain ⟨hne2, hall, _⟩ := htokOK
            have htOK : tokOK (⟨.word, text⟩ : Tok) (some ' ') := by
              refine ⟨hne2, hall, ?_⟩
              intro c hc
              cases hc
              decide
            have hp := tokOK_peels (by intro hh; cases hh) (by intro hh; cases hh)
              htOK limChars rfl
            rw [hXlex, ← hsplit, lexChars_cons hp]
            rfl
          | punct =>
            left
            obtain ⟨c, hct, hws, hwd, hq1, hq2, _, _⟩ := htokOK
            have htOK : tokOK (⟨.punct, text⟩ : Tok) (some ' ') := by
              refine ⟨c, hct, hws, hwd, hq1, hq2, ?_, ?_⟩
              · intro _ hh
                rw [Option.some.injEq] at hh
                cases hh
              · intro _ hh
                rw [Option.some.injEq] at hh
                cases hh
            have hp := tokOK_peels (by intro hh; cases hh) (by intro hh; cases hh)
              htOK limChars rfl
            rw [hXlex, ← hsplit, lexChars_cons hp]
            rfl
          | strq =>
            obtain ⟨body, htext, hcl⟩ := htokOK
            have htext2 : text = '\'' :: body := htext
            have hX3 : c0 :: cs0 = '\'' :: body := by
              rw [← htext2]
              exact hsplit.symm
            have w1 : isWsChar '\'' = false := by decide
            have w2 : isWordChar '\'' = false := by decide
            have hswallow : takeQuotedEnd '\'' (body ++ limChars) = (body, limChars) →
                lexChars ((c0 :: cs0) ++ limChars)
                  = lexChars (c0 :: cs0) ++ lexChars limChars := by
              intro heq
              have hp : lexTok (('\'' :: body) ++ limChars)
                  = some (⟨TokKind.strq, text⟩, limChars) := by
                show lexTok ('\'' :: (body ++ limChars)) = _
                simp only [lexTok, w1, w2, Bool.false_eq_true, if_false,
                  beq_self_eq_true, if_pos]
                rw [heq, htext2]
              rw [hXlex, hX3, lexChars_cons hp]
              rfl
            rcases hcl with ⟨F, _⟩ | ⟨hun, _⟩
            · left
              exact hswallow (F limChars (by
                intro hh
                rw [show limChars.head? = some ' ' from rfl] at hh
                cases hh))
            · rcases tqe_unterm_append '\'' body hun limChars limChars_no_quote with heq | heq
              · left
                exact hswallow heq
              · right
                refine ⟨[], TokKind.strq, text, Or.inl rfl, by rw [hXlex]; rfl, ?_⟩
                have hp : lexTok (('\'' :: body) ++ limChars)
                    = some (⟨TokKind.strq, text ++ limChars⟩, []) := by
                  show lexTok ('\'' :: (body ++ limChars)) = _
                  simp only [lexTok, w1, w2, Bool.false_eq_true, if_false,
                    beq_self_eq_true, if_pos]
                  rw [heq, htext2]
                  rfl
                rw [hX3, lexChars_cons hp]
                rfl
          | dquo =>
            obtain ⟨body, htext, hcl⟩ := htokOK
            have htext2 : text = '"' :: body := htext
            have hX3 : c0 :: cs0 = '"' :: body := by
              rw [← htext2]
              exact hsplit.symm
            have w1 : isWsChar '"' = false := by decide
            have w2 : isWordChar '"' = false := by decide
            have w3 : ('"' == '\'') = false := by decide
            have hswallow : takeQuotedEnd '"' (body ++ limChars) = (body, limChars) →
                lexChars ((c0 :: cs0) ++ limChars)
                  = lexChars (c0 :: cs0) ++ lexChars limChars := by
              intro heq
              have hp : lexTok (('"' :: body) ++ limChars)
                  = some (⟨TokKind.dquo, text⟩, limChars) := by
                show lexTok ('"' :: (body ++ limChars)) = _
                simp only [lexTok, w1, w2, w3, Bool.false_eq_true, if_false,
                  beq_self_eq_true, if_pos]
                rw [heq, htext2]
              rw [hXlex, hX3, lexChars_cons hp]
              rfl
            rcases hcl with ⟨F, _⟩ | ⟨hun, _⟩
            · left
              exact hswallow (F limChars (by
                intro hh
                rw [show limChars.head? = some ' ' from rfl] at hh
                cases hh))
            · rcases tqe_unterm_append '"' body hun limChars limChars_no_dquote with heq | heq
              · left
                exact hswallow heq
              · right
                refine ⟨[], TokKind.dquo, text, Or.inr rfl, by rw [hXlex]; rfl, ?_⟩
                have hp : lexTok (('"' :: body) ++ limChars)
                    = some (⟨TokKind.dquo, text ++ limChars⟩, []) := by
                  show lexTok ('"' :: (body ++ limChars)) = _
                  simp only [lexTok, w1, w2, w3, Bool.false_eq_true, if_false,
                    beq_self_eq_true, if_pos]
                  rw [heq, htext2]
                  rfl
                rw [hX3, lexChars_cons hp]
                rfl
        · have hutr : trimTrail u = u := by
            have hutn : trimTrail u ≠ [] := by
              intro hallnil
              have huws := trimTrail_ne_nil_allws hallnil
              have h5 : trimTrail (c0 :: cs0) = trimTrail t.text := by
                rw [← hsplit]
                exact trimTrail_append_ws _ huws
              rw [htr] at h5
              have h6 := congrArg List.length h5
              have h7 := trimTrail_len t.text
              have h8 := congrArg List.length hsplit
              simp only [List.length_append, List.length_cons] at h6 h8
              have h9 : u.length ≥ 1 := by
                obtain ⟨a, b, he⟩ := List.exists_cons_of_ne_nil hu
                rw [he]; simp
              omega
            have h5 : trimTrail (c0 :: cs0) = t.text ++ trimTrail u := by
              rw [← hsplit]
              exact trimTrail_append_keep _ hutn
            rw [htr, ← hsplit] at h5
            exact (List.append_cancel_left h5).symm
          have hpeel := tokOK_peels hnk.1 hnk.2 htokOK (u ++ limChars)
            (head_append_ne hu)
          have hX2 : (c0 :: cs0) ++ limChars = t.text ++ (u ++ limChars) := by
            rw [← hsplit, List.append_assoc]
          rw [hX2, lexChars_cons hpeel]
          have hrec := ih u.length hularge u le_rfl (noCom_cons.mp h1).2 hutr hu
          rcases hrec with hrec | ⟨ts, k, body, hk, he1, he2⟩
          · left
            rw [hrec, lexChars_cons htok]
            rfl
          · right
            refine ⟨t :: ts, k, body, hk, ?_, ?_⟩
            · rw [lexChars_cons htok, he1]
              rfl
            · rw [he2]
              rfl

end Tethys
namespace Tethys

theorem wbAt_prev_congr {pl : List Char} {p1 p2 : Option Char}
    (h : optWord p1 = optWord p2) (cs : List Char) :
    wbAt pl p1 cs = wbAt pl p2 cs := by
  unfold wbAt
  rw [h]

theorem wbSearch_prev_congr {pl : List Char} {p1 p2 : Option Char}
    (h : optWord p1 = optWord p2) : ∀ cs, wbSearchGo pl p1 cs = wbSearchGo pl p2 cs := by
  intro cs
  cases cs with
  | nil => rfl
  | cons c cs2 =>
    show (wbAt pl p1 (c :: cs2) || wbSearchGo pl (some c) cs2)
      = (wbAt pl p2 (c :: cs2) || wbSearchGo pl (some c) cs2)
    rw [wbAt_prev_congr h]

theorem wbSearch_prev_cases {pl cs : List Char}
    (h1 : wbSearchGo pl none cs = false) (h2 : wbSearchGo pl (some 'a') cs = false) :
    ∀ prev, wbSearchGo pl prev cs = false := by
  intro prev
  cases hw : optWord prev
  · rw [@wbSearch_prev_congr pl prev none (by rw [hw]; rfl)]
    exact h1
  · rw [@wbSearch_prev_congr pl prev (some 'a') (by rw [hw]; rfl)]
    exact h2

theorem lowersTo_append_true {pl : List Char} : ∀ {A v : List Char},
    lowersTo pl A = true → lowersTo pl (A ++ v) = true := by
  induction pl with
  | nil => intro A v _; rfl
  | cons p ps ih =>
    intro A v h
    cases A with
    | nil => cases h
    | cons a A2 =>
      show ((a.toLower == p) && lowersTo ps (A2 ++ v)) = true
      have hh : ((a.toLower == p) && lowersTo ps A2) = true := h
      rcases Bool.and_eq_true .. |>.mp hh with ⟨hh1, hh2⟩
      rw [hh1, ih hh2]
      rfl

theorem lowersTo_length_le {pl : List Char} : ∀ {A : List Char},
    lowersTo pl A = true → pl.length ≤ A.length := by
  induction pl with
  | nil => intro A _; simp
  | cons p ps ih =>
    intro A h
    cases A with
    | nil => cases h
    | cons a A2 =>
      have hh : ((a.toLower == p) && lowersTo ps A2) = true := h
      rcases Bool.and_eq_true .. |>.mp hh with ⟨_, hh2⟩
      have := ih hh2
      simp only [List.length_cons]
      omega

theorem lowersTo_append_sp {pl : List Char} (hsp : ∀ p ∈ pl, p ≠ ' ') :
    ∀ (A B : List Char), B.head? = some ' ' →
      lowersTo pl (A ++ B) = true → lowersTo pl A = true ∧ pl.length ≤ A.length := by
  induction pl with
  | nil => intro A B _ _; exact ⟨rfl, by simp⟩
  | cons p ps ih =>
    intro A B hB h
    cases A with
    | nil =>
      exfalso
      cases B with
      | nil => cases hB
      | cons b B2 =>
        have hb : b = ' ' := by simpa using hB
        subst hb
        have hh : ((' '.toLower == p) && lowersTo ps B2) = true := h
        rcases Bool.and_eq_true .. |>.mp hh with ⟨hh1, _⟩
        have hps : (' ' : Char).toLower = ' ' := by decide
        rw [hps] at hh1
        have hps2 : p = ' ' := ((beq_iff_eq ..).mp hh1).symm
        exact hsp p (by simp) hps2
    | cons a A2 =>
      have hh : ((a.toLower == p) && lowersTo ps (A2 ++ B)) = true := h
      rcases Bool.and_eq_true .. |>.mp hh with ⟨hh1, hh2⟩
      have hrec := ih (fun q hq => hsp q (by simp [hq])) A2 B hB hh2
      refine ⟨?_, ?_⟩
      · show ((a.toLower == p) && lowersTo ps A2) = true
        rw [hh1, hrec.1]
        rfl
      · simp only [List.length_cons]
        omega

theorem optWord_drop_append {A B : List Char} (hB : B.head? = some ' ') {m : Nat}
    (hm : m ≤ A.length) :
    optWord (((A ++ B).drop m).head?) = optWord ((A.drop m).head?) := by
  rcases Nat.lt_or_ge m A.length with hlt | hge
  · rw [List.drop_append_of_le_length (le_of_lt hlt)]
    have hne : A.drop m ≠ [] := by
      intro hh
      have := congrArg List.length hh
      simp only [List.length_drop] at this
      simp at this
      omega
    rw [head_append_ne hne]
  · have hm2 : m = A.length := le_antisymm hm hge
    subst hm2
    rw [List.drop_append_of_le_length le_rfl, List.drop_length, List.nil_append, hB]
    show isWordChar ' ' = optWord [].head?
    decide

theorem wbAt_append_sp {pl : List Char} (hsp : ∀ p ∈ pl, p ≠ ' ')
    (A B : List Char) (hB : B.head? = some ' ') (prev : Option Char) :
    wbAt pl prev (A ++ B) = wbAt pl prev A := by
  cases hlt : lowersTo pl (A ++ B) with
  | false =>
    have hlt2 : lowersTo pl A = false := by
      cases hA : lowersTo pl A
      · rfl
      · rw [lowersTo_append_true hA] at hlt
        cases hlt
    unfold wbAt
    rw [hlt, hlt2]
    rfl
  | true =>
    obtain ⟨hA, hlen⟩ := lowersTo_append_sp hsp A B hB hlt
    unfold wbAt
    rw [hlt, hA, optWord_drop_append hB hlen]

theorem wbSearch_append_sp {pl : List Char} (hsp : ∀ p ∈ pl, p ≠ ' ')
    (hlim : ∀ prev, wbSearchGo pl prev limChars = false) :
    ∀ (A : List Char) (prev : Option Char), wbSearchGo pl prev A = false →
      wbSearchGo pl prev (A ++ limChars) = false := by
  intro A
  induction A with
  | nil => intro prev _; exact hlim prev
  | cons c A2 ih =>
    intro prev h
    have hh : (wbAt pl prev (c :: A2) || wbSearchGo pl (some c) A2) = false := h
    rcases Bool.or_eq_false_iff.mp hh with ⟨hh1, hh2⟩
    show (wbAt pl prev (c :: (A2 ++ limChars)) || wbSearchGo pl (some c) (A2 ++ limChars))
      = false
    rw [show (c :: (A2 ++ limChars)) = (c :: A2) ++ limChars from rfl,
      wbAt_append_sp hsp (c :: A2) limChars rfl prev, hh1, ih (some c) hh2]
    rfl

theorem forb_side : ∀ f ∈ MainApp.forbidden,
    (∀ p ∈ lowerL f.data, p ≠ ' ') ∧
    wbSearchGo (lowerL f.data) none limChars = false ∧
    wbSearchGo (lowerL f.data) (some 'a') limChars = false := by decide

theorem rag_forb_sub : ∀ f ∈ RagEngine.forbidden, f ∈ MainApp.forbidden := by decide

theorem reSearchWB_append_lim {f : String} (hf : f ∈ MainApp.forbidden)
    {P : List Char} (h : reSearchWB f P = false) :
    reSearchWB f (P ++ limChars) = false := by
  obtain ⟨hsp, h1, h2⟩ := forb_side f hf
  exact wbSearch_append_sp hsp (wbSearch_prev_cases h1 h2) P none h

theorem startsKw_append_lim {kw : String} {k0 : Char} {ks : List Char}
    (hkw : kw.data = k0 :: ks) {P : List Char} (h : startsKw kw P = true) :
    startsKw kw (P ++ limChars) = true := by
  simp only [startsKw] at h ⊢
  rcases Bool.and_eq_true .. |>.mp h with ⟨h1, h2⟩
  have hrestne : P.dropWhile isWsChar ≠ [] := by
    intro hh
    rw [hh] at h1
    rw [hkw] at h1
    cases h1
  rw [dropWhile_append_ne _ _ hrestne]
  have hlen : (lowerL kw.data).length ≤ (P.dropWhile isWsChar).length :=
    lowersTo_length_le h1
  have hlen2 : kw.data.length ≤ (P.dropWhile isWsChar).length := by
    have : (lowerL kw.data).length = kw.data.length := by simp [lowerL]
    omega
  rw [lowersTo_append_true h1]
  have hod := optWord_drop_append (A := P.dropWhile isWsChar) (B := limChars)
    rfl hlen2
  rw [hod]
  exact h2

theorem containsLimitUpper_append (P : List Char) :
    containsLimitUpper (P ++ limChars) = true := by
  unfold containsLimitUpper
  rw [show upperL (P ++ limChars) = upperL P ++ upperL limChars from by simp [upperL]]
  exact containsSub_append_right _ _ _ (by decide)

theorem trimChars_head_nonws {P : List Char} (hP : trimChars P = P) (hne : P ≠ []) :
    ∀ c, P.head? = some c → isWsChar c = false := by
  intro c hc
  rw [trimChars_eq] at hP
  have htne : trimTrail (P.dropWhile isWsChar) ≠ [] := by
    rw [hP]
    exact hne
  have hh := trimTrail_head htne
  rw [hP] at hh
  rw [hc] at hh
  exact head_dropWhile_false P c hh.symm

theorem trimChars_append_lim {P : List Char} (hP : trimChars P = P) (hne : P ≠ []) :
    trimChars (P ++ limChars) = P ++ limChars := by
  obtain ⟨c, cs, he⟩ := List.exists_cons_of_ne_nil hne
  have hcw : isWsChar c = false := trimChars_head_nonws hP hne c (by rw [he]; rfl)
  rw [trimChars_eq]
  have hdw : (P ++ limChars).dropWhile isWsChar = P ++ limChars := by
    rw [he, List.cons_append, List.dropWhile_cons, if_neg (by rw [hcw]; intro hh; cases hh)]
  rw [hdw, trimTrail_append_keep _ (by decide : trimTrail limChars ≠ []),
    (by decide : trimTrail limChars = limChars)]

theorem trimTrail_of_trimChars {P : List Char} (hP : trimChars P = P) :
    trimTrail P = P := by
  by_cases hne : P = []
  · subst hne
    rfl
  · obtain ⟨c, cs, he⟩ := List.exists_cons_of_ne_nil hne
    have hcw : isWsChar c = false := trimChars_head_nonws hP hne c (by rw [he]; rfl)
    rw [trimChars_eq] at hP
    have hdw : P.dropWhile isWsChar = P := by
      rw [he, List.dropWhile_cons, if_neg (by rw [hcw]; intro hh; cases hh)]
    rw [hdw] at hP
    exact hP

theorem noCom_append {A B : List Tok} (hA : NoCom A) (hB : NoCom B) : NoCom (A ++ B) := by
  intro x hx
  rcases List.mem_append.mp hx with hx | hx
  · exact hA x hx
  · exact hB x hx

theorem upOK_append {A B : List Tok} (hA : UpOK A) (hB : UpOK B) : UpOK (A ++ B) := by
  intro x hx
  rcases List.mem_append.mp hx with hx | hx
  · exact hA x hx
  · exact hB x hx

theorem lim_lex_toks : lexChars limChars =
    [⟨.ws, [' ']⟩, ⟨.word, "LIMIT".data⟩, ⟨.ws, [' ']⟩, ⟨.word, "1000".data⟩] := by decide

theorem lim_lex_ncup : NoCom (lexChars limChars) ∧ UpOK (lexChars limChars) := by
  constructor <;> intro x hx <;> rw [lim_lex_toks] at hx <;> simp at hx <;>
    rcases hx with rfl | rfl | rfl | rfl <;> decide

theorem ncup_append_lim {P : List Char} (hnc : NoCom (lexChars P)) (hup : UpOK (lexChars P))
    (htrim : trimChars P = P) (hne : P ≠ []) :
    NoCom (lexChars (P ++ limChars)) ∧ UpOK (lexChars (P ++ limChars)) := by
  rcases lex_append_lim P.length P le_rfl hnc (trimTrail_of_trimChars htrim) hne with
    he | ⟨ts, k, body, hk, he1, he2⟩
  · rw [he]
    exact ⟨noCom_append hnc lim_lex_ncup.1, upOK_append hup lim_lex_ncup.2⟩
  · rw [he2]
    have hts : ∀ x ∈ ts, x ∈ lexChars P := by
      intro x hx
      rw [he1]
      exact List.mem_append.mpr (Or.inl hx)
    constructor
    · intro x hx
      rcases List.mem_append.mp hx with hx | hx
      · exact hnc x (hts x hx)
      · rw [List.mem_singleton] at hx
        subst hx
        rcases hk with hk | hk <;> (subst hk; rfl)
    · intro x hx
      rcases List.mem_append.mp hx with hx | hx
      · exact hup x (hts x hx)
      · rw [List.mem_singleton] at hx
        subst hx
        rcases hk with hk | hk <;> (subst hk; rfl)

theorem sqlFormat_append_lim {P : List Char} (hnc : NoCom (lexChars P)) (hup : UpOK (lexChars P))
    (htrim : trimChars P = P) (hne : P ≠ []) :
    sqlFormatChars (P ++ limChars) = P ++ limChars := by
  have hncl := ncup_append_lim hnc hup htrim hne
  unfold sqlFormatChars
  rw [fmt_fixed hncl.1 hncl.2, render_lex]
  exact trimChars_append_lim htrim hne

end Tethys
namespace Tethys

theorem dot_shape (ts : List Tok) :
    (∃ w rest, ts = ⟨.punct, ['.']⟩ :: ⟨.word, w⟩ :: rest) ∨
    (∀ w rest, ts = ⟨.punct, ['.']⟩ :: ⟨.word, w⟩ :: rest → False) := by
  rcases ts with _ | ⟨t1, ts1⟩
  · right; intro w rest h; cases h
  · rcases ts1 with _ | ⟨t2, ts2⟩
    · right; intro w rest h; cases h
    · by_cases h1 : t1 = (⟨.punct, ['.']⟩ : Tok)
      · rcases t2 with ⟨k2, x2⟩
        cases k2 with
        | word => left; exact ⟨x2, ts2, by rw [h1]⟩
        | ws => right; intro w rest h; injection h with ha hb; injection hb with hc hd; exact absurd hc.symm (by intro hh; cases hh)
        | strq => right; intro w rest h; injection h with ha hb; injection hb with hc hd; exact absurd hc.symm (by intro hh; cases hh)
        | dquo => right; intro w rest h; injection h with ha hb; injection hb with hc hd; exact absurd hc.symm (by intro hh; cases hh)
        | lineC => right; intro w rest h; injection h with ha hb; injection hb with hc hd; exact absurd hc.symm (by intro hh; cases hh)
        | blockC => right; intro w rest h; injection h with ha hb; injection hb with hc hd; exact absurd hc.symm (by intro hh; cases hh)
        | punct => right; intro w rest h; injection h with ha hb; injection hb with hc hd; exact absurd hc.symm (by intro hh; cases hh)
      · right; intro w rest h; injection h with ha hb; exact h1 ha

theorem dotChain_step {fuel : Nat} {acc w : List Char} {rest : List Tok} :
    dotChain (fuel + 1) acc (⟨.punct, ['.']⟩ :: ⟨.word, w⟩ :: rest)
      = dotChain fuel (acc ++ '.' :: w) rest := rfl

theorem dotChain_stop {fuel : Nat} {acc : List Char} {ts : List Tok}
    (h : ∀ w rest, ts = ⟨.punct, ['.']⟩ :: ⟨.word, w⟩ :: rest → False) :
    dotChain fuel acc ts = (acc, ts) := by
  cases fuel with
  | zero => rfl
  | succ k =>
    rw [dotChain.eq_def]
    split
    · rfl
    · exact (h _ _ rfl).elim
    · rfl

theorem limToks_not_dot : ∀ (w : List Char) (rest : List Tok),
    limToks = ⟨.punct, ['.']⟩ :: ⟨.word, w⟩ :: rest → False := by
  intro w rest h
  simp [limToks] at h

theorem dotChain_app : ∀ (fuel₁ : Nat) (ts : List Tok) (fuel₂ : Nat) (acc : List Char),
    ts.length ≤ fuel₁ → ts.length ≤ fuel₂ →
    dotChain fuel₂ acc (ts ++ limToks)
      = ((dotChain fuel₁ acc ts).1, (dotChain fuel₁ acc ts).2 ++ limToks) := by
  intro fuel₁
  induction fuel₁ with
  | zero =>
    intro ts fuel₂ acc h1 h2
    have hts : ts = [] := List.eq_nil_of_length_eq_zero (Nat.le_zero.mp h1)
    subst hts
    simp only [List.nil_append]
    rw [dotChain_stop limToks_not_dot]
    rfl
  | succ k ih =>
    intro ts fuel₂ acc h1 h2
    rcases dot_shape ts with ⟨w, rest, rfl⟩ | hstop
    · obtain ⟨m, rfl⟩ : ∃ m, fuel₂ = m + 1 := by
        refine ⟨fuel₂ - 1, ?_⟩
        simp only [List.length_cons] at h2
        omega
      rw [show ((⟨.punct, ['.']⟩ : Tok) :: ⟨.word, w⟩ :: rest) ++ limToks
        = ⟨.punct, ['.']⟩ :: ⟨.word, w⟩ :: (rest ++ limToks) from rfl]
      rw [dotChain_step, dotChain_step]
      refine ih rest m (acc ++ '.' :: w) ?_ ?_ <;>
        simp only [List.length_cons] at h1 h2 <;> omega
    · rw [dotChain_stop hstop, dotChain_stop ?hs2]
      case hs2 =>
        intro w rest h
        rcases ts with _ | ⟨t1, ts1⟩
        · exact limToks_not_dot w rest h
        · rcases ts1 with _ | ⟨t2, ts2⟩
          · simp only [List.cons_append, List.nil_append, List.cons.injEq] at h
            have hbad := h.2
            simp [limToks] at hbad
          · simp only [List.cons_append, List.cons.injEq] at h
            obtain ⟨ha, hb, hc⟩ := h
            exact hstop w ts2 (by rw [ha, hb])

theorem commaIdent_app : ∀ ts : List Tok,
    commaIdent (ts ++ limToks) =
      (commaIdent ts).map (fun x => (x.1, x.2.1, x.2.2 ++ limToks)) := by
  have hLIMkw : (!isKeyword "LIMIT".data && !("LIMIT".data.all Char.isDigit)) = false := by
    decide
  intro ts
  rcases ts with _ | ⟨⟨k1, x1⟩, r1⟩
  · simp only [List.nil_append]
    rw [show commaIdent limToks = none from by decide]
    rfl
  · cases k1 with
    | word => simp only [commaIdent, List.cons_append, Option.map_none', Option.map_some']
    | strq => simp only [commaIdent, List.cons_append, Option.map_none', Option.map_some']
    | dquo => simp only [commaIdent, List.cons_append, Option.map_none', Option.map_some']
    | lineC => simp only [commaIdent, List.cons_append, Option.map_none', Option.map_some']
    | blockC => simp only [commaIdent, List.cons_append, Option.map_none', Option.map_some']
    | punct =>
      by_cases hx : x1 = [',']
      · subst hx
        rcases r1 with _ | ⟨⟨k3, x3⟩, r3⟩
        · simp only [commaIdent, limToks, List.cons_append, List.nil_append,
            Option.map_none', Option.map_some', hLIMkw, Bool.false_eq_true, if_false]
        · cases k3 with
          | ws =>
            rcases r3 with _ | ⟨⟨k4, x4⟩, r4⟩
            · simp only [commaIdent, limToks, List.cons_append, List.nil_append,
                Option.map_none', Option.map_some', hLIMkw, Bool.false_eq_true, if_false]
            · cases k4 with
              | word => simp only [commaIdent, List.cons_append, Option.map_none', Option.map_some']; split <;> rfl
              | dquo => simp only [commaIdent, List.cons_append, Option.map_none', Option.map_some']
              | ws => simp only [commaIdent, List.cons_append, Option.map_none', Option.map_some']
              | strq => simp only [commaIdent, List.cons_append, Option.map_none', Option.map_some']
              | lineC => simp only [commaIdent, List.cons_append, Option.map_none', Option.map_some']
              | blockC => simp only [commaIdent, List.cons_append, Option.map_none', Option.map_some']
              | punct => simp only [commaIdent, List.cons_append, Option.map_none', Option.map_some']
          | word => simp only [commaIdent, List.cons_append, Option.map_none', Option.map_some']; split <;> rfl
          | dquo => simp only [commaIdent, List.cons_append, Option.map_none', Option.map_some']
          | strq => simp only [commaIdent, List.cons_append, Option.map_none', Option.map_some']
          | lineC => simp only [commaIdent, List.cons_append, Option.map_none', Option.map_some']
          | blockC => simp only [commaIdent, List.cons_append, Option.map_none', Option.map_some']
          | punct => simp only [commaIdent, List.cons_append, Option.map_none', Option.map_some']
      · simp only [commaIdent, List.cons_append, Option.map_none', Option.map_some']
        split
        · rename_i heq
          injection heq with ha _
          injection ha with _ ht
          exact absurd ht hx
        · split
          · rename_i heq
            injection heq with ha _
            injection ha with _ ht
            exact absurd ht hx
          · rfl
    | ws =>
      rcases r1 with _ | ⟨⟨k2, x2⟩, r2⟩
      · simp only [commaIdent, limToks, List.cons_append, List.nil_append,
            Option.map_none', Option.map_some', hLIMkw, Bool.false_eq_true, if_false]
      · cases k2 with
        | word => simp only [commaIdent, List.cons_append, Option.map_none', Option.map_some']
        | strq => simp only [commaIdent, List.cons_append, Option.map_none', Option.map_some']
        | dquo => simp only [commaIdent, List.cons_append, Option.map_none', Option.map_some']
        | lineC => simp only [commaIdent, List.cons_append, Option.map_none', Option.map_some']
        | blockC => simp only [commaIdent, List.cons_append, Option.map_none', Option.map_some']
        | ws => simp only [commaIdent, List.cons_append, Option.map_none', Option.map_some']
        | punct =>
          by_cases hx : x2 = [',']
          · subst hx
            rcases r2 with _ | ⟨⟨k3, x3⟩, r3⟩
            · simp only [commaIdent, limToks, List.cons_append, List.nil_append,
                Option.map_none', Option.map_some', hLIMkw, Bool.false_eq_true, if_false]
            · cases k3 with
              | ws =>
                rcases r3 with _ | ⟨⟨k4, x4⟩, r4⟩
                · simp only [commaIdent, limToks, List.cons_append, List.nil_append,
                    Option.map_none', Option.map_some', hLIMkw, Bool.false_eq_true, if_false]
                · cases k4 with
                  | word => simp only [commaIdent, List.cons_append, Option.map_none', Option.map_some']; split <;> rfl
                  | dquo => simp only [commaIdent, List.cons_append, Option.map_none', Option.map_some']
                  | ws => simp only [commaIdent, List.cons_append, Option.map_none', Option.map_some']
                  | strq => simp only [commaIdent, List.cons_append, Option.map_none', Option.map_some']
                  | lineC => simp only [commaIdent, List.cons_append, Option.map_none', Option.map_some']
                  | blockC => simp only [commaIdent, List.cons_append, Option.map_none', Option.map_some']
                  | punct => simp only [commaIdent, List.cons_append, Option.map_none', Option.map_some']
              | word => simp only [commaIdent, List.cons_append, Option.map_none', Option.map_some']; split <;> rfl
              | dquo => simp only [commaIdent, List.cons_append, Option.map_none', Option.map_some']
              | strq => simp only [commaIdent, List.cons_append, Option.map_none', Option.map_some']
              | lineC => simp only [commaIdent, List.cons_append, Option.map_none', Option.map_some']
              | blockC => simp only [commaIdent, List.cons_append, Option.map_none', Option.map_some']
              | punct => simp only [commaIdent, List.cons_append, Option.map_none', Option.map_some']
          · simp only [commaIdent, List.cons_append, Option.map_none', Option.map_some']
            split
            · rename_i heq
              injection heq with ha _
              injection ha with _ ht
              exact absurd ht hx
            · split
              · rename_i heq
                injection heq with ha _
                injection ha with _ ht
                exact absurd ht hx
              · rfl
end Tethys
namespace Tethys

theorem aliasStep_app : ∀ (acc : List Char) (ts : List Tok),
    aliasStep acc (ts ++ limToks) = ((aliasStep acc ts).1, (aliasStep acc ts).2 ++ limToks) := by
  have hLIMkw : isKeyword "LIMIT".data = true := by decide
  have hLIMas : (upperL "LIMIT".data == "AS".data) = false := by decide
  intro acc ts
  rcases ts with _ | ⟨⟨k1, x1⟩, r1⟩
  · simp only [List.nil_append, aliasStep, limToks, hLIMkw, hLIMas, Bool.false_eq_true,
      if_false, if_true]
  · cases k1 with
    | word => simp only [aliasStep, List.cons_append]
    | strq => simp only [aliasStep, List.cons_append]
    | dquo => simp only [aliasStep, List.cons_append]
    | lineC => simp only [aliasStep, List.cons_append]
    | blockC => simp only [aliasStep, List.cons_append]
    | punct => simp only [aliasStep, List.cons_append]
    | ws =>
      rcases r1 with _ | ⟨⟨k2, x2⟩, r2⟩
      · simp only [aliasStep, limToks, List.cons_append, List.nil_append]
      · cases k2 with
        | ws => simp only [aliasStep, List.cons_append]
        | strq => simp only [aliasStep, List.cons_append]
        | dquo => simp only [aliasStep, List.cons_append]
        | lineC => simp only [aliasStep, List.cons_append]
        | blockC => simp only [aliasStep, List.cons_append]
        | punct => simp only [aliasStep, List.cons_append]
        | word =>
          by_cases hk : isKeyword x2 = true
          · by_cases hAS : (upperL x2 == "AS".data) = true
            · rcases r2 with _ | ⟨⟨k3, x3⟩, r3⟩
              · simp only [aliasStep, limToks, List.cons_append, List.nil_append, hk, hAS,
                  if_true, hLIMkw, Bool.not_true, Bool.false_and, Bool.false_eq_true, if_false]
              · cases k3 with
                | word => simp only [aliasStep, List.cons_append, hk, hAS, if_true]
                | strq => simp only [aliasStep, List.cons_append, hk, hAS, if_true]
                | dquo => simp only [aliasStep, List.cons_append, hk, hAS, if_true]
                | lineC => simp only [aliasStep, List.cons_append, hk, hAS, if_true]
                | blockC => simp only [aliasStep, List.cons_append, hk, hAS, if_true]
                | punct => simp only [aliasStep, List.cons_append, hk, hAS, if_true]
                | ws =>
                  rcases r3 with _ | ⟨⟨k4, x4⟩, r4⟩
                  · simp only [aliasStep, limToks, List.cons_append, List.nil_append, hk, hAS,
                      if_true]
                  · cases k4 with
                    | word =>
                      simp only [aliasStep, List.cons_append, hk, hAS, if_true]
                      split <;> rfl
                    | strq => simp only [aliasStep, List.cons_append, hk, hAS, if_true]
                    | dquo => simp only [aliasStep, List.cons_append, hk, hAS, if_true]
                    | lineC => simp only [aliasStep, List.cons_append, hk, hAS, if_true]
                    | blockC => simp only [aliasStep, List.cons_append, hk, hAS, if_true]
                    | punct => simp only [aliasStep, List.cons_append, hk, hAS, if_true]
                    | ws => simp only [aliasStep, List.cons_append, hk, hAS, if_true]
            · have hASf : (upperL x2 == "AS".data) = false := by
                cases hb : (upperL x2 == "AS".data)
                · rfl
                · exact absurd hb hAS
              simp only [aliasStep, List.cons_append, hk, hASf, if_true, Bool.false_eq_true,
                if_false]
          · have hkf : isKeyword x2 = false := by
              cases hb : isKeyword x2
              · rfl
              · exact absurd hb hk
            simp only [aliasStep, List.cons_append, hkf, Bool.false_eq_true, if_false]
            split <;> rfl

end Tethys
namespace Tethys

theorem dc_len : ∀ (fuel : Nat) (acc : List Char) (ts : List Tok),
    (dotChain fuel acc ts).2.length ≤ ts.length := by
  intro fuel
  induction fuel with
  | zero => intro acc ts; exact le_rfl
  | succ k ih =>
    intro acc ts
    rcases dot_shape ts with ⟨w, rest, rfl⟩ | hstop
    · rw [dotChain_step]
      have := ih (acc ++ '.' :: w) rest
      simp only [List.length_cons]
      omega
    · rw [dotChain_stop hstop]

theorem as_len : ∀ (acc : List Char) (ts : List Tok),
    (aliasStep acc ts).2.length ≤ ts.length := by
  intro acc ts
  rw [aliasStep.eq_def]
  split
  · split
    · split
      · split
        · split
          · simp only [List.length_cons]; omega
          · simp only [List.length_cons]; omega
        · simp only [List.length_cons]; omega
      · simp only [List.length_cons]; omega
    · split
      · simp only [List.length_cons]; omega
      · simp only [List.length_cons]; omega
  · exact le_rfl

theorem ci_len : ∀ (ts : List Tok) (mid w : List Char) (r : List Tok),
    commaIdent ts = some (mid, w, r) → r.length + 2 ≤ ts.length := by
  intro ts mid w r h
  rcases ts with _ | ⟨⟨k1, x1⟩, r1⟩
  · exact Option.noConfusion h
  · cases k1 with
    | word => exact Option.noConfusion h
    | strq => exact Option.noConfusion h
    | dquo => exact Option.noConfusion h
    | lineC => exact Option.noConfusion h
    | blockC => exact Option.noConfusion h
    | punct =>
      by_cases hx : x1 = [',']
      · subst hx
        rcases r1 with _ | ⟨⟨k3, x3⟩, r3⟩
        · exact Option.noConfusion h
        · cases k3 with
          | strq => exact Option.noConfusion h
          | lineC => exact Option.noConfusion h
          | blockC => exact Option.noConfusion h
          | punct => exact Option.noConfusion h
          | word =>
            simp only [commaIdent] at h
            split at h
            · simp only [Option.some.injEq, Prod.mk.injEq] at h
              obtain ⟨-, -, h3⟩ := h
              rw [← h3]
              simp only [List.length_cons]
              omega
            · exact Option.noConfusion h
          | dquo =>
            simp only [commaIdent] at h
            simp only [Option.some.injEq, Prod.mk.injEq] at h
            obtain ⟨-, -, h3⟩ := h
            rw [← h3]
            simp only [List.length_cons]
            omega
          | ws =>
            rcases r3 with _ | ⟨⟨k4, x4⟩, r4⟩
            · exact Option.noConfusion h
            · cases k4 with
              | strq => exact Option.noConfusion h
              | lineC => exact Option.noConfusion h
              | blockC => exact Option.noConfusion h
              | punct => exact Option.noConfusion h
              | ws => exact Option.noConfusion h
              | word =>
                simp only [commaIdent] at h
                split at h
                · simp only [Option.some.injEq, Prod.mk.injEq] at h
                  obtain ⟨-, -, h3⟩ := h
                  rw [← h3]
                  simp only [List.length_cons]
                  omega
                · exact Option.noConfusion h
              | dquo =>
                simp only [commaIdent] at h
                simp only [Option.some.injEq, Prod.mk.injEq] at h
                obtain ⟨-, -, h3⟩ := h
                rw [← h3]
                simp only [List.length_cons]
                omega
      · simp only [commaIdent] at h
        split at h
        · rename_i heq
          injection heq with ha _
          injection ha with _ ht
          exact absurd ht hx
        · exact Option.noConfusion h
    | ws =>
      rcases r1 with _ | ⟨⟨k2, x2⟩, r2⟩
      · exact Option.noConfusion h
      · cases k2 with
        | word => exact Option.noConfusion h
        | strq => exact Option.noConfusion h
        | dquo => exact Option.noConfusion h
        | lineC => exact Option.noConfusion h
        | blockC => exact Option.noConfusion h
        | ws => exact Option.noConfusion h
        | punct =>
          by_cases hx : x2 = [',']
          · subst hx
            rcases r2 with _ | ⟨⟨k3, x3⟩, r3⟩
            · exact Option.noConfusion h
            · cases k3 with
              | strq => exact Option.noConfusion h
              | lineC => exact Option.noConfusion h
              | blockC => exact Option.noConfusion h
              | punct => exact Option.noConfusion h
              | word =>
                simp only [commaIdent] at h
                split at h
                · simp only [Option.some.injEq, Prod.mk.injEq] at h
                  obtain ⟨-, -, h3⟩ := h
                  rw [← h3]
                  simp only [List.length_cons]
                  omega
                · exact Option.noConfusion h
              | dquo =>
                simp only [commaIdent] at h
                simp only [Option.some.injEq, Prod.mk.injEq] at h
                obtain ⟨-, -, h3⟩ := h
                rw [← h3]
                simp only [List.length_cons]
                omega
              | ws =>
                rcases r3 with _ | ⟨⟨k4, x4⟩, r4⟩
                · exact Option.noConfusion h
                · cases k4 with
                  | strq => exact Option.noConfusion h
                  | lineC => exact Option.noConfusion h
                  | blockC => exact Option.noConfusion h
                  | punct => exact Option.noConfusion h
                  | ws => exact Option.noConfusion h
                  | word =>
                    simp only [commaIdent] at h
                    split at h
                    · simp only [Option.some.injEq, Prod.mk.injEq] at h
                      obtain ⟨-, -, h3⟩ := h
                      rw [← h3]
                      simp only [List.length_cons]
                      omega
                    · exact Option.noConfusion h
                  | dquo =>
                    simp only [commaIdent] at h
                    simp only [Option.some.injEq, Prod.mk.injEq] at h
                    obtain ⟨-, -, h3⟩ := h
                    rw [← h3]
                    simp only [List.length_cons]
                    omega
          · simp only [commaIdent] at h
            split at h
            · rename_i heq
              injection heq with ha _
              injection ha with _ ht
              exact absurd ht hx
            · exact Option.noConfusion h

end Tethys
namespace Tethys

theorem identExt_zero (acc : List Char) (fuel₂ : Nat) :
    identExt fuel₂ acc limToks = (acc, limToks) := by
  cases fuel₂ with
  | zero => rfl
  | succ m =>
    simp only [identExt, show commaIdent limToks = none from by decide]

theorem identExt_app : ∀ (fuel₁ : Nat) (ts : List Tok) (fuel₂ : Nat) (acc : List Char),
    ts.length ≤ fuel₁ → ts.length ≤ fuel₂ →
    identExt fuel₂ acc (ts ++ limToks)
      = ((identExt fuel₁ acc ts).1, (identExt fuel₁ acc ts).2 ++ limToks) := by
  intro fuel₁
  induction fuel₁ with
  | zero =>
    intro ts fuel₂ acc h1 h2
    have hts : ts = [] := List.eq_nil_of_length_eq_zero (Nat.le_zero.mp h1)
    subst hts
    simp only [List.nil_append]
    rw [identExt_zero]
    rfl
  | succ k ih =>
    intro ts fuel₂ acc h1 h2
    cases hci : commaIdent ts with
    | none =>
      have hci2 : commaIdent (ts ++ limToks) = none := by
        rw [commaIdent_app, hci]
        rfl
      cases fuel₂ with
      | zero =>
        have hts : ts = [] := List.eq_nil_of_length_eq_zero (Nat.le_zero.mp h2)
        subst hts
        simp only [List.nil_append]
        rw [identExt_zero]
        simp only [identExt, hci]
        rfl
      | succ m =>
        simp only [identExt, hci, hci2]
    | some x =>
      obtain ⟨mid, w, r⟩ := x
      have hlen := ci_len ts mid w r hci
      have hci2 : commaIdent (ts ++ limToks) = some (mid, w, r ++ limToks) := by
        rw [commaIdent_app, hci]
        rfl
      obtain ⟨m, rfl⟩ : ∃ m, fuel₂ = m + 1 := ⟨fuel₂ - 1, by omega⟩
      simp only [identExt, hci, hci2]
      have hr1 : r.length ≤ k := by omega
      have hr2 : r.length ≤ m := by omega
      rw [dotChain_app k r m (acc ++ mid ++ w) hr1 hr2]
      rw [aliasStep_app]
      have hplen : (aliasStep (dotChain k (acc ++ mid ++ w) r).1
          (dotChain k (acc ++ mid ++ w) r).2).2.length ≤ r.length :=
        le_trans (as_len _ _) (dc_len _ _ _)
      exact ih _ m _ (le_trans hplen hr1) (le_trans hplen hr2)

theorem identGroup_app (fuel₁ fuel₂ : Nat) (w : List Char) (rest : List Tok)
    (h1 : rest.length ≤ fuel₁) (h2 : rest.length ≤ fuel₂) :
    identGroup fuel₂ w (rest ++ limToks)
      = ((identGroup fuel₁ w rest).1, (identGroup fuel₁ w rest).2 ++ limToks) := by
  simp only [identGroup]
  rw [dotChain_app fuel₁ rest fuel₂ w h1 h2]
  rw [show ((dotChain fuel₁ w rest).1, (dotChain fuel₁ w rest).2 ++ limToks).1
    = (dotChain fuel₁ w rest).1 from rfl]
  rw [show ((dotChain fuel₁ w rest).1, (dotChain fuel₁ w rest).2 ++ limToks).2
    = (dotChain fuel₁ w rest).2 ++ limToks from rfl]
  rw [aliasStep_app]
  have hplen : (aliasStep (dotChain fuel₁ w rest).1 (dotChain fuel₁ w rest).2).2.length
      ≤ rest.length :=
    le_trans (as_len _ _) (dc_len _ _ _)
  exact identExt_app fuel₁ _ fuel₂ _ (le_trans hplen h1) (le_trans hplen h2)

end Tethys
namespace Tethys

theorem whereGo_nil : ∀ (f : Nat) (acc : List Char), whereGo f acc [] = (acc, []) := by
  intro f acc
  cases f <;> rfl

theorem whereGo_punct_ne {x : List Char} (hx : x ≠ [';']) (f : Nat) (acc : List Char)
    (rest : List Tok) :
    whereGo (f + 1) acc (⟨.punct, x⟩ :: rest) = whereGo f (acc ++ x) rest := by
  simp only [whereGo]
  split
  · rename_i heq
    injection heq with hk _
    exact absurd hk.symm (by intro hh; cases hh)
  · rename_i heq
    injection heq with _ ht
    exact absurd ht hx
  · rfl

theorem whereGo_app : ∀ (ts : List Tok) (fuel₁ fuel₂ : Nat) (acc : List Char),
    ts.length ≤ fuel₁ → ts.length + 4 ≤ fuel₂ →
    (∃ a r, whereGo fuel₁ acc ts = (a, r) ∧
      whereGo fuel₂ acc (ts ++ limToks) = (a, r ++ limToks)) ∨
    (∃ a, whereGo fuel₁ acc ts = (a, []) ∧
      whereGo fuel₂ acc (ts ++ limToks)
        = (a ++ [' '], [⟨.word, "LIMIT".data⟩, ⟨.ws, [' ']⟩, ⟨.word, "1000".data⟩])) := by
  intro ts
  induction ts with
  | nil =>
    intro fuel₁ fuel₂ acc h1 h2
    right
    refine ⟨acc, whereGo_nil _ _, ?_⟩
    obtain ⟨m, rfl⟩ : ∃ m, fuel₂ = m + 2 := ⟨fuel₂ - 2, by omega⟩
    simp only [List.nil_append, limToks]
    show whereGo (m + 1 + 1) acc _ = _
    simp only [whereGo,
      show whereStops.contains (String.mk (upperL "LIMIT".data)) = true from by decide,
      if_true]
  | cons t rest ih =>
    intro fuel₁ fuel₂ acc h1 h2
    obtain ⟨k, rfl⟩ : ∃ k, fuel₁ = k + 1 := ⟨fuel₁ - 1, by simp at h1; omega⟩
    obtain ⟨m, rfl⟩ : ∃ m, fuel₂ = m + 1 := ⟨fuel₂ - 1, by simp at h2; omega⟩
    have hk1 : rest.length ≤ k := by simp at h1; omega
    have hm1 : rest.length + 4 ≤ m := by simp at h2; omega
    obtain ⟨kt, xt⟩ := t
    cases kt with
    | word =>
      by_cases hstop : whereStops.contains (String.mk (upperL xt)) = true
      · left
        refine ⟨acc, ⟨.word, xt⟩ :: rest, ?_, ?_⟩
        · simp only [whereGo, hstop, if_true]
        · simp only [List.cons_append, whereGo, hstop, if_true]
          rfl
      · have hstopf : whereStops.contains (String.mk (upperL xt)) = false := by
          cases hb : whereStops.contains (String.mk (upperL xt))
          · rfl
          · exact absurd hb hstop
        simp only [List.cons_append, whereGo, hstopf, Bool.false_eq_true, if_false]
        exact ih k m (acc ++ xt) hk1 hm1
    | punct =>
      by_cases hx : xt = [';']
      · subst hx
        left
        exact ⟨acc, ⟨.punct, [';']⟩ :: rest, rfl, rfl⟩
      · rw [show ((⟨.punct, xt⟩ : Tok) :: rest) ++ limToks
          = ⟨.punct, xt⟩ :: (rest ++ limToks) from rfl]
        rw [whereGo_punct_ne hx, whereGo_punct_ne hx]
        exact ih k m (acc ++ xt) hk1 hm1
    | ws =>
      simp only [List.cons_append, whereGo]
      exact ih k m (acc ++ xt) hk1 hm1
    | strq =>
      simp only [List.cons_append, whereGo]
      exact ih k m (acc ++ xt) hk1 hm1
    | dquo =>
      simp only [List.cons_append, whereGo]
      exact ih k m (acc ++ xt) hk1 hm1
    | lineC =>
      simp only [List.cons_append, whereGo]
      exact ih k m (acc ++ xt) hk1 hm1
    | blockC =>
      simp only [List.cons_append, whereGo]
      exact ih k m (acc ++ xt) hk1 hm1

theorem wg_len : ∀ (f : Nat) (acc : List Char) (ts : List Tok),
    (whereGo f acc ts).2.length ≤ ts.length := by
  intro f
  induction f with
  | zero => intro acc ts; exact le_rfl
  | succ k ih =>
    intro acc ts
    rcases ts with _ | ⟨⟨kt, xt⟩, rest⟩
    · simp [whereGo_nil]
    · cases kt with
      | word =>
        by_cases hstop : whereStops.contains (String.mk (upperL xt)) = true
        · simp only [whereGo, hstop, if_true]
          exact le_rfl
        · have hstopf : whereStops.contains (String.mk (upperL xt)) = false := by
            cases hb : whereStops.contains (String.mk (upperL xt))
            · rfl
            · exact absurd hb hstop
          simp only [whereGo, hstopf, Bool.false_eq_true, if_false]
          have := ih (acc ++ xt) rest
          simp only [List.length_cons]
          omega
      | punct =>
        by_cases hx : xt = [';']
        · subst hx
          exact le_rfl
        · rw [whereGo_punct_ne hx]
          have := ih (acc ++ xt) rest
          simp only [List.length_cons]
          omega
      | ws =>
        simp only [whereGo]
        have := ih (acc ++ xt) rest
        simp only [List.length_cons]
        omega
      | strq =>
        simp only [whereGo]
        have := ih (acc ++ xt) rest
        simp only [List.length_cons]
        omega
      | dquo =>
        simp only [whereGo]
        have := ih (acc ++ xt) rest
        simp only [List.length_cons]
        omega
      | lineC =>
        simp only [whereGo]
        have := ih (acc ++ xt) rest
        simp only [List.length_cons]
        omega
      | blockC =>
        simp only [whereGo]
        have := ih (acc ++ xt) rest
        simp only [List.length_cons]
        omega

theorem wg_acc : ∀ (f : Nat) (acc : List Char) (ts : List Tok),
    ∃ ext, (whereGo f acc ts).1 = acc ++ ext := by
  intro f
  induction f with
  | zero => intro acc ts; exact ⟨[], by simp [whereGo]⟩
  | succ k ih =>
    intro acc ts
    rcases ts with _ | ⟨⟨kt, xt⟩, rest⟩
    · exact ⟨[], by simp [whereGo_nil]⟩
    · cases kt with
      | word =>
        by_cases hstop : whereStops.contains (String.mk (upperL xt)) = true
        · simp only [whereGo, hstop, if_true]
          exact ⟨[], by simp⟩
        · have hstopf : whereStops.contains (String.mk (upperL xt)) = false := by
            cases hb : whereStops.contains (String.mk (upperL xt))
            · rfl
            · exact absurd hb hstop
          simp only [whereGo, hstopf, Bool.false_eq_true, if_false]
          obtain ⟨ext, he⟩ := ih (acc ++ xt) rest
          exact ⟨xt ++ ext, by rw [he, List.append_assoc]⟩
      | punct =>
        by_cases hx : xt = [';']
        · subst hx
          exact ⟨[], by simp [whereGo]⟩
        · rw [whereGo_punct_ne hx]
          obtain ⟨ext, he⟩ := ih (acc ++ xt) rest
          exact ⟨xt ++ ext, by rw [he, List.append_assoc]⟩
      | ws =>
        simp only [whereGo]
        obtain ⟨ext, he⟩ := ih (acc ++ xt) rest
        exact ⟨xt ++ ext, by rw [he, List.append_assoc]⟩
      | strq =>
        simp only [whereGo]
        obtain ⟨ext, he⟩ := ih (acc ++ xt) rest
        exact ⟨xt ++ ext, by rw [he, List.append_assoc]⟩
      | dquo =>
        simp only [whereGo]
        obtain ⟨ext, he⟩ := ih (acc ++ xt) rest
        exact ⟨xt ++ ext, by rw [he, List.append_assoc]⟩
      | lineC =>
        simp only [whereGo]
        obtain ⟨ext, he⟩ := ih (acc ++ xt) rest
        exact ⟨xt ++ ext, by rw [he, List.append_assoc]⟩
      | blockC =>
        simp only [whereGo]
        obtain ⟨ext, he⟩ := ih (acc ++ xt) rest
        exact ⟨xt ++ ext, by rw [he, List.append_assoc]⟩

end Tethys
namespace Tethys

theorem takeParen_nil : ∀ (f : Nat) (d : Int) (acc : List Char),
    takeParen f d acc [] = (acc, []) := by
  intro f d acc
  cases f <;> rfl

theorem takeParen_cons (f : Nat) (d : Int) (acc : List Char) (t : Tok) (rest : List Tok) :
    takeParen (f + 1) d acc (t :: rest) =
      if isOpenParen t then takeParen f (d + 1) (acc ++ t.text) rest
      else if isCloseParen t then
        (if d ≤ 1 then (acc ++ t.text, rest) else takeParen f (d - 1) (acc ++ t.text) rest)
      else takeParen f d (acc ++ t.text) rest := rfl

theorem limChars_concat :
    [' '] ++ ("LIMIT".data ++ ([' '] ++ "1000".data)) = limChars := by decide

theorem takeParen_app : ∀ (ts : List Tok) (fuel₁ fuel₂ : Nat) (d : Int) (acc : List Char),
    ts.length ≤ fuel₁ → ts.length + 4 ≤ fuel₂ →
    (∃ a r, takeParen fuel₁ d acc ts = (a, r) ∧
      takeParen fuel₂ d acc (ts ++ limToks) = (a, r ++ limToks)) ∨
    (∃ a, takeParen fuel₁ d acc ts = (a, []) ∧
      takeParen fuel₂ d acc (ts ++ limToks) = (a ++ limChars, [])) := by
  intro ts
  induction ts with
  | nil =>
    intro fuel₁ fuel₂ d acc h1 h2
    right
    refine ⟨acc, takeParen_nil _ _ _, ?_⟩
    obtain ⟨m, rfl⟩ : ∃ m, fuel₂ = m + 4 := ⟨fuel₂ - 4, by omega⟩
    simp only [List.nil_append, limToks]
    show takeParen (m + 3 + 1) d acc _ = _
    rw [takeParen_cons, if_neg (by decide), if_neg (by decide)]
    show takeParen (m + 2 + 1) d _ _ = _
    rw [takeParen_cons, if_neg (by decide), if_neg (by decide)]
    show takeParen (m + 1 + 1) d _ _ = _
    rw [takeParen_cons, if_neg (by decide), if_neg (by decide)]
    show takeParen (m + 0 + 1) d _ _ = _
    rw [takeParen_cons, if_neg (by decide), if_neg (by decide)]
    rw [takeParen_nil]
    rw [List.append_assoc, List.append_assoc, List.append_assoc, limChars_concat]
  | cons t rest ih =>
    intro fuel₁ fuel₂ d acc h1 h2
    obtain ⟨k, rfl⟩ : ∃ k, fuel₁ = k + 1 := ⟨fuel₁ - 1, by simp at h1; omega⟩
    obtain ⟨m, rfl⟩ : ∃ m, fuel₂ = m + 1 := ⟨fuel₂ - 1, by simp at h2; omega⟩
    have hk1 : rest.length ≤ k := by simp at h1; omega
    have hm1 : rest.length + 4 ≤ m := by simp at h2; omega
    rw [List.cons_append, takeParen_cons, takeParen_cons]
    by_cases ho : isOpenParen t = true
    · rw [if_pos ho, if_pos ho]
      exact ih k m (d + 1) (acc ++ t.text) hk1 hm1
    · rw [if_neg ho, if_neg ho]
      by_cases hc : isCloseParen t = true
      · rw [if_pos hc, if_pos hc]
        by_cases hd : d ≤ 1
        · rw [if_pos hd, if_pos hd]
          left
          exact ⟨acc ++ t.text, rest, rfl, rfl⟩
        · rw [if_neg hd, if_neg hd]
          exact ih k m (d - 1) (acc ++ t.text) hk1 hm1
      · rw [if_neg hc, if_neg hc]
        exact ih k m d (acc ++ t.text) hk1 hm1

theorem tp_len : ∀ (f : Nat) (d : Int) (acc : List Char) (ts : List Tok),
    (takeParen f d acc ts).2.length ≤ ts.length := by
  intro f
  induction f with
  | zero => intro d acc ts; exact le_rfl
  | succ k ih =>
    intro d acc ts
    rcases ts with _ | ⟨t, rest⟩
    · rw [takeParen_nil]
    · rw [takeParen_cons]
      by_cases ho : isOpenParen t = true
      · rw [if_pos ho]
        have := ih (d + 1) (acc ++ t.text) rest
        simp only [List.length_cons]
        omega
      · rw [if_neg ho]
        by_cases hc : isCloseParen t = true
        · rw [if_pos hc]
          by_cases hd : d ≤ 1
          · rw [if_pos hd]
            simp only [List.length_cons]
            omega
          · rw [if_neg hd]
            have := ih (d - 1) (acc ++ t.text) rest
            simp only [List.length_cons]
            omega
        · rw [if_neg hc]
          have := ih d (acc ++ t.text) rest
          simp only [List.length_cons]
          omega

theorem tp_acc : ∀ (f : Nat) (d : Int) (acc : List Char) (ts : List Tok),
    ∃ ext, (takeParen f d acc ts).1 = acc ++ ext := by
  intro f
  induction f with
  | zero => intro d acc ts; exact ⟨[], by simp [takeParen]⟩
  | succ k ih =>
    intro d acc ts
    rcases ts with _ | ⟨t, rest⟩
    · rw [takeParen_nil]
      exact ⟨[], by simp⟩
    · rw [takeParen_cons]
      by_cases ho : isOpenParen t = true
      · rw [if_pos ho]
        obtain ⟨ext, he⟩ := ih (d + 1) (acc ++ t.text) rest
        exact ⟨t.text ++ ext, by rw [he, List.append_assoc]⟩
      · rw [if_neg ho]
        by_cases hc : isCloseParen t = true
        · rw [if_pos hc]
          by_cases hd : d ≤ 1
          · rw [if_pos hd]
            exact ⟨t.text, rfl⟩
          · rw [if_neg hd]
            obtain ⟨ext, he⟩ := ih (d - 1) (acc ++ t.text) rest
            exact ⟨t.text ++ ext, by rw [he, List.append_assoc]⟩
        · rw [if_neg hc]
          obtain ⟨ext, he⟩ := ih d (acc ++ t.text) rest
          exact ⟨t.text ++ ext, by rw [he, List.append_assoc]⟩

theorem ie_len : ∀ (f : Nat) (acc : List Char) (ts : List Tok),
    (identExt f acc ts).2.length ≤ ts.length := by
  intro f
  induction f with
  | zero => intro acc ts; exact le_rfl
  | succ k ih =>
    intro acc ts
    cases hci : commaIdent ts with
    | none =>
      simp only [identExt, hci]
      exact le_rfl
    | some x =>
      obtain ⟨mid, w, r⟩ := x
      have hlen := ci_len ts mid w r hci
      simp only [identExt, hci]
      have h1 := ih (aliasStep (dotChain k (acc ++ mid ++ w) r).1
        (dotChain k (acc ++ mid ++ w) r).2).1
        (aliasStep (dotChain k (acc ++ mid ++ w) r).1 (dotChain k (acc ++ mid ++ w) r).2).2
      have h2 : (aliasStep (dotChain k (acc ++ mid ++ w) r).1
          (dotChain k (acc ++ mid ++ w) r).2).2.length ≤ r.length :=
        le_trans (as_len _ _) (dc_len _ _ _)
      omega

theorem ig_len (f : Nat) (w : List Char) (rest : List Tok) :
    (identGroup f w rest).2.length ≤ rest.length := by
  simp only [identGroup]
  have h1 := ie_len f (aliasStep (dotChain f w rest).1 (dotChain f w rest).2).1
    (aliasStep (dotChain f w rest).1 (dotChain f w rest).2).2
  have h2 : (aliasStep (dotChain f w rest).1 (dotChain f w rest).2).2.length
      ≤ rest.length :=
    le_trans (as_len _ _) (dc_len _ _ _)
  omega

end Tethys
namespace Tethys

theorem groupGo_nil : ∀ f : Nat, groupGo f [] = [] := by
  intro f
  cases f <;> rfl

theorem allowed_iff (s : List Char) :
    ALLOWED_TABLES.contains (String.mk s) = true ↔ s = "profiles".data := by
  constructor
  · intro h
    simp only [ALLOWED_TABLES, List.contains_cons, List.contains_nil, Bool.or_false,
      beq_iff_eq] at h
    have := congrArg String.data h
    simpa using this
  · intro h
    subst h
    decide

theorem allowed_false_of_head {a : List Char} {c : Char} {t : List Char}
    (h : lowerL a = c :: t) (hc : c ≠ 'p') :
    ALLOWED_TABLES.contains (String.mk (lowerL a)) = false := by
  cases hb : ALLOWED_TABLES.contains (String.mk (lowerL a))
  · rfl
  · exfalso
    have := (allowed_iff _).mp hb
    rw [h] at this
    injection this with h1 _
    exact hc h1

theorem lowerL_append (a b : List Char) : lowerL (a ++ b) = lowerL a ++ lowerL b := by
  simp [lowerL]

theorem where_contains_false {w ext : List Char} (hw : upperL w = "WHERE".data) :
    ALLOWED_TABLES.contains (String.mk (lowerL (w ++ ext))) = false := by
  have h1 : lowerL w = "where".data := by
    rw [← lowerL_upperL, hw]
    decide
  apply allowed_false_of_head (c := 'w') (t := "here".data ++ lowerL ext)
  · rw [lowerL_append, h1]
    rfl
  · decide

theorem paren_contains_false {ext : List Char} :
    ALLOWED_TABLES.contains (String.mk (lowerL ('(' :: ext))) = false := by
  apply allowed_false_of_head (c := '(') (t := lowerL ext)
  · rfl
  · decide

theorem fromCheck_lim3 : ∀ flag : Bool,
    fromCheck [.kw "LIMIT".data, .wsG, .num "1000".data] flag = none := by
  intro flag
  cases flag <;> rfl

theorem fromCheck_lim4 : ∀ flag : Bool,
    fromCheck [.wsG, .kw "LIMIT".data, .wsG, .num "1000".data] flag = none := by
  intro flag
  cases flag <;> rfl

theorem groupGo_lim3 : ∀ m : Nat, groupGo (m + 3)
    [⟨.word, "LIMIT".data⟩, ⟨.ws, [' ']⟩, ⟨.word, "1000".data⟩]
      = [.kw "LIMIT".data, .wsG, .num "1000".data] := by
  intro m
  show groupGo (m + 2 + 1) _ = _
  simp only [groupGo, groupGo_nil,
    show ("LIMIT".data.all Char.isDigit) = false from by decide,
    show isKeyword "LIMIT".data = true from by decide,
    show (upperL "LIMIT".data == "WHERE".data) = false from by decide,
    show ("1000".data.all Char.isDigit) = true from by decide,
    Bool.false_eq_true, if_false, if_true]

theorem groupGo_lim : ∀ m : Nat, groupGo (m + 4) limToks
    = [.wsG, .kw "LIMIT".data, .wsG, .num "1000".data] := by
  intro m
  show groupGo (m + 3 + 1) limToks = _
  simp only [limToks, groupGo, groupGo_nil,
    show ("LIMIT".data.all Char.isDigit) = false from by decide,
    show isKeyword "LIMIT".data = true from by decide,
    show (upperL "LIMIT".data == "WHERE".data) = false from by decide,
    show ("1000".data.all Char.isDigit) = true from by decide,
    Bool.false_eq_true, if_false, if_true]

theorem ga : ∀ (n : Nat) (ts : List Tok) (fuel₁ fuel₂ : Nat) (flag : Bool),
    ts.length ≤ n → ts.length ≤ fuel₁ → ts.length + 4 ≤ fuel₂ →
    fromCheck (groupGo fuel₁ ts) flag = none →
    fromCheck (groupGo fuel₂ (ts ++ limToks)) flag = none := by
  intro n
  induction n using Nat.strong_induction_on with
  | _ n ih =>
    intro ts fuel₁ fuel₂ flag hn h1 h2 h
    rcases ts with _ | ⟨⟨kt, xt⟩, rest⟩
    · obtain ⟨m, rfl⟩ : ∃ m, fuel₂ = m + 4 := ⟨fuel₂ - 4, by simp at h2; omega⟩
      rw [List.nil_append, groupGo_lim]
      exact fromCheck_lim4 flag
    · obtain ⟨k, rfl⟩ : ∃ k, fuel₁ = k + 1 := ⟨fuel₁ - 1, by simp at h1; omega⟩
      obtain ⟨m, rfl⟩ : ∃ m, fuel₂ = m + 1 := ⟨fuel₂ - 1, by simp at h2; omega⟩
      have hk1 : rest.length ≤ k := by simp at h1; omega
      have hm1 : rest.length + 4 ≤ m := by simp at h2; omega
      have hnr : rest.length < n := by simp at hn; omega
      rw [List.cons_append]
      cases kt with
      | ws =>
        simp only [groupGo, fromCheck] at h ⊢
        exact ih rest.length hnr rest k m flag le_rfl hk1 hm1 h
      | strq =>
        simp only [groupGo, fromCheck] at h ⊢
        exact ih rest.length hnr rest k m flag le_rfl hk1 hm1 h
      | lineC =>
        simp only [groupGo, fromCheck] at h ⊢
        exact ih rest.length hnr rest k m flag le_rfl hk1 hm1 h
      | blockC =>
        simp only [groupGo, fromCheck] at h ⊢
        exact ih rest.length hnr rest k m flag le_rfl hk1 hm1 h
      | dquo =>
        cases flag with
        | false =>
          simp only [groupGo, fromCheck, Bool.false_eq_true, if_false] at h ⊢
          exact ih rest.length hnr rest k m false le_rfl hk1 hm1 h
        | true =>
          cases hc : ALLOWED_TABLES.contains (String.mk (lowerL xt)) with
          | false =>
            simp only [groupGo, fromCheck, hc, Bool.false_eq_true, if_false] at h
            exact Option.noConfusion h
          | true =>
            simp only [groupGo, fromCheck, hc, if_true] at h ⊢
            exact ih rest.length hnr rest k m false le_rfl hk1 hm1 h
      | punct =>
        by_cases hp : (xt == ['(']) = true
        · have hxv : xt = ['('] := by simpa using hp
          subst hxv
          simp only [groupGo, if_true] at h ⊢
          rcases takeParen_app rest k m 1 ['('] hk1 hm1 with
            ⟨a, r, e1, e2⟩ | ⟨a, e1, e2⟩
          · have f1 : (takeParen k 1 ['('] rest).1 = a := by rw [e1]
            have f2 : (takeParen k 1 ['('] rest).2 = r := by rw [e1]
            have g1 : (takeParen m 1 ['('] (rest ++ limToks)).1 = a := by rw [e2]
            have g2 : (takeParen m 1 ['('] (rest ++ limToks)).2 = r ++ limToks := by
              rw [e2]
            rw [f1, f2] at h
            rw [g1, g2]
            have hrlen : r.length ≤ rest.length := by
              have := tp_len k 1 ['('] rest
              rw [f2] at this
              exact this
            cases flag with
            | false =>
              simp only [fromCheck, Bool.false_eq_true, if_false] at h ⊢
              exact ih rest.length hnr r k m false (by omega) (by omega) (by omega) h
            | true =>
              cases hc : ALLOWED_TABLES.contains (String.mk (lowerL a)) with
              | false =>
                simp only [fromCheck, hc, Bool.false_eq_true, if_false] at h
                exact Option.noConfusion h
              | true =>
                simp only [fromCheck, hc, if_true] at h ⊢
                exact ih rest.length hnr r k m false (by omega) (by omega) (by omega) h
          · have f1 : (takeParen k 1 ['('] rest).1 = a := by rw [e1]
            have f2 : (takeParen k 1 ['('] rest).2 = [] := by rw [e1]
            have g1 : (takeParen m 1 ['('] (rest ++ limToks)).1 = a ++ limChars := by
              rw [e2]
            have g2 : (takeParen m 1 ['('] (rest ++ limToks)).2 = [] := by rw [e2]
            rw [f1, f2, groupGo_nil] at h
            rw [g1, g2, groupGo_nil]
            obtain ⟨ext, hext⟩ := tp_acc k 1 ['('] rest
            rw [f1] at hext
            have hext2 : a = '(' :: ext := by simpa using hext
            cases flag with
            | false =>
              simp only [fromCheck, Bool.false_eq_true, if_false]
            | true =>
              exfalso
              have hcf : ALLOWED_TABLES.contains (String.mk (lowerL a)) = false := by
                rw [hext2]
                exact paren_contains_false
              simp only [fromCheck, hcf, Bool.false_eq_true, if_false] at h
              exact Option.noConfusion h
        · have hpf : (xt == ['(']) = false := by
            cases hb : (xt == ['('])
            · rfl
            · exact absurd hb hp
          simp only [groupGo, hpf, Bool.false_eq_true, if_false, fromCheck] at h ⊢
          exact ih rest.length hnr rest k m flag le_rfl hk1 hm1 h
      | word =>
        by_cases hdig : (xt.all Char.isDigit) = true
        · simp only [groupGo, hdig, if_true, fromCheck] at h ⊢
          exact ih rest.length hnr rest k m flag le_rfl hk1 hm1 h
        · have hdigf : (xt.all Char.isDigit) = false := by
            cases hb : (xt.all Char.isDigit)
            · rfl
            · exact absurd hb hdig
          by_cases hkw : isKeyword xt = true
          · by_cases hwh : (upperL xt == "WHERE".data) = true
            · simp only [groupGo, hdigf, Bool.false_eq_true, if_false, hkw, if_true,
                hwh] at h ⊢
              rcases whereGo_app rest k m xt hk1 hm1 with
                ⟨a, r, e1, e2⟩ | ⟨a, e1, e2⟩
              · have f1 : (whereGo k xt rest).1 = a := by rw [e1]
                have f2 : (whereGo k xt rest).2 = r := by rw [e1]
                have g1 : (whereGo m xt (rest ++ limToks)).1 = a := by rw [e2]
                have g2 : (whereGo m xt (rest ++ limToks)).2 = r ++ limToks := by
                  rw [e2]
                rw [f1, f2] at h
                rw [g1, g2]
                have hrlen : r.length ≤ rest.length := by
                  have := wg_len k xt rest
                  rw [f2] at this
                  exact this
                cases flag with
                | false =>
                  simp only [fromCheck, Bool.false_eq_true, if_false] at h ⊢
                  exact ih rest.length hnr r k m false (by omega) (by omega)
                    (by omega) h
                | true =>
                  cases hc : ALLOWED_TABLES.contains (String.mk (lowerL a)) with
                  | false =>
                    simp only [fromCheck, hc, Bool.false_eq_true, if_false] at h
                    exact Option.noConfusion h
                  | true =>
                    simp only [fromCheck, hc, if_true] at h ⊢
                    exact ih rest.length hnr r k m false (by omega) (by omega)
                      (by omega) h
              · have f1 : (whereGo k xt rest).1 = a := by rw [e1]
                have f2 : (whereGo k xt rest).2 = [] := by rw [e1]
                have g1 : (whereGo m xt (rest ++ limToks)).1 = a ++ [' '] := by
                  rw [e2]
                have g2 : (whereGo m xt (rest ++ limToks)).2
                    = [⟨.word, "LIMIT".data⟩, ⟨.ws, [' ']⟩, ⟨.word, "1000".data⟩] := by
                  rw [e2]
                rw [f1, f2, groupGo_nil] at h
                rw [g1, g2]
                obtain ⟨m3, rfl⟩ : ∃ m3, m = m3 + 3 := ⟨m - 3, by omega⟩
                rw [groupGo_lim3]
                obtain ⟨ext, hext⟩ := wg_acc k xt rest
                rw [f1] at hext
                cases flag with
                | false =>
                  simp only [fromCheck, Bool.false_eq_true, if_false,
                    show (upperL "LIMIT".data == "FROM".data) = false from by decide]
                | true =>
                  exfalso
                  have hcf : ALLOWED_TABLES.contains (String.mk (lowerL a)) = false := by
                    rw [hext]
                    exact where_contains_false (eq_of_beq hwh)
                  simp only [fromCheck, hcf, Bool.false_eq_true, if_false] at h
                  exact Option.noConfusion h
            · have hwhf : (upperL xt == "WHERE".data) = false := by
                cases hb : (upperL xt == "WHERE".data)
                · rfl
                · exact absurd hb hwh
              cases hfrom : (upperL xt == "FROM".data) with
              | true =>
                simp only [groupGo, hdigf, Bool.false_eq_true, if_false, hkw, if_true,
                  hwhf, fromCheck, hfrom] at h ⊢
                exact ih rest.length hnr rest k m true le_rfl hk1 hm1 h
              | false =>
                simp only [groupGo, hdigf, Bool.false_eq_true, if_false, hkw, if_true,
                  hwhf, fromCheck, hfrom] at h ⊢
                exact ih rest.length hnr rest k m flag le_rfl hk1 hm1 h
          · have hkwf : isKeyword xt = false := by
              cases hb : isKeyword xt
              · rfl
              · exact absurd hb hkw
            simp only [groupGo, hdigf, Bool.false_eq_true, if_false, hkwf] at h ⊢
            have e2 := identGroup_app k m xt rest hk1 (by omega)
            have g1 : (identGroup m xt (rest ++ limToks)).1
                = (identGroup k xt rest).1 := by rw [e2]
            have g2 : (identGroup m xt (rest ++ limToks)).2
                = (identGroup k xt rest).2 ++ limToks := by rw [e2]
            rw [g1, g2]
            have hrlen := ig_len k xt rest
            cases flag with
            | false =>
              simp only [fromCheck, Bool.false_eq_true, if_false] at h ⊢
              exact ih rest.length hnr _ k m false (by omega) (by omega) (by omega) h
            | true =>
              cases hc : ALLOWED_TABLES.contains
                  (String.mk (lowerL (identGroup k xt rest).1)) with
              | false =>
                simp only [fromCheck, hc, Bool.false_eq_true, if_false] at h
                exact Option.noConfusion h
              | true =>
                simp only [fromCheck, hc, if_true] at h ⊢
                exact ih rest.length hnr _ k m false (by omega) (by omega) (by omega) h

end Tethys
namespace Tethys

theorem q_not_dot (kq : TokKind) (body : List Char) :
    ∀ (w : List Char) (rest : List Tok),
      ([⟨kq, body⟩] : List Tok) = ⟨.punct, ['.']⟩ :: ⟨.word, w⟩ :: rest → False := by
  intro w rest h
  injection h with h1 h2
  exact List.noConfusion h2

theorem dotChain_q (kq : TokKind) (hkq : kq = TokKind.strq ∨ kq = TokKind.dquo)
    (body : List Char) :
    ∀ (fuel₁ : Nat) (ts : List Tok) (fuel₂ : Nat) (acc : List Char),
    ts.length ≤ fuel₁ → ts.length ≤ fuel₂ →
    dotChain fuel₂ acc (ts ++ [⟨kq, body⟩])
      = ((dotChain fuel₁ acc ts).1, (dotChain fuel₁ acc ts).2 ++ [⟨kq, body⟩]) := by
  have hnw : ∀ w : List Char, (⟨kq, body⟩ : Tok) = ⟨.word, w⟩ → False := by
    intro w h
    injection h with hk _
    rcases hkq with rfl | rfl <;> cases hk
  intro fuel₁
  induction fuel₁ with
  | zero =>
    intro ts fuel₂ acc h1 h2
    have hts : ts = [] := List.eq_nil_of_length_eq_zero (Nat.le_zero.mp h1)
    subst hts
    simp only [List.nil_append]
    rw [dotChain_stop (q_not_dot kq body)]
    rfl
  | succ k ih =>
    intro ts fuel₂ acc h1 h2
    rcases dot_shape ts with ⟨w, rest, rfl⟩ | hstop
    · obtain ⟨m, rfl⟩ : ∃ m, fuel₂ = m + 1 := by
        refine ⟨fuel₂ - 1, ?_⟩
        simp only [List.length_cons] at h2
        omega
      rw [show ((⟨.punct, ['.']⟩ : Tok) :: ⟨.word, w⟩ :: rest) ++ [⟨kq, body⟩]
        = ⟨.punct, ['.']⟩ :: ⟨.word, w⟩ :: (rest ++ [⟨kq, body⟩]) from rfl]
      rw [dotChain_step, dotChain_step]
      refine ih rest m (acc ++ '.' :: w) ?_ ?_ <;>
        simp only [List.length_cons] at h1 h2 <;> omega
    · rw [dotChain_stop hstop, dotChain_stop ?hs2]
      case hs2 =>
        intro w rest h
        rcases ts with _ | ⟨t1, ts1⟩
        · exact q_not_dot kq body w rest h
        · rcases ts1 with _ | ⟨t2, ts2⟩
          · simp only [List.cons_append, List.nil_append, List.cons.injEq] at h
            exact hnw w h.2.1
          · simp only [List.cons_append, List.cons.injEq] at h
            obtain ⟨ha, hb, hc⟩ := h
            exact hstop w ts2 (by rw [ha, hb])

theorem aliasStep_q (kq : TokKind) (hkq : kq = TokKind.strq ∨ kq = TokKind.dquo)
    (body : List Char) :
    ∀ (acc : List Char) (ts : List Tok),
    aliasStep acc (ts ++ [⟨kq, body⟩])
      = ((aliasStep acc ts).1, (aliasStep acc ts).2 ++ [⟨kq, body⟩]) := by
  intro acc ts
  rcases ts with _ | ⟨⟨k1, x1⟩, r1⟩
  · rcases hkq with rfl | rfl <;> rfl
  · cases k1 with
    | word => simp only [aliasStep, List.cons_append]
    | strq => simp only [aliasStep, List.cons_append]
    | dquo => simp only [aliasStep, List.cons_append]
    | lineC => simp only [aliasStep, List.cons_append]
    | blockC => simp only [aliasStep, List.cons_append]
    | punct => simp only [aliasStep, List.cons_append]
    | ws =>
      rcases r1 with _ | ⟨⟨k2, x2⟩, r2⟩
      · rcases hkq with rfl | rfl <;> rfl
      · cases k2 with
        | ws => simp only [aliasStep, List.cons_append]
        | strq => simp only [aliasStep, List.cons_append]
        | dquo => simp only [aliasStep, List.cons_append]
        | lineC => simp only [aliasStep, List.cons_append]
        | blockC => simp only [aliasStep, List.cons_append]
        | punct => simp only [aliasStep, List.cons_append]
        | word =>
          by_cases hk : isKeyword x2 = true
          · by_cases hAS : (upperL x2 == "AS".data) = true
            · rcases r2 with _ | ⟨⟨k3, x3⟩, r3⟩
              · rcases hkq with rfl | rfl <;>
                  simp only [aliasStep, List.cons_append, List.nil_append, hk, hAS,
                    if_true]
              · cases k3 with
                | word => simp only [aliasStep, List.cons_append, hk, hAS, if_true]
                | strq => simp only [aliasStep, List.cons_append, hk, hAS, if_true]
                | dquo => simp only [aliasStep, List.cons_append, hk, hAS, if_true]
                | lineC => simp only [aliasStep, List.cons_append, hk, hAS, if_true]
                | blockC => simp only [aliasStep, List.cons_append, hk, hAS, if_true]
                | punct => simp only [aliasStep, List.cons_append, hk, hAS, if_true]
                | ws =>
                  rcases r3 with _ | ⟨⟨k4, x4⟩, r4⟩
                  · rcases hkq with rfl | rfl <;>
                      simp only [aliasStep, List.cons_append, List.nil_append, hk, hAS,
                        if_true]
                  · cases k4 with
                    | word =>
                      simp only [aliasStep, List.cons_append, hk, hAS, if_true]
                      split <;> rfl
                    | strq => simp only [aliasStep, List.cons_append, hk, hAS, if_true]
                    | dquo => simp only [aliasStep, List.cons_append, hk, hAS, if_true]
                    | lineC => simp only [aliasStep, List.cons_append, hk, hAS, if_true]
                    | blockC => simp only [aliasStep, List.cons_append, hk, hAS, if_true]
                    | punct => simp only [aliasStep, List.cons_append, hk, hAS, if_true]
                    | ws => simp only [aliasStep, List.cons_append, hk, hAS, if_true]
            · have hASf : (upperL x2 == "AS".data) = false := by
                cases hb : (upperL x2 == "AS".data)
                · rfl
                · exact absurd hb hAS
              simp only [aliasStep, List.cons_append, hk, hASf, if_true,
                Bool.false_eq_true, if_false]
          · have hkf : isKeyword x2 = false := by
              cases hb : isKeyword x2
              · rfl
              · exact absurd hb hk
            simp only [aliasStep, List.cons_append, hkf, Bool.false_eq_true, if_false]
            split <;> rfl

theorem whereGo_step_q (kq : TokKind) (hkq : kq = TokKind.strq ∨ kq = TokKind.dquo)
    (b : List Char) (f : Nat) (acc : List Char) (rest : List Tok) :
    whereGo (f + 1) acc (⟨kq, b⟩ :: rest) = whereGo f (acc ++ b) rest := by
  rcases hkq with rfl | rfl <;> simp only [whereGo]

theorem whereGo_q (kq : TokKind) (hkq : kq = TokKind.strq ∨ kq = TokKind.dquo)
    (body ext : List Char) :
    ∀ (ts : List Tok) (fuel₁ fuel₂ : Nat) (acc : List Char),
    ts.length + 1 ≤ fuel₁ → ts.length + 1 ≤ fuel₂ →
    (∃ a r, whereGo fuel₁ acc (ts ++ [⟨kq, body⟩]) = (a, r ++ [⟨kq, body⟩]) ∧
      whereGo fuel₂ acc (ts ++ [⟨kq, body ++ ext⟩]) = (a, r ++ [⟨kq, body ++ ext⟩])) ∨
    (∃ a, whereGo fuel₁ acc (ts ++ [⟨kq, body⟩]) = (a ++ body, []) ∧
      whereGo fuel₂ acc (ts ++ [⟨kq, body ++ ext⟩]) = (a ++ (body ++ ext), [])) := by
  intro ts
  induction ts with
  | nil =>
    intro fuel₁ fuel₂ acc h1 h2
    right
    obtain ⟨f, rfl⟩ : ∃ f, fuel₁ = f + 1 := ⟨fuel₁ - 1, by omega⟩
    obtain ⟨g, rfl⟩ : ∃ g, fuel₂ = g + 1 := ⟨fuel₂ - 1, by omega⟩
    refine ⟨acc, ?_, ?_⟩
    · rw [List.nil_append, whereGo_step_q kq hkq, whereGo_nil]
    · rw [List.nil_append, whereGo_step_q kq hkq, whereGo_nil]
  | cons t rest ih =>
    intro fuel₁ fuel₂ acc h1 h2
    obtain ⟨k, rfl⟩ : ∃ k, fuel₁ = k + 1 := ⟨fuel₁ - 1, by simp at h1; omega⟩
    obtain ⟨m, rfl⟩ : ∃ m, fuel₂ = m + 1 := ⟨fuel₂ - 1, by simp at h2; omega⟩
    have hk1 : rest.length + 1 ≤ k := by simp at h1; omega
    have hm1 : rest.length + 1 ≤ m := by simp at h2; omega
    obtain ⟨kt, xt⟩ := t
    cases kt with
    | word =>
      by_cases hstop : whereStops.contains (String.mk (upperL xt)) = true
      · left
        refine ⟨acc, ⟨.word, xt⟩ :: rest, ?_, ?_⟩
        · simp only [List.cons_append, whereGo, hstop, if_true]
          rfl
        · simp only [List.cons_append, whereGo, hstop, if_true]
          rfl
      · have hstopf : whereStops.contains (String.mk (upperL xt)) = false := by
          cases hb : whereStops.contains (String.mk (upperL xt))
          · rfl
          · exact absurd hb hstop
        simp only [List.cons_append, whereGo, hstopf, Bool.false_eq_true, if_false]
        exact ih k m (acc ++ xt) hk1 hm1
    | punct =>
      by_cases hx : xt = [';']
      · subst hx
        left
        exact ⟨acc, ⟨.punct, [';']⟩ :: rest, rfl, rfl⟩
      · rw [show ((⟨.punct, xt⟩ : Tok) :: rest) ++ [⟨kq, body⟩]
          = ⟨.punct, xt⟩ :: (rest ++ [⟨kq, body⟩]) from rfl]
        rw [show ((⟨.punct, xt⟩ : Tok) :: rest) ++ [⟨kq, body ++ ext⟩]
          = ⟨.punct, xt⟩ :: (rest ++ [⟨kq, body ++ ext⟩]) from rfl]
        rw [whereGo_punct_ne hx, whereGo_punct_ne hx]
        exact ih k m (acc ++ xt) hk1 hm1
    | ws =>
      simp only [List.cons_append, whereGo]
      exact ih k m (acc ++ xt) hk1 hm1
    | strq =>
      simp only [List.cons_append, whereGo]
      exact ih k m (acc ++ xt) hk1 hm1
    | dquo =>
      simp only [List.cons_append, whereGo]
      exact ih k m (acc ++ xt) hk1 hm1
    | lineC =>
      simp only [List.cons_append, whereGo]
      exact ih k m (acc ++ xt) hk1 hm1
    | blockC =>
      simp only [List.cons_append, whereGo]
      exact ih k m (acc ++ xt) hk1 hm1

theorem takeParen_q (kq : TokKind) (hkq : kq = TokKind.strq ∨ kq = TokKind.dquo)
    (body ext : List Char) :
    ∀ (ts : List Tok) (fuel₁ fuel₂ : Nat) (d : Int) (acc : List Char),
    ts.length + 1 ≤ fuel₁ → ts.length + 1 ≤ fuel₂ →
    (∃ a r, takeParen fuel₁ d acc (ts ++ [⟨kq, body⟩]) = (a, r ++ [⟨kq, body⟩]) ∧
      takeParen fuel₂ d acc (ts ++ [⟨kq, body ++ ext⟩]) = (a, r ++ [⟨kq, body ++ ext⟩])) ∨
    (∃ a, takeParen fuel₁ d acc (ts ++ [⟨kq, body⟩]) = (a ++ body, []) ∧
      takeParen fuel₂ d acc (ts ++ [⟨kq, body ++ ext⟩]) = (a ++ (body ++ ext), [])) := by
  have hkpf : (kq == TokKind.punct) = false := by rcases hkq with rfl | rfl <;> rfl
  have hqo : ∀ b : List Char, ¬ isOpenParen ⟨kq, b⟩ = true := by
    intro b
    simp [isOpenParen, hkpf]
  have hqc : ∀ b : List Char, ¬ isCloseParen ⟨kq, b⟩ = true := by
    intro b
    simp [isCloseParen, hkpf]
  intro ts
  induction ts with
  | nil =>
    intro fuel₁ fuel₂ d acc h1 h2
    right
    obtain ⟨f, rfl⟩ : ∃ f, fuel₁ = f + 1 := ⟨fuel₁ - 1, by omega⟩
    obtain ⟨g, rfl⟩ : ∃ g, fuel₂ = g + 1 := ⟨fuel₂ - 1, by omega⟩
    refine ⟨acc, ?_, ?_⟩
    · rw [List.nil_append, takeParen_cons, if_neg (hqo body), if_neg (hqc body),
        takeParen_nil]
    · rw [List.nil_append, takeParen_cons, if_neg (hqo (body ++ ext)),
        if_neg (hqc (body ++ ext)), takeParen_nil]
  | cons t rest ih =>
    intro fuel₁ fuel₂ d acc h1 h2
    obtain ⟨k, rfl⟩ : ∃ k, fuel₁ = k + 1 := ⟨fuel₁ - 1, by simp at h1; omega⟩
    obtain ⟨m, rfl⟩ : ∃ m, fuel₂ = m + 1 := ⟨fuel₂ - 1, by simp at h2; omega⟩
    have hk1 : rest.length + 1 ≤ k := by simp at h1; omega
    have hm1 : rest.length + 1 ≤ m := by simp at h2; omega
    rw [List.cons_append, List.cons_append, takeParen_cons, takeParen_cons]
    by_cases ho : isOpenParen t = true
    · rw [if_pos ho, if_pos ho]
      exact ih k m (d + 1) (acc ++ t.text) hk1 hm1
    · rw [if_neg ho, if_neg ho]
      by_cases hc : isCloseParen t = true
      · rw [if_pos hc, if_pos hc]
        by_cases hd : d ≤ 1
        · rw [if_pos hd, if_pos hd]
          left
          exact ⟨acc ++ t.text, rest, rfl, rfl⟩
        · rw [if_neg hd, if_neg hd]
          exact ih k m (d - 1) (acc ++ t.text) hk1 hm1
      · rw [if_neg hc, if_neg hc]
        exact ih k m d (acc ++ t.text) hk1 hm1

end Tethys
namespace Tethys

theorem commaIdent_q (kq : TokKind) (hkq : kq = TokKind.strq ∨ kq = TokKind.dquo)
    (body ext : List Char) : ∀ ts : List Tok,
    (commaIdent (ts ++ [⟨kq, body⟩]) = none ∧
      commaIdent (ts ++ [⟨kq, body ++ ext⟩]) = none) ∨
    (∃ mid w r, commaIdent (ts ++ [⟨kq, body⟩]) = some (mid, w, r ++ [⟨kq, body⟩]) ∧
      commaIdent (ts ++ [⟨kq, body ++ ext⟩]) = some (mid, w, r ++ [⟨kq, body ++ ext⟩])) ∨
    (∃ mid, ',' ∈ mid ∧
      commaIdent (ts ++ [⟨kq, body⟩]) = some (mid, body, []) ∧
      commaIdent (ts ++ [⟨kq, body ++ ext⟩]) = some (mid, body ++ ext, [])) := by
  intro ts
  rcases ts with _ | ⟨⟨k1, x1⟩, r1⟩
  · rcases hkq with rfl | rfl
    · exact Or.inl ⟨rfl, rfl⟩
    · exact Or.inl ⟨rfl, rfl⟩
  · cases k1 with
    | word => exact Or.inl ⟨rfl, rfl⟩
    | strq => exact Or.inl ⟨rfl, rfl⟩
    | dquo => exact Or.inl ⟨rfl, rfl⟩
    | lineC => exact Or.inl ⟨rfl, rfl⟩
    | blockC => exact Or.inl ⟨rfl, rfl⟩
    | punct =>
      by_cases hx : x1 = [',']
      · subst hx
        rcases r1 with _ | ⟨⟨k3, x3⟩, r3⟩
        · rcases hkq with rfl | rfl
          · exact Or.inl ⟨rfl, rfl⟩
          · exact Or.inr (Or.inr ⟨[','], by simp, rfl, rfl⟩)
        · cases k3 with
          | ws =>
            rcases r3 with _ | ⟨⟨k4, x4⟩, r4⟩
            · rcases hkq with rfl | rfl
              · exact Or.inl ⟨rfl, rfl⟩
              · exact Or.inr (Or.inr ⟨',' :: x3, by simp, rfl, rfl⟩)
            · cases k4 with
              | word =>
                by_cases hw : (!isKeyword x4 && !(x4.all Char.isDigit)) = true
                · refine Or.inr (Or.inl ⟨',' :: x3, x4, r4, ?_, ?_⟩) <;>
                    simp only [commaIdent, List.cons_append, List.nil_append, hw, if_true]
                · have hwf : (!isKeyword x4 && !(x4.all Char.isDigit)) = false := by
                    cases hb : (!isKeyword x4 && !(x4.all Char.isDigit))
                    · rfl
                    · exact absurd hb hw
                  refine Or.inl ⟨?_, ?_⟩ <;>
                    simp only [commaIdent, List.cons_append, hwf, Bool.false_eq_true,
                      if_false]
              | dquo => exact Or.inr (Or.inl ⟨',' :: x3, x4, r4, rfl, rfl⟩)
              | ws => exact Or.inl ⟨rfl, rfl⟩
              | strq => exact Or.inl ⟨rfl, rfl⟩
              | lineC => exact Or.inl ⟨rfl, rfl⟩
              | blockC => exact Or.inl ⟨rfl, rfl⟩
              | punct => exact Or.inl ⟨rfl, rfl⟩
          | word =>
            by_cases hw : (!isKeyword x3 && !(x3.all Char.isDigit)) = true
            · refine Or.inr (Or.inl ⟨[','], x3, r3, ?_, ?_⟩) <;>
                simp only [commaIdent, List.cons_append, List.nil_append, hw, if_true]
            · have hwf : (!isKeyword x3 && !(x3.all Char.isDigit)) = false := by
                cases hb : (!isKeyword x3 && !(x3.all Char.isDigit))
                · rfl
                · exact absurd hb hw
              refine Or.inl ⟨?_, ?_⟩ <;>
                simp only [commaIdent, List.cons_append, hwf, Bool.false_eq_true,
                  if_false]
          | dquo => exact Or.inr (Or.inl ⟨[','], x3, r3, rfl, rfl⟩)
          | strq => exact Or.inl ⟨rfl, rfl⟩
          | lineC => exact Or.inl ⟨rfl, rfl⟩
          | blockC => exact Or.inl ⟨rfl, rfl⟩
          | punct => exact Or.inl ⟨rfl, rfl⟩
      · left
        constructor <;>
        · simp only [commaIdent, List.cons_append]
          split
          · rename_i heq
            injection heq with ha _
            injection ha with _ ht
            exact absurd ht hx
          · rfl
    | ws =>
      rcases r1 with _ | ⟨⟨k2, x2⟩, r2⟩
      · rcases hkq with rfl | rfl
        · exact Or.inl ⟨rfl, rfl⟩
        · exact Or.inl ⟨rfl, rfl⟩
      · cases k2 with
        | word => exact Or.inl ⟨rfl, rfl⟩
        | strq => exact Or.inl ⟨rfl, rfl⟩
        | dquo => exact Or.inl ⟨rfl, rfl⟩
        | lineC => exact Or.inl ⟨rfl, rfl⟩
        | blockC => exact Or.inl ⟨rfl, rfl⟩
        | ws => exact Or.inl ⟨rfl, rfl⟩
        | punct =>
          by_cases hx : x2 = [',']
          · subst hx
            rcases r2 with _ | ⟨⟨k3, x3⟩, r3⟩
            · rcases hkq with rfl | rfl
              · exact Or.inl ⟨rfl, rfl⟩
              · exact Or.inr (Or.inr ⟨x1 ++ ',' :: [], by simp, rfl, rfl⟩)
            · cases k3 with
              | ws =>
                rcases r3 with _ | ⟨⟨k4, x4⟩, r4⟩
                · rcases hkq with rfl | rfl
                  · exact Or.inl ⟨rfl, rfl⟩
                  · exact Or.inr (Or.inr ⟨x1 ++ ',' :: x3, by simp, rfl, rfl⟩)
                · cases k4 with
                  | word =>
                    by_cases hw : (!isKeyword x4 && !(x4.all Char.isDigit)) = true
                    · refine Or.inr (Or.inl ⟨x1 ++ ',' :: x3, x4, r4, ?_, ?_⟩) <;>
                        simp only [commaIdent, List.cons_append, List.nil_append, hw, if_true]
                    · have hwf : (!isKeyword x4 && !(x4.all Char.isDigit)) = false := by
                        cases hb : (!isKeyword x4 && !(x4.all Char.isDigit))
                        · rfl
                        · exact absurd hb hw
                      refine Or.inl ⟨?_, ?_⟩ <;>
                        simp only [commaIdent, List.cons_append, hwf,
                          Bool.false_eq_true, if_false]
                  | dquo => exact Or.inr (Or.inl ⟨x1 ++ ',' :: x3, x4, r4, rfl, rfl⟩)
                  | ws => exact Or.inl ⟨rfl, rfl⟩
                  | strq => exact Or.inl ⟨rfl, rfl⟩
                  | lineC => exact Or.inl ⟨rfl, rfl⟩
                  | blockC => exact Or.inl ⟨rfl, rfl⟩
                  | punct => exact Or.inl ⟨rfl, rfl⟩
              | word =>
                by_cases hw : (!isKeyword x3 && !(x3.all Char.isDigit)) = true
                · refine Or.inr (Or.inl ⟨x1 ++ ',' :: [], x3, r3, ?_, ?_⟩) <;>
                    simp only [commaIdent, List.cons_append, List.nil_append, hw, if_true]
                · have hwf : (!isKeyword x3 && !(x3.all Char.isDigit)) = false := by
                    cases hb : (!isKeyword x3 && !(x3.all Char.isDigit))
                    · rfl
                    · exact absurd hb hw
                  refine Or.inl ⟨?_, ?_⟩ <;>
                    simp only [commaIdent, List.cons_append, hwf, Bool.false_eq_true,
                      if_false]
              | dquo => exact Or.inr (Or.inl ⟨x1 ++ ',' :: [], x3, r3, rfl, rfl⟩)
              | strq => exact Or.inl ⟨rfl, rfl⟩
              | lineC => exact Or.inl ⟨rfl, rfl⟩
              | blockC => exact Or.inl ⟨rfl, rfl⟩
              | punct => exact Or.inl ⟨rfl, rfl⟩
          · left
            constructor <;>
            · simp only [commaIdent, List.cons_append]
              split
              · rename_i heq
                injection heq with ha _
                injection ha with _ ht
                exact absurd ht hx
              · rfl

theorem dotChain_nil (f : Nat) (acc : List Char) : dotChain f acc [] = (acc, []) :=
  dotChain_stop (fun _ _ h => List.noConfusion h)

theorem aliasStep_nil (acc : List Char) : aliasStep acc [] = (acc, []) := rfl

theorem identExt_nil (f : Nat) (acc : List Char) : identExt f acc [] = (acc, []) := by
  cases f <;> rfl

theorem commaIdent_q_single (kq : TokKind) (hkq : kq = TokKind.strq ∨ kq = TokKind.dquo)
    (b : List Char) : commaIdent [⟨kq, b⟩] = none := by
  rcases hkq with rfl | rfl <;> rfl

theorem identExt_q (kq : TokKind) (hkq : kq = TokKind.strq ∨ kq = TokKind.dquo)
    (body ext : List Char) :
    ∀ (fuel₁ : Nat) (ts : List Tok) (fuel₂ : Nat) (acc : List Char),
    ts.length ≤ fuel₁ → ts.length ≤ fuel₂ →
    (∃ a r, identExt fuel₁ acc (ts ++ [⟨kq, body⟩]) = (a, r ++ [⟨kq, body⟩]) ∧
      identExt fuel₂ acc (ts ++ [⟨kq, body ++ ext⟩]) = (a, r ++ [⟨kq, body ++ ext⟩])) ∨
    (∃ u v, identExt fuel₁ acc (ts ++ [⟨kq, body⟩]) = (u ++ ',' :: v, []) ∧
      identExt fuel₂ acc (ts ++ [⟨kq, body ++ ext⟩]) = (u ++ ',' :: (v ++ ext), [])) := by
  intro fuel₁
  induction fuel₁ with
  | zero =>
    intro ts fuel₂ acc h1 h2
    left
    have hts : ts = [] := List.eq_nil_of_length_eq_zero (Nat.le_zero.mp h1)
    subst hts
    refine ⟨acc, [], rfl, ?_⟩
    cases fuel₂ with
    | zero => rfl
    | succ g =>
      simp only [List.nil_append, identExt, commaIdent_q_single kq hkq]
  | succ k ih =>
    intro ts fuel₂ acc h1 h2
    rcases commaIdent_q kq hkq body ext ts with ⟨hci1, hci2⟩ |
      ⟨mid, w, r, hci1, hci2⟩ | ⟨mid, hmem, hci1, hci2⟩
    · cases fuel₂ with
      | zero =>
        have hts : ts = [] := List.eq_nil_of_length_eq_zero (Nat.le_zero.mp h2)
        subst hts
        left
        refine ⟨acc, [], ?_, rfl⟩
        simp only [List.nil_append, identExt, commaIdent_q_single kq hkq]
      | succ m =>
        left
        refine ⟨acc, ts, ?_, ?_⟩
        · simp only [identExt, hci1]
        · simp only [identExt, hci2]
    · have hlen : r.length + 2 ≤ ts.length := by
        have := ci_len (ts ++ [⟨kq, body⟩]) mid w (r ++ [⟨kq, body⟩]) hci1
        simp only [List.length_append, List.length_cons, List.length_nil] at this
        omega
      obtain ⟨m, rfl⟩ : ∃ m, fuel₂ = m + 1 := ⟨fuel₂ - 1, by omega⟩
      simp only [identExt, hci1, hci2]
      have hr1 : r.length ≤ r.length := le_rfl
      have hrk : r.length ≤ k := by omega
      have hrm : r.length ≤ m := by omega
      rw [dotChain_q kq hkq body r.length r k (acc ++ mid ++ w) hr1 hrk]
      rw [dotChain_q kq hkq (body ++ ext) r.length r m (acc ++ mid ++ w) hr1 hrm]
      rw [aliasStep_q kq hkq body, aliasStep_q kq hkq (body ++ ext)]
      have hplen : (aliasStep (dotChain r.length (acc ++ mid ++ w) r).1
          (dotChain r.length (acc ++ mid ++ w) r).2).2.length ≤ r.length :=
        le_trans (as_len _ _) (dc_len _ _ _)
      exact ih _ m _ (le_trans hplen hrk) (le_trans hplen hrm)
    · have hlen : 1 ≤ ts.length := by
        have := ci_len (ts ++ [⟨kq, body⟩]) mid body [] hci1
        simp only [List.length_append, List.length_cons, List.length_nil] at this
        omega
      obtain ⟨m, rfl⟩ : ∃ m, fuel₂ = m + 1 := ⟨fuel₂ - 1, by omega⟩
      right
      obtain ⟨p, s, rfl⟩ := List.append_of_mem hmem
      refine ⟨acc ++ p, s ++ body, ?_, ?_⟩
      · simp only [identExt, hci1, dotChain_nil, aliasStep_nil, identExt_nil]
        simp [List.append_assoc]
      · simp only [identExt, hci2, dotChain_nil, aliasStep_nil, identExt_nil]
        simp [List.append_assoc]

theorem identGroup_q (kq : TokKind) (hkq : kq = TokKind.strq ∨ kq = TokKind.dquo)
    (body ext : List Char) (fuel₁ fuel₂ : Nat) (w : List Char) (rest : List Tok)
    (h1 : rest.length ≤ fuel₁) (h2 : rest.length ≤ fuel₂) :
    (∃ a r, identGroup fuel₁ w (rest ++ [⟨kq, body⟩]) = (a, r ++ [⟨kq, body⟩]) ∧
      identGroup fuel₂ w (rest ++ [⟨kq, body ++ ext⟩]) = (a, r ++ [⟨kq, body ++ ext⟩])) ∨
    (∃ u v, identGroup fuel₁ w (rest ++ [⟨kq, body⟩]) = (u ++ ',' :: v, []) ∧
      identGroup fuel₂ w (rest ++ [⟨kq, body ++ ext⟩]) = (u ++ ',' :: (v ++ ext), [])) := by
  simp only [identGroup]
  rw [dotChain_q kq hkq body rest.length rest fuel₁ w le_rfl h1]
  rw [dotChain_q kq hkq (body ++ ext) rest.length rest fuel₂ w le_rfl h2]
  rw [aliasStep_q kq hkq body, aliasStep_q kq hkq (body ++ ext)]
  have hplen : (aliasStep (dotChain rest.length w rest).1
      (dotChain rest.length w rest).2).2.length ≤ rest.length :=
    le_trans (as_len _ _) (dc_len _ _ _)
  exact identExt_q kq hkq body ext fuel₁ _ fuel₂ _ (le_trans hplen h1)
    (le_trans hplen h2)

end Tethys
namespace Tethys

theorem allowed_false_of_comma (u v : List Char) :
    ALLOWED_TABLES.contains (String.mk (lowerL (u ++ ',' :: v))) = false := by
  cases hb : ALLOWED_TABLES.contains (String.mk (lowerL (u ++ ',' :: v)))
  · rfl
  · exfalso
    have h2 := (allowed_iff _).mp hb
    have h3 : ',' ∈ lowerL (u ++ ',' :: v) := by
      rw [lowerL_append]
      refine List.mem_append_right _ ?_
      rw [show lowerL (',' :: v) = ',' :: lowerL v from by
        simp [lowerL, show Char.toLower ',' = ',' from by decide]]
      exact List.mem_cons_self _ _
    rw [h2] at h3
    exact absurd h3 (by decide)

theorem gb (kq : TokKind) (body : List Char)
    (hq : kq = TokKind.strq ∨ (kq = TokKind.dquo ∧ ∃ b, body = '"' :: b))
    (ext : List Char) :
    ∀ (n : Nat) (ts : List Tok) (fuel₁ fuel₂ : Nat) (flag : Bool),
    ts.length + 1 ≤ n → ts.length + 1 ≤ fuel₁ → ts.length + 1 ≤ fuel₂ →
    fromCheck (groupGo fuel₁ (ts ++ [⟨kq, body⟩])) flag = none →
    fromCheck (groupGo fuel₂ (ts ++ [⟨kq, body ++ ext⟩])) flag = none := by
  have hkq : kq = TokKind.strq ∨ kq = TokKind.dquo := Or.imp id And.left hq
  intro n
  induction n using Nat.strong_induction_on with
  | _ n ih =>
    intro ts fuel₁ fuel₂ flag hn h1 h2 h
    rcases ts with _ | ⟨⟨kt, xt⟩, rest⟩
    · obtain ⟨f, rfl⟩ : ∃ f, fuel₁ = f + 1 := ⟨fuel₁ - 1, by simp at h1; omega⟩
      obtain ⟨g, rfl⟩ : ∃ g, fuel₂ = g + 1 := ⟨fuel₂ - 1, by simp at h2; omega⟩
      rw [List.nil_append] at h ⊢
      rcases hq with rfl | ⟨rfl, b, rfl⟩
      · simp only [groupGo, groupGo_nil, fromCheck]
      · cases flag with
        | false =>
          simp only [groupGo, groupGo_nil, fromCheck, Bool.false_eq_true, if_false]
        | true =>
          exfalso
          have hcf : ALLOWED_TABLES.contains (String.mk (lowerL ('"' :: b)))
              = false := by
            apply allowed_false_of_head (c := '"') (t := lowerL b)
            · simp [lowerL, show Char.toLower '"' = '"' from by decide]
            · decide
          simp only [groupGo, groupGo_nil, fromCheck, if_true, hcf, Bool.false_eq_true,
            if_false] at h
          exact Option.noConfusion h
    · obtain ⟨k, rfl⟩ : ∃ k, fuel₁ = k + 1 := ⟨fuel₁ - 1, by simp at h1; omega⟩
      obtain ⟨m, rfl⟩ : ∃ m, fuel₂ = m + 1 := ⟨fuel₂ - 1, by simp at h2; omega⟩
      have hk1 : rest.length + 1 ≤ k := by simp at h1; omega
      have hm1 : rest.length + 1 ≤ m := by simp at h2; omega
      have hnr : rest.length + 1 < n := by simp at hn; omega
      rw [List.cons_append] at h ⊢
      cases kt with
      | ws =>
        simp only [groupGo, fromCheck] at h ⊢
        exact ih (rest.length + 1) hnr rest k m flag le_rfl hk1 hm1 h
      | strq =>
        simp only [groupGo, fromCheck] at h ⊢
        exact ih (rest.length + 1) hnr rest k m flag le_rfl hk1 hm1 h
      | lineC =>
        simp only [groupGo, fromCheck] at h ⊢
        exact ih (rest.length + 1) hnr rest k m flag le_rfl hk1 hm1 h
      | blockC =>
        simp only [groupGo, fromCheck] at h ⊢
        exact ih (rest.length + 1) hnr rest k m flag le_rfl hk1 hm1 h
      | dquo =>
        cases flag with
        | false =>
          simp only [groupGo, fromCheck, Bool.false_eq_true, if_false] at h ⊢
          exact ih (rest.length + 1) hnr rest k m false le_rfl hk1 hm1 h
        | true =>
          cases hc : ALLOWED_TABLES.contains (String.mk (lowerL xt)) with
          | false =>
            simp only [groupGo, fromCheck, hc, Bool.false_eq_true, if_false] at h
            exact Option.noConfusion h
          | true =>
            simp only [groupGo, fromCheck, hc, if_true] at h ⊢
            exact ih (rest.length + 1) hnr rest k m false le_rfl hk1 hm1 h
      | punct =>
        by_cases hp : (xt == ['(']) = true
        · have hxv : xt = ['('] := by simpa using hp
          subst hxv
          simp only [groupGo, if_true] at h ⊢
          rcases takeParen_q kq hkq body ext rest k m 1 ['('] hk1 hm1 with
            ⟨a, r, e1, e2⟩ | ⟨a, e1, e2⟩
          · have f1 : (takeParen k 1 ['('] (rest ++ [⟨kq, body⟩])).1 = a := by rw [e1]
            have f2 : (takeParen k 1 ['('] (rest ++ [⟨kq, body⟩])).2
                = r ++ [⟨kq, body⟩] := by rw [e1]
            have g1 : (takeParen m 1 ['('] (rest ++ [⟨kq, body ++ ext⟩])).1 = a := by
              rw [e2]
            have g2 : (takeParen m 1 ['('] (rest ++ [⟨kq, body ++ ext⟩])).2
                = r ++ [⟨kq, body ++ ext⟩] := by rw [e2]
            rw [f1, f2] at h
            rw [g1, g2]
            have hrlen : r.length ≤ rest.length := by
              have := tp_len k 1 ['('] (rest ++ [⟨kq, body⟩])
              rw [f2] at this
              simp only [List.length_append, List.length_cons, List.length_nil] at this
              omega
            cases flag with
            | false =>
              simp only [fromCheck, Bool.false_eq_true, if_false] at h ⊢
              exact ih (r.length + 1) (by omega) r k m false (by omega) (by omega)
                (by omega) h
            | true =>
              cases hc : ALLOWED_TABLES.contains (String.mk (lowerL a)) with
              | false =>
                simp only [fromCheck, hc, Bool.false_eq_true, if_false] at h
                exact Option.noConfusion h
              | true =>
                simp only [fromCheck, hc, if_true] at h ⊢
                exact ih (r.length + 1) (by omega) r k m false (by omega) (by omega)
                  (by omega) h
          · have f1 : (takeParen k 1 ['('] (rest ++ [⟨kq, body⟩])).1 = a ++ body := by
              rw [e1]
            have f2 : (takeParen k 1 ['('] (rest ++ [⟨kq, body⟩])).2 = [] := by rw [e1]
            have g1 : (takeParen m 1 ['('] (rest ++ [⟨kq, body ++ ext⟩])).1
                = a ++ (body ++ ext) := by rw [e2]
            have g2 : (takeParen m 1 ['('] (rest ++ [⟨kq, body ++ ext⟩])).2 = [] := by
              rw [e2]
            rw [f1, f2, groupGo_nil] at h
            rw [g1, g2, groupGo_nil]
            obtain ⟨ext0, hext⟩ := tp_acc k 1 ['('] (rest ++ [⟨kq, body⟩])
            rw [f1] at hext
            have hext2 : a ++ body = '(' :: ext0 := by simpa using hext
            cases flag with
            | false =>
              simp only [fromCheck, Bool.false_eq_true, if_false]
            | true =>
              exfalso
              have hcf : ALLOWED_TABLES.contains (String.mk (lowerL (a ++ body)))
                  = false := by
                rw [hext2]
                exact paren_contains_false
              simp only [fromCheck, hcf, Bool.false_eq_true, if_false] at h
              exact Option.noConfusion h
        · have hpf : (xt == ['(']) = false := by
            cases hb : (xt == ['('])
            · rfl
            · exact absurd hb hp
          simp only [groupGo, hpf, Bool.false_eq_true, if_false, fromCheck] at h ⊢
          exact ih (rest.length + 1) hnr rest k m flag le_rfl hk1 hm1 h
      | word =>
        by_cases hdig : (xt.all Char.isDigit) = true
        · simp only [groupGo, hdig, if_true, fromCheck] at h ⊢
          exact ih (rest.length + 1) hnr rest k m flag le_rfl hk1 hm1 h
        · have hdigf : (xt.all Char.isDigit) = false := by
            cases hb : (xt.all Char.isDigit)
            · rfl
            · exact absurd hb hdig
          by_cases hkw : isKeyword xt = true
          · by_cases hwh : (upperL xt == "WHERE".data) = true
            · simp only [groupGo, hdigf, Bool.false_eq_true, if_false, hkw, if_true,
                hwh] at h ⊢
              rcases whereGo_q kq hkq body ext rest k m xt hk1 hm1 with
                ⟨a, r, e1, e2⟩ | ⟨a, e1, e2⟩
              · have f1 : (whereGo k xt (rest ++ [⟨kq, body⟩])).1 = a := by rw [e1]
                have f2 : (whereGo k xt (rest ++ [⟨kq, body⟩])).2
                    = r ++ [⟨kq, body⟩] := by rw [e1]
                have g1 : (whereGo m xt (rest ++ [⟨kq, body ++ ext⟩])).1 = a := by
                  rw [e2]
                have g2 : (whereGo m xt (rest ++ [⟨kq, body ++ ext⟩])).2
                    = r ++ [⟨kq, body ++ ext⟩] := by rw [e2]
                rw [f1, f2] at h
                rw [g1, g2]
                have hrlen : r.length ≤ rest.length := by
                  have := wg_len k xt (rest ++ [⟨kq, body⟩])
                  rw [f2] at this
                  simp only [List.length_append, List.length_cons,
                    List.length_nil] at this
                  omega
                cases flag with
                | false =>
                  simp only [fromCheck, Bool.false_eq_true, if_false] at h ⊢
                  exact ih (r.length + 1) (by omega) r k m false (by omega) (by omega)
                    (by omega) h
                | true =>
                  cases hc : ALLOWED_TABLES.contains (String.mk (lowerL a)) with
                  | false =>
                    simp only [fromCheck, hc, Bool.false_eq_true, if_false] at h
                    exact Option.noConfusion h
                  | true =>
                    simp only [fromCheck, hc, if_true] at h ⊢
                    exact ih (r.length + 1) (by omega) r k m false (by omega)
                      (by omega) (by omega) h
              · have f1 : (whereGo k xt (rest ++ [⟨kq, body⟩])).1 = a ++ body := by
                  rw [e1]
                have f2 : (whereGo k xt (rest ++ [⟨kq, body⟩])).2 = [] := by rw [e1]
                have g1 : (whereGo m xt (rest ++ [⟨kq, body ++ ext⟩])).1
                    = a ++ (body ++ ext) := by rw [e2]
                have g2 : (whereGo m xt (rest ++ [⟨kq, body ++ ext⟩])).2 = [] := by
                  rw [e2]
                rw [f1, f2, groupGo_nil] at h
                rw [g1, g2, groupGo_nil]
                obtain ⟨ext0, hext⟩ := wg_acc k xt (rest ++ [⟨kq, body⟩])
                rw [f1] at hext
                cases flag with
                | false =>
                  simp only [fromCheck, Bool.false_eq_true, if_false]
                | true =>
                  exfalso
                  have hcf : ALLOWED_TABLES.contains (String.mk (lowerL (a ++ body)))
                      = false := by
                    rw [hext]
                    exact where_contains_false (eq_of_beq hwh)
                  simp only [fromCheck, hcf, Bool.false_eq_true, if_false] at h
                  exact Option.noConfusion h
            · have hwhf : (upperL xt == "WHERE".data) = false := by
                cases hb : (upperL xt == "WHERE".data)
                · rfl
                · exact absurd hb hwh
              cases hfrom : (upperL xt == "FROM".data) with
              | true =>
                simp only [groupGo, hdigf, Bool.false_eq_true, if_false, hkw, if_true,
                  hwhf, fromCheck, hfrom] at h ⊢
                exact ih (rest.length + 1) hnr rest k m true le_rfl hk1 hm1 h
              | false =>
                simp only [groupGo, hdigf, Bool.false_eq_true, if_false, hkw, if_true,
                  hwhf, fromCheck, hfrom] at h ⊢
                exact ih (rest.length + 1) hnr rest k m flag le_rfl hk1 hm1 h
          · have hkwf : isKeyword xt = false := by
              cases hb : isKeyword xt
              · rfl
              · exact absurd hb hkw
            simp only [groupGo, hdigf, Bool.false_eq_true, if_false, hkwf] at h ⊢
            rcases identGroup_q kq hkq body ext k m xt rest (by omega) (by omega) with
              ⟨a, r, e1, e2⟩ | ⟨u, v, e1, e2⟩
            · have f1 : (identGroup k xt (rest ++ [⟨kq, body⟩])).1 = a := by rw [e1]
              have f2 : (identGroup k xt (rest ++ [⟨kq, body⟩])).2
                  = r ++ [⟨kq, body⟩] := by rw [e1]
              have g1 : (identGroup m xt (rest ++ [⟨kq, body ++ ext⟩])).1 = a := by
                rw [e2]
              have g2 : (identGroup m xt (rest ++ [⟨kq, body ++ ext⟩])).2
                  = r ++ [⟨kq, body ++ ext⟩] := by rw [e2]
              rw [f1, f2] at h
              rw [g1, g2]
              have hrlen : r.length ≤ rest.length := by
                have := ig_len k xt (rest ++ [⟨kq, body⟩])
                rw [f2] at this
                simp only [List.length_append, List.length_cons,
                  List.length_nil] at this
                omega
              cases flag with
              | false =>
                simp only [fromCheck, Bool.false_eq_true, if_false] at h ⊢
                exact ih (r.length + 1) (by omega) r k m false (by omega) (by omega)
                  (by omega) h
              | true =>
                cases hc : ALLOWED_TABLES.contains (String.mk (lowerL a)) with
                | false =>
                  simp only [fromCheck, hc, Bool.false_eq_true, if_false] at h
                  exact Option.noConfusion h
                | true =>
                  simp only [fromCheck, hc, if_true] at h ⊢
                  exact ih (r.length + 1) (by omega) r k m false (by omega) (by omega)
                    (by omega) h
            · have f1 : (identGroup k xt (rest ++ [⟨kq, body⟩])).1 = u ++ ',' :: v := by
                rw [e1]
              have f2 : (identGroup k xt (rest ++ [⟨kq, body⟩])).2 = [] := by rw [e1]
              have g1 : (identGroup m xt (rest ++ [⟨kq, body ++ ext⟩])).1
                  = u ++ ',' :: (v ++ ext) := by rw [e2]
              have g2 : (identGroup m xt (rest ++ [⟨kq, body ++ ext⟩])).2 = [] := by
                rw [e2]
              rw [f1, f2, groupGo_nil] at h
              rw [g1, g2, groupGo_nil]
              cases flag with
              | false =>
                simp only [fromCheck, Bool.false_eq_true, if_false]
              | true =>
                exfalso
                have hcf := allowed_false_of_comma u v
                simp only [fromCheck, hcf, Bool.false_eq_true, if_false] at h
                exact Option.noConfusion h

end Tethys
namespace Tethys

theorem fsg_cut_append : ∀ (ts : List Tok) (d : Int) (X : List Tok),
    hasCut d ts = true → firstStmtGo d (ts ++ X) = firstStmtGo d ts := by
  intro ts
  induction ts with
  | nil =>
    intro d X h
    exact absurd h (by simp [hasCut])
  | cons t rest ih =>
    intro d X h
    by_cases hg : (t.kind == TokKind.punct && t.text == [';']) = true
    · by_cases hd : d ≤ 0
      · rw [List.cons_append]
        simp only [firstStmtGo, hg, if_true, if_pos hd]
      · have h2 : hasCut d rest = true := by
          simp only [hasCut, hg, if_true, if_neg hd] at h
          exact h
        rw [List.cons_append]
        simp only [firstStmtGo, hg, if_true, if_neg hd]
        rw [ih d X h2]
    · have hgf : (t.kind == TokKind.punct && t.text == [';']) = false := by
        cases hb : (t.kind == TokKind.punct && t.text == [';'])
        · rfl
        · exact absurd hb hg
      have h2 : hasCut (if isOpenParen t then d + 1
          else if isCloseParen t then d - 1 else d) rest = true := by
        simp only [hasCut, hgf, Bool.false_eq_true, if_false] at h
        exact h
      rw [List.cons_append]
      simp only [firstStmtGo, hgf, Bool.false_eq_true, if_false]
      rw [ih _ X h2]

theorem fsg_nocut_self : ∀ (ts : List Tok) (d : Int),
    hasCut d ts = false → firstStmtGo d ts = ts := by
  intro ts
  induction ts with
  | nil => intro d h; rfl
  | cons t rest ih =>
    intro d h
    by_cases hg : (t.kind == TokKind.punct && t.text == [';']) = true
    · by_cases hd : d ≤ 0
      · have hcy : hasCut d (t :: rest) = true := by
          simp only [hasCut, hg, if_true, if_pos hd]
        rw [hcy] at h
        exact Bool.noConfusion h
      · have h2 : hasCut d rest = false := by
          simp only [hasCut, hg, if_true, if_neg hd] at h
          exact h
        simp only [firstStmtGo, hg, if_true, if_neg hd]
        rw [ih d h2]
    · have hgf : (t.kind == TokKind.punct && t.text == [';']) = false := by
        cases hb : (t.kind == TokKind.punct && t.text == [';'])
        · rfl
        · exact absurd hb hg
      have h2 : hasCut (if isOpenParen t then d + 1
          else if isCloseParen t then d - 1 else d) rest = false := by
        simp only [hasCut, hgf, Bool.false_eq_true, if_false] at h
        exact h
      simp only [firstStmtGo, hgf, Bool.false_eq_true, if_false]
      rw [ih _ h2]

theorem fsg_nocut_append : ∀ (ts : List Tok) (d : Int) (X : List Tok),
    hasCut d ts = false →
    firstStmtGo d (ts ++ X) = ts ++ firstStmtGo (stmtDepth d ts) X := by
  intro ts
  induction ts with
  | nil =>
    intro d X h
    rw [List.nil_append, List.nil_append]
    rfl
  | cons t rest ih =>
    intro d X h
    by_cases hg : (t.kind == TokKind.punct && t.text == [';']) = true
    · by_cases hd : d ≤ 0
      · have hcy : hasCut d (t :: rest) = true := by
          simp only [hasCut, hg, if_true, if_pos hd]
        rw [hcy] at h
        exact Bool.noConfusion h
      · have h2 : hasCut d rest = false := by
          simp only [hasCut, hg, if_true, if_neg hd] at h
          exact h
        have ht : t.text = [';'] := by
          have hgg := (Bool.and_eq_true _ _).mp hg
          exact eq_of_beq hgg.2
        have ho : isOpenParen t = false := by simp [isOpenParen, ht]
        have hc : isCloseParen t = false := by simp [isCloseParen, ht]
        rw [List.cons_append, List.cons_append]
        simp only [firstStmtGo, hg, if_true, if_neg hd]
        rw [ih d X h2]
        simp only [stmtDepth, ho, hc, Bool.false_eq_true, if_false]
    · have hgf : (t.kind == TokKind.punct && t.text == [';']) = false := by
        cases hb : (t.kind == TokKind.punct && t.text == [';'])
        · rfl
        · exact absurd hb hg
      have h2 : hasCut (if isOpenParen t then d + 1
          else if isCloseParen t then d - 1 else d) rest = false := by
        simp only [hasCut, hgf, Bool.false_eq_true, if_false] at h
        exact h
      rw [List.cons_append, List.cons_append]
      simp only [firstStmtGo, hgf, Bool.false_eq_true, if_false]
      rw [ih _ X h2]
      simp only [stmtDepth]

theorem hasCut_single_q (kq : TokKind) (hkq : kq = TokKind.strq ∨ kq = TokKind.dquo)
    (b : List Char) (d : Int) : hasCut d [⟨kq, b⟩] = false := by
  rcases hkq with rfl | rfl <;>
    simp [hasCut, isOpenParen, isCloseParen,
      show (TokKind.strq == TokKind.punct) = false from rfl,
      show (TokKind.dquo == TokKind.punct) = false from rfl]

theorem fsg_single_q (kq : TokKind) (hkq : kq = TokKind.strq ∨ kq = TokKind.dquo)
    (b : List Char) (d : Int) : firstStmtGo d [⟨kq, b⟩] = [⟨kq, b⟩] :=
  fsg_nocut_self _ _ (hasCut_single_q kq hkq b d)

theorem hasCut_lim (d : Int) : hasCut d limToks = false := by
  simp [hasCut, limToks,
    show (TokKind.ws == TokKind.punct) = false from rfl,
    show (TokKind.word == TokKind.punct) = false from rfl]

theorem fsg_lim (d : Int) : firstStmtGo d limToks = limToks :=
  fsg_nocut_self _ _ (hasCut_lim d)

theorem lexChars_lim_eq : lexChars limChars = limToks := by
  rw [lim_lex_toks]
  rfl

theorem linked_last : ∀ (ts : List Tok) (q : Tok),
    Linked (ts ++ [q]) → tokOK q (headC []) := by
  intro ts
  induction ts with
  | nil => intro q h; exact h.1
  | cons t rest ih => intro q h; exact ih q h.2

theorem fromCheck_append_lim {P : List Char}
    (hnc : NoCom (lexChars P)) (htrim : trimTrail P = P) (hne : P ≠ [])
    (h : fromCheck (mainGroups P) false = none) :
    fromCheck (mainGroups (P ++ limChars)) false = none := by
  rcases lex_append_lim P.length P le_rfl hnc htrim hne with hA |
    ⟨ts, kq, body, hkq, hP, hPL⟩
  · simp only [mainGroups, groupToks] at h ⊢
    rw [hA, lexChars_lim_eq]
    cases hcut : hasCut 0 (lexChars P) with
    | true =>
      rw [fsg_cut_append _ _ _ hcut]
      exact h
    | false =>
      rw [fsg_nocut_append _ _ _ hcut, fsg_lim]
      rw [fsg_nocut_self _ _ hcut] at h
      have hlen4 : (lexChars P ++ limToks).length = (lexChars P).length + 4 := by
        simp [limToks]
      rw [hlen4]
      exact ga (lexChars P).length (lexChars P) (lexChars P).length
        ((lexChars P).length + 4) false le_rfl le_rfl le_rfl h
  · have hq : kq = TokKind.strq ∨ (kq = TokKind.dquo ∧ ∃ b, body = '"' :: b) := by
      rcases hkq with rfl | rfl
      · exact Or.inl rfl
      · right
        refine ⟨rfl, ?_⟩
        have hlk := linked_lexChars P.length P le_rfl
        rw [hP] at hlk
        have htq := linked_last ts _ hlk
        obtain ⟨b2, hb2, -⟩ := htq
        exact ⟨b2, hb2⟩
    have hkq2 : kq = TokKind.strq ∨ kq = TokKind.dquo := Or.imp id And.left hq
    simp only [mainGroups, groupToks] at h ⊢
    rw [hP] at h
    rw [hPL]
    cases hcut : hasCut 0 ts with
    | true =>
      rw [fsg_cut_append _ _ _ hcut] at h
      rw [fsg_cut_append _ _ _ hcut]
      exact h
    | false =>
      rw [fsg_nocut_append _ _ _ hcut, fsg_single_q kq hkq2] at h
      rw [fsg_nocut_append _ _ _ hcut, fsg_single_q kq hkq2]
      have hlen1 : (ts ++ [(⟨kq, body⟩ : Tok)]).length = ts.length + 1 := by simp
      have hlen2 : (ts ++ [(⟨kq, body ++ limChars⟩ : Tok)]).length
          = ts.length + 1 := by simp
      rw [hlen1] at h
      rw [hlen2]
      exact gb kq body hq limChars (ts.length + 1) ts (ts.length + 1) (ts.length + 1)
        false le_rfl le_rfl le_rfl h

end Tethys
namespace Tethys

theorem sqlFormatChars_trim (cs : List Char) :
    trimChars (sqlFormatChars cs) = sqlFormatChars cs := by
  show trimChars (trimChars (render (fmtToks (lexChars cs)))) = _
  exact trimChars_idem _

theorem startsKw_ne_nil {kw : String} {k0 : Char} {ks : List Char}
    (hkw : kw.data = k0 :: ks) {P : List Char} (h : startsKw kw P = true) : P ≠ [] := by
  intro hP
  subst hP
  simp only [startsKw] at h
  rw [hkw] at h
  cases h

theorem find?_none_of_all {l : List String} {p : String → Bool}
    (h : ∀ f ∈ l, p f = false) : List.find? p l = none := by
  rw [List.find?_eq_none]
  intro f hf
  rw [h f hf]
  intro hh
  cases hh

theorem all_of_find?_none {l : List String} {p : String → Bool}
    (h : List.find? p l = none) : ∀ f ∈ l, p f = false := by
  rw [List.find?_eq_none] at h
  intro f hf
  cases hp : p f
  · rfl
  · exact absurd hp (h f hf)

theorem streamlitOkIntro {X : List Char} (hX : sqlFormatChars X = X)
    (hfind : List.find? (fun f => reSearchWB f X) RagEngine.forbidden = none)
    (hsel : (startsKw "SELECT" X || startsKw "WITH" X) = true)
    (hlim : containsLimitUpper X = true) :
    StreamlitApp.sanitize_sql (String.mk X) = .ok (String.mk X) := by
  simp only [StreamlitApp.sanitize_sql]
  rw [hX, hfind, hsel, hlim]
  rfl

theorem mainOkIntro {X : List Char} (hX : sqlFormatChars X = X)
    (hfind : List.find? (fun f => reSearchWB f X) MainApp.forbidden = none)
    (hsel : startsKw "SELECT" X = true)
    (hchk : fromCheck (mainGroups X) false = none)
    (hlim : containsLimitUpper X = true) :
    MainApp.sanitize_sql (String.mk X) = .ok (String.mk X) := by
  simp only [MainApp.sanitize_sql]
  rw [hX, hfind, hsel, hchk, hlim]
  rfl

theorem streamlit_idem : ∀ (sql out : String),
    StreamlitApp.sanitize_sql sql = .ok out → StreamlitApp.sanitize_sql out = .ok out := by
  intro sql out h
  obtain ⟨hfind, hsel, hcase⟩ := streamlitSanitizeOkElim h
  have hidem := sqlFormatChars_idem sql.data
  have hnc := (norm_ncup sql.data).1
  have hup := (norm_ncup sql.data).2
  have htrim := sqlFormatChars_trim sql.data
  have hPne : sqlFormatChars sql.data ≠ [] := by
    rcases Bool.or_eq_true_iff.mp hsel with hs | hs
    · exact @startsKw_ne_nil "SELECT" 'S' ("ELECT".data) rfl _ hs
    · exact @startsKw_ne_nil "WITH" 'W' ("ITH".data) rfl _ hs
  rcases hcase with ⟨hlim, hout⟩ | ⟨hlim, hout⟩
  · subst hout
    show StreamlitApp.sanitize_sql (String.mk (sqlFormatChars sql.data ++ limChars))
      = .ok (String.mk (sqlFormatChars sql.data ++ limChars))
    apply streamlitOkIntro
    · exact sqlFormat_append_lim hnc hup htrim hPne
    · apply find?_none_of_all
      intro f hf
      exact reSearchWB_append_lim (rag_forb_sub f hf)
        (all_of_find?_none hfind f hf)
    · rcases Bool.or_eq_true_iff.mp hsel with hs | hs
      · rw [@startsKw_append_lim "SELECT" 'S' ("ELECT".data) rfl _ hs]
        rfl
      · rw [@startsKw_append_lim "WITH" 'W' ("ITH".data) rfl _ hs]
        simp
    · exact containsLimitUpper_append _
  · subst hout
    exact streamlitOkIntro hidem hfind hsel hlim

theorem main_idem : ∀ (sql out : String),
    MainApp.sanitize_sql sql = .ok out → MainApp.sanitize_sql out = .ok out := by
  intro sql out h
  obtain ⟨hfind, hsel, hchk, hcase⟩ := mainSanitizeOkElim h
  have hidem := sqlFormatChars_idem sql.data
  have hnc := (norm_ncup sql.data).1
  have hup := (norm_ncup sql.data).2
  have htrim := sqlFormatChars_trim sql.data
  have hPne : sqlFormatChars sql.data ≠ [] :=
    @startsKw_ne_nil "SELECT" 'S' ("ELECT".data) rfl _ hsel
  rcases hcase with ⟨hlim, hout⟩ | ⟨hlim, hout⟩
  · subst hout
    show MainApp.sanitize_sql (String.mk (sqlFormatChars sql.data ++ limChars))
      = .ok (String.mk (sqlFormatChars sql.data ++ limChars))
    apply mainOkIntro
    · exact sqlFormat_append_lim hnc hup htrim hPne
    · apply find?_none_of_all
      intro f hf
      exact reSearchWB_append_lim hf (all_of_find?_none hfind f hf)
    · exact @startsKw_append_lim "SELECT" 'S' ("ELECT".data) rfl _ hsel
    · exact fromCheck_append_lim hnc (trimTrail_of_trimChars htrim) hPne hchk
    · exact containsLimitUpper_append _
  · subst hout
    exact mainOkIntro hidem hfind hsel hchk hlim

end Tethys
namespace Tethys

/-- C9: validation is idempotent for both cited validators: whenever
main_app.sanitize_sql or streamlit_app.sanitize_sql accepts a candidate
and returns a statement, running the same validator on that returned
statement accepts it and returns the identical statement, with no
rejection and no second limit clause appended. -/
theorem c9_validation_idempotent (sql out : String) :
    (MainApp.sanitize_sql sql = .ok out → MainApp.sanitize_sql out = .ok out) ∧
    (StreamlitApp.sanitize_sql sql = .ok out →
      StreamlitApp.sanitize_sql out = .ok out) :=
  ⟨main_idem sql out, streamlit_idem sql out⟩

/-- C9 witness: a scenario statement without a limit clause is accepted by
both validators with the limit appended, and each validator run again on
its returned statement returns it identically. -/
theorem c9_witness :
    MainApp.sanitize_sql "SELECT latitude FROM profiles"
      = .ok "SELECT latitude FROM profiles LIMIT 1000" ∧
    MainApp.sanitize_sql "SELECT latitude FROM profiles LIMIT 1000"
      = .ok "SELECT latitude FROM profiles LIMIT 1000" ∧
    StreamlitApp.sanitize_sql "SELECT latitude FROM profiles"
      = .ok "SELECT latitude FROM profiles LIMIT 1000" ∧
    StreamlitApp.sanitize_sql "SELECT latitude FROM profiles LIMIT 1000"
      = .ok "SELECT latitude FROM profiles LIMIT 1000" :=
  ⟨by decide,
   (c9_validation_idempotent "SELECT latitude FROM profiles"
       "SELECT latitude FROM profiles LIMIT 1000").1 (by decide),
   by decide,
   (c9_validation_idempotent "SELECT latitude FROM profiles"
       "SELECT latitude FROM profiles LIMIT 1000").2 (by decide)⟩

end Tethys
